import Mathlib

/-!
Verification development for the decompiler structuring core
(`angr/analyses/decompiler/structuring/structurer_base.py`).

The AIL statement/expression model, the structured-node model, and the
generic sequence walker are embedded shallowly; each simplification or
rewriting pass of `StructurerBase` becomes a recursive Lean function over
the node tree, with Python in-place mutation turned into explicit
tree-rebuilding and Python exceptions turned into `Except`.
-/

set_option maxHeartbeats 1000000

namespace Structuring

/-- Python exceptions that the embedded code can raise. -/
inductive PyErr
  | angrDecompilationError
  | attributeError
  | typeError
  deriving DecidableEq, Repr

/-- The `sort` tag of a `LoopNode` (`"while"`, `"do-while"`, `"head-controlled"`). -/
inductive LoopSort
  | whileSort
  | doWhileSort
  | headControlled
  deriving DecidableEq, Repr

/-- AIL expressions, restricted to the shapes the structuring passes inspect:
constants (with an expression index and a bit width), opaque atoms
(registers, temporaries, comparisons, ...), the `UnaryOp("Not", ·)`
wrapper, and `MultiStatementExpression` (only its `ins_addr` is read). -/
inductive Expr
  | econst (idx : Option Nat) (v : Nat) (bits : Nat)
  | evar (idx : Option Nat) (n : Nat)
  | enot (idx : Option Nat) (e : Expr)
  | emse (idx : Option Nat) (insAddr : Nat)
  deriving DecidableEq, Repr

/-- The `.idx` attribute of an AIL expression. -/
def Expr.eidx : Expr → Option Nat
  | .econst i _ _ => i
  | .evar i _ => i
  | .enot i _ => i
  | .emse i _ => i

/-- The `.value` attribute access on an AIL expression: only `Const` has it;
on any other expression it raises `AttributeError`. -/
def Expr.valueA : Expr → Except PyErr Nat
  | .econst _ v _ => .ok v
  | _ => .error .attributeError

/-- Claripy boolean ASTs, as produced by the condition processor. -/
inductive CExpr
  | atom (n : Nat)
  | cconst (v : Nat)
  | cnot (c : CExpr)
  | cand (a b : CExpr)
  | cor (a b : CExpr)
  deriving DecidableEq, Repr

/-- Modelled from the spec: `ConditionProcessor.claripy_ast_from_ail_condition`
(the condition processor is not part of the provided sources).  Per §4.1 it is
a structural translation of AIL boolean expressions into the claripy algebra;
`UnaryOp("Not", e)` becomes claripy `Not`. -/
def claripyOfAil : Expr → CExpr
  | .econst _ v _ => .cconst v
  | .evar _ n => .atom n
  | .enot _ e => .cnot (claripyOfAil e)
  | .emse _ a => .atom a

/-- Modelled from the spec: `ConditionProcessor.simplify_condition` (absent
from the provided sources).  Per §4.1 it is a pure, deterministic, idempotent
simplification applying standard boolean laws; we model the double-negation
law (`not(not(a))` folds to `a`), which is all the structuring passes rely
on. -/
def simplifyCond : CExpr → CExpr
  | .atom n => .atom n
  | .cconst v => .cconst v
  | .cnot c =>
    match simplifyCond c with
    | .cnot d => d
    | d => .cnot d
  | .cand a b => .cand (simplifyCond a) (simplifyCond b)
  | .cor a b => .cor (simplifyCond a) (simplifyCond b)

/-- AIL statements, restricted to the shapes the structuring passes inspect:
`Jump`, `ConditionalJump`, `Label`, and opaque non-control statements.
The `ins_addr` tag is carried explicitly; `**stmt.tags` propagation keeps
it. -/
inductive Stmt
  | jump (idx : Option Nat) (target : Expr) (targetIdx : Option Nat) (insAddr : Nat)
  | condJump (idx : Option Nat) (cond : Expr) (trueT falseT : Option Expr)
      (trueIdx falseIdx : Option Nat) (insAddr : Nat)
  | lbl (insAddr : Nat) (blockIdx : Option Nat)
  | other (uid : Nat) (insAddr : Nat)
  deriving DecidableEq, Repr

/-- The `.ins_addr` tag of a statement. -/
def Stmt.insA : Stmt → Nat
  | .jump _ _ _ a => a
  | .condJump _ _ _ _ _ _ a => a
  | .lbl a _ => a
  | .other _ a => a

/-- `isinstance(stmt, (ailment.Stmt.Jump, ailment.Stmt.ConditionalJump))`. -/
def Stmt.isJumpish : Stmt → Bool
  | .jump _ _ _ _ => true
  | .condJump _ _ _ _ _ _ _ => true
  | _ => false

/-- Modelled from the spec: `angr.analyses.decompiler.utils.extract_jump_targets`
(absent from the provided sources).  Per §6 a node exposes the constant target
addresses of its final control-transfer statement: the constant target of a
`Jump`, and the constant members of a `ConditionalJump`'s target pair. -/
def extract_jump_targets : Stmt → List Nat
  | .jump _ (.econst _ v _) _ _ => [v]
  | .jump _ _ _ _ => []
  | .condJump _ _ t f _ _ _ =>
    (match t with | some (.econst _ v _) => [v] | _ => []) ++
    (match f with | some (.econst _ v _) => [v] | _ => [])
  | _ => []

mutual
/-- Structured nodes (`structurer_nodes.py` is not part of the provided
sources; the variants and fields are modelled from the spec §3 and from how
`structurer_base.py` constructs and inspects them).  `block` is
`ailment.Block` (address, original size as a Python integer, statements,
block index); `osize` is an `Int` because the code computes sizes by
subtraction. -/
inductive Node
  | block (addr : Nat) (osize : Int) (stmts : List Stmt) (idx : Option Nat)
  | multi (addr : Nat) (idx : Option Nat) (nodes : NodeList)
  | seqn (addr : Option Nat) (nodes : NodeList)
  | codeN (inner : Node)
  | condN (addr : Nat) (reach : Option CExpr) (cond : CExpr) (tn fn : ONode)
  | loopN (addr : Nat) (sort : LoopSort) (cond : Option Expr) (body : Node)
  | switchN (addr : Nat) (cases : CaseList) (defaultN : ONode) (switchEnd : Option Nat)
  | breakN (addr : Nat) (target : Nat)
  | condBreakN (addr : Nat) (cond : CExpr) (target : Nat)
  | contN (addr : Nat) (target : Nat)

/-- `Optional[BaseNode]` (an explicit mutual type so that structural recursion
over the tree is available). -/
inductive ONode
  | none
  | some (n : Node)

/-- A list of nodes (an explicit mutual type so that structural recursion
over the tree is available). -/
inductive NodeList
  | nil
  | cons (hd : Node) (tl : NodeList)

/-- The ordered `cases` mapping of a `SwitchCaseNode` (case key to node). -/
inductive CaseList
  | nil
  | cons (key : Nat) (n : Node) (tl : CaseList)
end

deriving instance DecidableEq for Node
deriving instance Repr for Node

/-- Convert a plain list of nodes into a `NodeList`. -/
def NodeList.ofList : List Node → NodeList
  | [] => .nil
  | n :: l => .cons n (NodeList.ofList l)

/-- Append two `NodeList`s. -/
def NodeList.append : NodeList → NodeList → NodeList
  | .nil, l => l
  | .cons n tl, l => .cons n (NodeList.append tl l)

/-- The `.addr` attribute common to all structured nodes (a `SequenceNode`
may have `None`; `CodeNode.addr` delegates to the wrapped node). -/
def Node.addrO : Node → Option Nat
  | .block a _ _ _ => some a
  | .multi a _ _ => some a
  | .seqn a _ => a
  | .codeN inner => Node.addrO inner
  | .condN a _ _ _ _ => some a
  | .loopN a _ _ _ => some a
  | .switchN a _ _ _ => some a
  | .breakN a _ => some a
  | .condBreakN a _ _ => some a
  | .contN a _ => some a

/-! ## `StructurerBase._loop_create_break_node` -/

/-- Reading `true_target_value` / `false_target_value` in
`_loop_create_break_node`: `None` stays `None`, otherwise the `.value`
attribute is read (raising `AttributeError` on a non-constant target). -/
def optTargetValue : Option Expr → Except PyErr (Option Nat)
  | Option.none => .ok Option.none
  | Option.some e =>
    match e.valueA with
    | .ok v => .ok (some v)
    | .error er => .error er

/-- `StructurerBase._loop_create_break_node(last_stmt, loop_successor_addrs)`:
synthesize a `BreakNode` or `ConditionalBreakNode` for a loop-exiting jump,
raising `AngrDecompilationError` when no branch of a conditional jump leaves
the loop. -/
def loop_create_break_node (last_stmt : Stmt) (succ : List Nat) :
    Except PyErr (Option Node) :=
  match last_stmt with
  | .jump _ target _ ia =>
    match target.valueA with
    | .ok v => .ok (some (.breakN ia v))
    | .error er => .error er
  | .condJump _ cond tT fT _ _ ia =>
    match optTargetValue tT with
    | .error er => .error er
    | .ok tv =>
      match optTargetValue fT with
      | .error er => .error er
      | .ok fv =>
        -- the four guards of the source, with `x is not None and x in succ`
        -- and `x is None or x not in succ` expanded by cases on the options
        match tv, fv with
        | Option.some a, Option.some b =>
          if a ∈ succ ∧ b ∉ succ then
            .ok (some (.condBreakN ia (claripyOfAil cond) a))
          else if b ∈ succ ∧ a ∉ succ then
            .ok (some (.condBreakN ia (claripyOfAil (.enot cond.eidx cond)) b))
          else if b ∈ succ ∧ a ∈ succ then
            .ok (some (.breakN ia b))
          else .error .angrDecompilationError
        | Option.some a, Option.none =>
          if a ∈ succ then .ok (some (.condBreakN ia (claripyOfAil cond) a))
          else .error .angrDecompilationError
        | Option.none, Option.some b =>
          if b ∈ succ then
            .ok (some (.condBreakN ia (claripyOfAil (.enot cond.eidx cond)) b))
          else .error .angrDecompilationError
        | Option.none, Option.none => .error .angrDecompilationError
  | _ => .ok Option.none

/-- The claim-C2 precondition on one target of the conditional jump: the
target is absent or a constant address outside the loop-successor set. -/
def optConstNotIn (succ : List Nat) : Option Expr → Prop
  | Option.none => True
  | Option.some (.econst _ v _) => v ∉ succ
  | Option.some _ => False

/-- C1: for a conditional jump with two constant targets, the break-node
synthesis returns a `ConditionalBreakNode` with the statement's condition and
the true target when only the true target is a loop successor; a
`ConditionalBreakNode` with the negated condition and the false target when
only the false target is a loop successor; and a plain `BreakNode` targeting
the false target when both are loop successors. -/
theorem loop_create_break_node_const_cases (idx ti fi bi bj : Option Nat)
    (c : Expr) (tv fv tb fb ia : Nat) (succ : List Nat) :
    (tv ∈ succ → fv ∉ succ →
      loop_create_break_node
        (.condJump idx c (some (.econst bi tv tb)) (some (.econst bj fv fb)) ti fi ia) succ
        = .ok (some (.condBreakN ia (claripyOfAil c) tv)))
    ∧ (fv ∈ succ → tv ∉ succ →
      loop_create_break_node
        (.condJump idx c (some (.econst bi tv tb)) (some (.econst bj fv fb)) ti fi ia) succ
        = .ok (some (.condBreakN ia (.cnot (claripyOfAil c)) fv)))
    ∧ (tv ∈ succ → fv ∈ succ →
      loop_create_break_node
        (.condJump idx c (some (.econst bi tv tb)) (some (.econst bj fv fb)) ti fi ia) succ
        = .ok (some (.breakN ia fv))) := by
  refine ⟨?_, ?_, ?_⟩ <;> intro h1 h2 <;>
    simp [loop_create_break_node, optTargetValue, Expr.valueA, claripyOfAil, h1, h2]

/-- Closed witness for `loop_create_break_node_const_cases`. -/
theorem loop_create_break_node_const_cases_witness :
    loop_create_break_node
      (.condJump Option.none (.evar Option.none 0) (some (.econst Option.none 5 32))
        (some (.econst Option.none 7 32)) Option.none Option.none 100) [5]
      = .ok (some (.condBreakN 100 (.atom 0) 5)) :=
  (loop_create_break_node_const_cases Option.none Option.none Option.none Option.none
    Option.none (.evar Option.none 0) 5 7 32 32 100 [5]).1 (by decide) (by decide)

/-- C2: for a conditional jump none of whose (absent-or-constant) targets
lies in the loop-successor set, `_loop_create_break_node` raises the
distinguished `AngrDecompilationError` instead of returning a node. -/
theorem loop_create_break_node_raises (idx ti fi : Option Nat) (c : Expr)
    (tT fT : Option Expr) (ia : Nat) (succ : List Nat)
    (ht : optConstNotIn succ tT) (hf : optConstNotIn succ fT) :
    loop_create_break_node (.condJump idx c tT fT ti fi ia) succ
      = .error .angrDecompilationError := by
  match tT, ht with
  | Option.none, _ =>
    match fT, hf with
    | Option.none, _ => simp [loop_create_break_node, optTargetValue]
    | Option.some (.econst j w b), hf =>
      simp [loop_create_break_node, optTargetValue, Expr.valueA, optConstNotIn] at hf ⊢
      simp [hf]
  | Option.some (.econst i v a), ht =>
    match fT, hf with
    | Option.none, _ =>
      simp [loop_create_break_node, optTargetValue, Expr.valueA, optConstNotIn] at ht ⊢
      simp [ht]
    | Option.some (.econst j w b), hf =>
      simp [loop_create_break_node, optTargetValue, Expr.valueA, optConstNotIn] at ht hf ⊢
      simp [ht, hf]

/-- Closed witness for `loop_create_break_node_raises`. -/
theorem loop_create_break_node_raises_witness :
    loop_create_break_node
      (.condJump Option.none (.evar Option.none 0) (some (.econst Option.none 5 32))
        (some (.econst Option.none 7 32)) Option.none Option.none 100) [9]
      = .error .angrDecompilationError :=
  loop_create_break_node_raises Option.none Option.none Option.none (.evar Option.none 0)
    (some (.econst Option.none 5 32)) (some (.econst Option.none 7 32)) 100 [9]
    (by simp [optConstNotIn]) (by simp [optConstNotIn])

/-! ## `StructurerBase._switch_find_switch_end_addr` -/

mutual
/-- The `_find_gotos` walk of `_switch_find_switch_end_addr`: collect, for
every `ailment.Block` in walker order, the constant target of a trailing
`Jump` statement.  The default walker handlers recurse into every variant's
children in their natural order (spec §4.3). -/
def goto_targets : Node → List Nat
  | .block _ _ stmts _ =>
    match stmts.getLast? with
    | some (.jump i t ti a) => extract_jump_targets (.jump i t ti a)
    | _ => []
  | .multi _ _ l => goto_targets_list l
  | .seqn _ l => goto_targets_list l
  | .codeN inner => goto_targets inner
  | .condN _ _ _ t f => goto_targets_opt t ++ goto_targets_opt f
  | .loopN _ _ _ body => goto_targets body
  | .switchN _ cs d _ => goto_targets_cases cs ++ goto_targets_opt d
  | .breakN _ _ => []
  | .condBreakN _ _ _ => []
  | .contN _ _ => []

/-- Walk an optional child node. -/
def goto_targets_opt : ONode → List Nat
  | .none => []
  | .some n => goto_targets n

/-- Walk a list of child nodes in order. -/
def goto_targets_list : NodeList → List Nat
  | .nil => []
  | .cons n tl => goto_targets n ++ goto_targets_list tl

/-- Walk the cases of a switch node in order. -/
def goto_targets_cases : CaseList → List Nat
  | .nil => []
  | .cons _ n tl => goto_targets n ++ goto_targets_cases tl
end

/-- The skip test of `_find_gotos`: `t in cases or (default is not None and
t == default.addr)`. -/
def is_case_entry (cases : List (Nat × Node)) (default : Option Node) (t : Nat) : Bool :=
  decide (t ∈ cases.map Prod.fst) ||
    (match default with | some d => decide (d.addrO = some t) | Option.none => false)

/-- The surviving goto targets counted by `_switch_find_switch_end_addr`:
trailing-goto targets of all case bodies (in case order) and of the default
body, minus targets that are case keys or the default node's address. -/
def switch_end_candidates (cases : List (Nat × Node)) (default : Option Node) : List Nat :=
  (((cases.map fun p => goto_targets p.2).foldr (· ++ ·) []) ++
    (match default with | some d => goto_targets d | Option.none => [])).filter
    fun t => !is_case_entry cases default t

/-- The keys of the `goto_addrs` counter dictionary, in first-insertion
order. -/
def firstOccurrences : List Nat → List Nat
  | [] => []
  | t :: rest => t :: firstOccurrences (rest.filter (· ≠ t))
termination_by l => l.length
decreasing_by
  simp only [List.length_cons]
  exact Nat.lt_succ_of_le (List.length_filter_le _ _)

/-- The distinct candidate pool after the region restriction of
`_switch_find_switch_end_addr` (restrict to region-node addresses when more
than one distinct target exists and some target is a region-node address). -/
def switch_end_pool (cases : List (Nat × Node)) (default : Option Node)
    (region_node_addrs : List Nat) : List Nat :=
  if (firstOccurrences (switch_end_candidates cases default)).length > 1 ∧
      (firstOccurrences (switch_end_candidates cases default)).any
        (fun a => decide (a ∈ region_node_addrs)) then
    (firstOccurrences (switch_end_candidates cases default)).filter
      (fun a => decide (a ∈ region_node_addrs))
  else firstOccurrences (switch_end_candidates cases default)

/-- `StructurerBase._switch_find_switch_end_addr(cases, default,
region_node_addrs)`: `None` when no goto statement was found, otherwise the
most frequent candidate (stable-descending sort by count, so ties go to the
first-inserted candidate). -/
def switch_find_switch_end_addr (cases : List (Nat × Node)) (default : Option Node)
    (region_node_addrs : List Nat) : Option Nat :=
  if firstOccurrences (switch_end_candidates cases default) = [] then Option.none
  else
    match switch_end_pool cases default region_node_addrs with
    | [] => Option.none
    | p :: ps =>
      some (ps.foldl
        (fun best t =>
          if (switch_end_candidates cases default).count t >
              (switch_end_candidates cases default).count best then t else best) p)

/-- The empty list is the only list with an empty first-occurrence list. -/
theorem firstOccurrences_eq_nil_iff (l : List Nat) : firstOccurrences l = [] ↔ l = [] := by
  cases l with
  | nil => simp [firstOccurrences]
  | cons t rest => simp [firstOccurrences]

/-- Membership is preserved by `firstOccurrences`. -/
theorem mem_firstOccurrences (l : List Nat) (a : Nat) :
    a ∈ firstOccurrences l ↔ a ∈ l := by
  induction l using firstOccurrences.induct with
  | case1 => simp [firstOccurrences]
  | case2 t rest ih =>
    simp only [firstOccurrences, List.mem_cons, ih, List.mem_filter]
    constructor
    · rintro (rfl | ⟨h, _⟩)
      · exact Or.inl rfl
      · exact Or.inr h
    · rintro (rfl | h)
      · exact Or.inl rfl
      · by_cases ha : a = t
        · exact Or.inl ha
        · exact Or.inr ⟨h, by simpa using ha⟩

/-- The stable arg-max fold returns an element of the pool whose count is
maximal. -/
theorem argmax_fold_spec (cand : List Nat) (p : Nat) (ps : List Nat) :
    (ps.foldl (fun best t => if cand.count t > cand.count best then t else best) p) ∈ p :: ps
    ∧ ∀ u ∈ p :: ps,
        cand.count u ≤
          cand.count (ps.foldl (fun best t => if cand.count t > cand.count best then t else best) p) := by
  induction ps generalizing p with
  | nil => simp
  | cons q qs ih =>
    simp only [List.foldl_cons]
    by_cases h : cand.count q > cand.count p
    · rw [if_pos h]
      obtain ⟨hmem, hmax⟩ := ih q
      rw [List.mem_cons] at hmem
      refine ⟨?_, ?_⟩
      · rw [List.mem_cons, List.mem_cons]
        exact Or.inr hmem
      · intro u hu
        rw [List.mem_cons, List.mem_cons] at hu
        rcases hu with rfl | rfl | hu
        · exact le_trans (le_of_lt h) (hmax q (List.mem_cons_self _ _))
        · exact hmax u (List.mem_cons_self _ _)
        · exact hmax u (List.mem_cons_of_mem _ hu)
    · rw [if_neg h]
      obtain ⟨hmem, hmax⟩ := ih p
      rw [List.mem_cons] at hmem
      refine ⟨?_, ?_⟩
      · rw [List.mem_cons, List.mem_cons]
        rcases hmem with h1 | h1
        · exact Or.inl h1
        · exact Or.inr (Or.inr h1)
      · intro u hu
        rw [List.mem_cons, List.mem_cons] at hu
        rcases hu with rfl | rfl | hu
        · exact hmax u (List.mem_cons_self _ _)
        · exact le_trans (Nat.le_of_not_lt h) (hmax p (List.mem_cons_self _ _))
        · exact hmax u (List.mem_cons_of_mem _ hu)

/-- The candidate pool is nonempty whenever a candidate exists. -/
theorem switch_end_pool_ne_nil (cases : List (Nat × Node)) (default : Option Node)
    (region_node_addrs : List Nat) (h : switch_end_candidates cases default ≠ []) :
    switch_end_pool cases default region_node_addrs ≠ [] := by
  have hne : firstOccurrences (switch_end_candidates cases default) ≠ [] :=
    fun hh => h ((firstOccurrences_eq_nil_iff _).mp hh)
  unfold switch_end_pool
  split
  · next hcond =>
    obtain ⟨-, hany⟩ := hcond
    obtain ⟨a, hmem, ha⟩ := List.any_eq_true.mp hany
    exact List.ne_nil_of_mem (List.mem_filter.mpr ⟨hmem, ha⟩)
  · exact hne

/-- C3: the switch-end-address computation returns `None` exactly when no
case or default body has a trailing goto to a target outside the
case/default entry addresses; otherwise it returns a candidate of maximal
occurrence count drawn from the (possibly region-restricted) candidate
pool. -/
theorem switch_find_switch_end_addr_spec (cases : List (Nat × Node))
    (default : Option Node) (region_node_addrs : List Nat) :
    (switch_find_switch_end_addr cases default region_node_addrs = Option.none ↔
      switch_end_candidates cases default = [])
    ∧ (switch_end_candidates cases default ≠ [] →
      ∃ t, switch_find_switch_end_addr cases default region_node_addrs = some t ∧
        t ∈ switch_end_pool cases default region_node_addrs ∧
        ∀ u ∈ switch_end_pool cases default region_node_addrs,
          (switch_end_candidates cases default).count u ≤
            (switch_end_candidates cases default).count t) := by
  constructor
  · constructor
    · intro hnone
      by_contra hne
      have hfo : ¬ firstOccurrences (switch_end_candidates cases default) = [] :=
        fun hh => hne ((firstOccurrences_eq_nil_iff _).mp hh)
      unfold switch_find_switch_end_addr at hnone
      rw [if_neg hfo] at hnone
      have hpool := switch_end_pool_ne_nil cases default region_node_addrs hne
      revert hnone
      split
      · next heq => exact absurd heq hpool
      · simp
    · intro hnil
      unfold switch_find_switch_end_addr
      rw [if_pos ((firstOccurrences_eq_nil_iff _).mpr hnil)]
  · intro hne
    have hfo : ¬ firstOccurrences (switch_end_candidates cases default) = [] :=
      fun hh => hne ((firstOccurrences_eq_nil_iff _).mp hh)
    have hpool := switch_end_pool_ne_nil cases default region_node_addrs hne
    unfold switch_find_switch_end_addr
    rw [if_neg hfo]
    revert hpool
    cases hsp : switch_end_pool cases default region_node_addrs with
    | nil => intro hpool; exact absurd rfl hpool
    | cons p ps =>
      intro _
      obtain ⟨hmem, hmax⟩ := argmax_fold_spec (switch_end_candidates cases default) p ps
      exact ⟨_, rfl, hmem, hmax⟩

/-- Closed witness for `switch_find_switch_end_addr_spec`: one case whose
body ends in `goto 0x2000`. -/
theorem switch_find_switch_end_addr_spec_witness :
    ∃ t,
      switch_find_switch_end_addr
        [(0, .block 16 4 [.jump Option.none (.econst Option.none 8192 32) Option.none 16] Option.none)]
        Option.none []
        = some t ∧
      t ∈ switch_end_pool
        [(0, .block 16 4 [.jump Option.none (.econst Option.none 8192 32) Option.none 16] Option.none)]
        Option.none [] ∧
      ∀ u ∈ switch_end_pool
        [(0, .block 16 4 [.jump Option.none (.econst Option.none 8192 32) Option.none 16] Option.none)]
        Option.none [],
        (switch_end_candidates
          [(0, .block 16 4 [.jump Option.none (.econst Option.none 8192 32) Option.none 16] Option.none)]
          Option.none).count u ≤
        (switch_end_candidates
          [(0, .block 16 4 [.jump Option.none (.econst Option.none 8192 32) Option.none 16] Option.none)]
          Option.none).count t :=
  (switch_find_switch_end_addr_spec
    [(0, .block 16 4 [.jump Option.none (.econst Option.none 8192 32) Option.none 16] Option.none)]
    Option.none []).2 (by decide)

/-! ## `StructurerBase._merge_conditional_breaks` -/

/-- `node.node if type(node) is CodeNode else node`: one level of `CodeNode`
unwrapping. -/
def unwrapCode : Node → Node
  | .codeN inner => inner
  | n => n

/-- The `isinstance(node, ConditionalBreakNode)` test applied after
`CodeNode` unwrapping, together with the fields read on success. -/
def cbFields (n : Node) : Option (Nat × CExpr × Nat) :=
  match unwrapCode n with
  | .condBreakN a c t => some (a, c, t)
  | _ => Option.none

/-- Length of a `NodeList`. -/
def NodeList.length : NodeList → Nat
  | .nil => 0
  | .cons _ tl => NodeList.length tl + 1

/-- Last element of a `NodeList`, if any. -/
def NodeList.lastO : NodeList → Option Node
  | .nil => Option.none
  | .cons x .nil => some x
  | .cons _ tl => NodeList.lastO tl

/-- Head of a `NodeList`, if any. -/
def NodeList.headO : NodeList → Option Node
  | .nil => Option.none
  | .cons x _ => some x

mutual
/-- The `_merge_conditional_breaks` pass (walker dispatch): the custom
handler applies to `SequenceNode`s; all other variants get the default
recursion into their children.  Returns the rewritten node and the
`_Holder.merged` flag. -/
def mcb_node : Node → Node × Bool
  | .block a sz stmts i => (.block a sz stmts i, false)
  | .multi a i l => (.multi a i (mcb_children l).1, (mcb_children l).2)
  | .seqn a l => (.seqn a (mcb_nodes l).1, (mcb_nodes l).2)
  | .codeN inner => (.codeN (mcb_node inner).1, (mcb_node inner).2)
  | .condN a r c t f =>
    (.condN a r c (mcb_onode t).1 (mcb_onode f).1, (mcb_onode t).2 || (mcb_onode f).2)
  | .loopN a s c b => (.loopN a s c (mcb_node b).1, (mcb_node b).2)
  | .switchN a cs d e =>
    (.switchN a (mcb_cases cs).1 (mcb_onode d).1 e, (mcb_cases cs).2 || (mcb_onode d).2)
  | .breakN a t => (.breakN a t, false)
  | .condBreakN a c t => (.condBreakN a c t, false)
  | .contN a t => (.contN a t, false)

/-- Default recursion into an optional child. -/
def mcb_onode : ONode → ONode × Bool
  | .none => (.none, false)
  | .some n => (.some (mcb_node n).1, (mcb_node n).2)

/-- Default recursion into the children of a non-`Sequence` container. -/
def mcb_children : NodeList → NodeList × Bool
  | .nil => (.nil, false)
  | .cons x tl => (.cons (mcb_node x).1 (mcb_children tl).1, (mcb_node x).2 || (mcb_children tl).2)

/-- Default recursion into switch cases. -/
def mcb_cases : CaseList → CaseList × Bool
  | .nil => (.nil, false)
  | .cons k n tl => (.cons k (mcb_node n).1 (mcb_cases tl).1, (mcb_node n).2 || (mcb_cases tl).2)

/-- The custom `SequenceNode` handler of `_merge_conditional_breaks`: scan
the children; a maximal run of consecutive (possibly `CodeNode`-wrapped)
`ConditionalBreakNode`s is left-folded into a single plain
`ConditionalBreakNode` whose condition is
`simplify(Or(current, previous))`; all other children get the default
walker recursion. -/
def mcb_nodes : NodeList → NodeList × Bool
  | .nil => (.nil, false)
  | .cons x tl =>
    match cbFields x with
    | some _ => mcb_after_cb x tl
    | Option.none => (.cons (mcb_node x).1 (mcb_nodes tl).1, (mcb_node x).2 || (mcb_nodes tl).2)

/-- Continuation of `mcb_nodes` inside a conditional-break run: `emit` is the
merged-so-far node (the original, possibly wrapped, node while the run has
length one). -/
def mcb_after_cb (emit : Node) : NodeList → NodeList × Bool
  | .nil => (.cons emit .nil, false)
  | .cons y tl =>
    match cbFields y, cbFields emit with
    | some (ay, cy, ty), some (_, ce, _) =>
      ((mcb_after_cb (.condBreakN ay (simplifyCond (.cor cy ce)) ty) tl).1, true)
    | _, _ =>
      (.cons emit (.cons (mcb_node y).1 (mcb_nodes tl).1), (mcb_node y).2 || (mcb_nodes tl).2)
end

/-- The last element of a list with a nonempty tail is the tail's last
element. -/
theorem NodeList.lastO_cons_of_ne_nil (x : Node) (tl : NodeList) (h : tl ≠ .nil) :
    (NodeList.cons x tl).lastO = tl.lastO := by
  cases tl with
  | nil => exact absurd rfl h
  | cons y tl2 => rfl

/-- The last child of the list, if any, is not a (possibly `CodeNode`-
wrapped) `ConditionalBreakNode`. -/
def tailNotCB (l : NodeList) : Prop :=
  ∀ x, l.lastO = some x → cbFields x = Option.none

/-- A list whose last element is clean has a clean tail. -/
theorem tailNotCB_of_cons (x : Node) (tl : NodeList) (h : tailNotCB (.cons x tl)) :
    tailNotCB tl := by
  intro z hz
  cases tl with
  | nil => simp [NodeList.lastO] at hz
  | cons y tl2 =>
    refine h z ?_
    rw [NodeList.lastO_cons_of_ne_nil x _ (fun hh => NodeList.noConfusion hh)]
    exact hz

/-- Splitting `_merge_conditional_breaks`' sequence scan at a clean boundary:
if the prefix does not end in a conditional break, the scan distributes over
the concatenation (both for the top-level scan and for the scan inside a
conditional-break run). -/
theorem mcb_append_aux (n : Nat) :
    (∀ pre rest : NodeList, pre.length ≤ n → tailNotCB pre →
      mcb_nodes (pre.append rest)
        = ((mcb_nodes pre).1.append (mcb_nodes rest).1,
           (mcb_nodes pre).2 || (mcb_nodes rest).2))
    ∧ (∀ (e : Node) (pre rest : NodeList), pre.length ≤ n → pre ≠ .nil → tailNotCB pre →
      mcb_after_cb e (pre.append rest)
        = ((mcb_after_cb e pre).1.append (mcb_nodes rest).1,
           (mcb_after_cb e pre).2 || (mcb_nodes rest).2)) := by
  induction n with
  | zero =>
    constructor
    · intro pre rest hlen _
      cases pre with
      | nil => simp [NodeList.append, mcb_nodes]
      | cons x tl => simp [NodeList.length] at hlen
    · intro e pre rest hlen hne _
      cases pre with
      | nil => exact absurd rfl hne
      | cons x tl => simp [NodeList.length] at hlen
  | succ n ih =>
    obtain ⟨ihD, ihD2⟩ := ih
    constructor
    · intro pre rest hlen htail
      cases pre with
      | nil => simp [NodeList.append, mcb_nodes]
      | cons x tl =>
        have hlen2 : tl.length ≤ n := by
          simp only [NodeList.length] at hlen
          omega
        have htl := tailNotCB_of_cons x tl htail
        show mcb_nodes (.cons x (tl.append rest)) = _
        cases hx : cbFields x with
        | none =>
          rw [mcb_nodes, hx]
          conv_rhs => rw [mcb_nodes, hx]
          dsimp only
          rw [ihD tl rest hlen2 htl]
          simp [NodeList.append, Bool.or_assoc]
        | some v =>
          have hne2 : tl ≠ .nil := by
            intro hh
            subst hh
            have := htail x rfl
            rw [hx] at this
            exact Option.noConfusion this
          rw [mcb_nodes, hx]
          conv_rhs => rw [mcb_nodes, hx]
          obtain ⟨av, cv, tv⟩ := v
          dsimp only
          exact ihD2 x tl rest hlen2 hne2 htl
    · intro e pre rest hlen hne htail
      cases pre with
      | nil => exact absurd rfl hne
      | cons y tl =>
        have hlen2 : tl.length ≤ n := by
          simp only [NodeList.length] at hlen
          omega
        have htl := tailNotCB_of_cons y tl htail
        show mcb_after_cb e (.cons y (tl.append rest)) = _
        cases hy : cbFields y with
        | none =>
          rw [mcb_after_cb, hy]
          conv_rhs => rw [mcb_after_cb, hy]
          dsimp only
          rw [ihD tl rest hlen2 htl]
          simp [NodeList.append, Bool.or_assoc]
        | some v =>
          have hne2 : tl ≠ .nil := by
            intro hh
            subst hh
            have := htail y rfl
            rw [hy] at this
            exact Option.noConfusion this
          obtain ⟨ay, cy, ty⟩ := v
          cases he : cbFields e with
          | none =>
            rw [mcb_after_cb, hy, he]
            conv_rhs => rw [mcb_after_cb, hy, he]
            dsimp only
            rw [ihD tl rest hlen2 htl]
            simp [NodeList.append, Bool.or_assoc]
          | some w =>
            obtain ⟨ae, ce, te⟩ := w
            rw [mcb_after_cb, hy, he]
            conv_rhs => rw [mcb_after_cb, hy, he]
            dsimp only
            rw [ihD2 (.condBreakN ay (simplifyCond (.cor cy ce)) ty) tl rest hlen2 hne2 htl]
            simp

/-- Leaving a conditional-break run at a clean head: when the next child is
not a conditional break, the run closes by emitting the merged node. -/
theorem mcb_after_cb_clean_head (e : Node) (post : NodeList)
    (h : ∀ y, post.headO = some y → cbFields y = Option.none) :
    mcb_after_cb e post = (.cons e (mcb_nodes post).1, (mcb_nodes post).2) := by
  cases post with
  | nil => simp [mcb_after_cb, mcb_nodes]
  | cons y tl =>
    have hy := h y rfl
    rw [mcb_after_cb, hy]
    conv_rhs => rw [mcb_nodes, hy]

/-- C8-style head-cleanliness for the node after the merged pair. -/
def headNotCB (l : NodeList) : Prop :=
  ∀ y, l.headO = some y → cbFields y = Option.none

/-- C7 (amended): in a sequence `pre ++ [ConditionalBreak(A,E),
ConditionalBreak(B,E)] ++ post` whose boundary is clean (`pre` does not end
and `post` does not begin with a conditional break), the pass replaces the
pair with the single `ConditionalBreak(simplify(Or(B, A)), E)` — the second
sibling's condition is the first disjunct — and reports that a merge
occurred. -/
theorem merge_conditional_breaks_pair (a : Option Nat) (pre post : NodeList)
    (a1 a2 E : Nat) (A B : CExpr) (hpre : tailNotCB pre) (hpost : headNotCB post) :
    mcb_node (.seqn a (pre.append
        (.cons (.condBreakN a1 A E) (.cons (.condBreakN a2 B E) post))))
      = (.seqn a ((mcb_nodes pre).1.append
          (.cons (.condBreakN a2 (simplifyCond (.cor B A)) E) (mcb_nodes post).1)), true) := by
  have hmid : mcb_nodes (.cons (.condBreakN a1 A E) (.cons (.condBreakN a2 B E) post))
      = (.cons (.condBreakN a2 (simplifyCond (.cor B A)) E) (mcb_nodes post).1, true) := by
    rw [mcb_nodes]
    dsimp only [cbFields, unwrapCode]
    rw [mcb_after_cb]
    dsimp only [cbFields, unwrapCode]
    rw [mcb_after_cb_clean_head (.condBreakN a2 (simplifyCond (.cor B A)) E) post hpost]
  simp only [mcb_node]
  rw [(mcb_append_aux pre.length).1 pre _ le_rfl hpre, hmid]
  simp

/-- Closed witness for `merge_conditional_breaks_pair`. -/
theorem merge_conditional_breaks_pair_witness :
    mcb_node (.seqn Option.none
        (NodeList.append .nil (.cons (.condBreakN 4 (.atom 0) 7)
          (.cons (.condBreakN 5 (.atom 1) 7) .nil))))
      = (.seqn Option.none (NodeList.append (mcb_nodes .nil).1
          (.cons (.condBreakN 5 (simplifyCond (.cor (.atom 1) (.atom 0))) 7)
            (mcb_nodes .nil).1)), true) :=
  merge_conditional_breaks_pair Option.none .nil .nil 4 5 7 (.atom 0) (.atom 1)
    (fun x hx => by simp [NodeList.lastO] at hx)
    (fun y hy => by simp [NodeList.headO] at hy)

/-- C7 refuted as stated: merging `ConditionalBreak(A, 7)` followed by
`ConditionalBreak(B, 7)` yields condition `Or(B, A)`, which differs from the
claimed `simplify(Or(A, B))` already for distinct atoms `A`, `B`. -/
theorem merge_conditional_breaks_order_counterexample :
    (mcb_node (.seqn Option.none (.cons (.condBreakN 4 (.atom 0) 7)
        (.cons (.condBreakN 5 (.atom 1) 7) .nil)))).1
      = .seqn Option.none (.cons (.condBreakN 5 (.cor (.atom 1) (.atom 0)) 7) .nil)
    ∧ CExpr.cor (.atom 1) (.atom 0) ≠ simplifyCond (.cor (.atom 0) (.atom 1)) := by
  constructor
  · rfl
  · decide

/-! ## `StructurerBase._merge_nesting_conditionals` -/

/-- `_condnode_truenode_only`: after `CodeNode` unwrapping, a
`ConditionNode` with a true branch and no false branch (returning its
address, reaching condition, condition and true branch). -/
def condnode_truenode_only (n : Node) : Option (Nat × Option CExpr × CExpr × Node) :=
  match unwrapCode n with
  | .condN a r c (.some t) .none => some (a, r, c, t)
  | _ => Option.none

/-- `_condbreaknode`: after `CodeNode` unwrapping, a
`ConditionalBreakNode`, possibly nested in single-node `SequenceNode`s. -/
def condbreaknode : Node → Option (Nat × CExpr × Nat)
  | .codeN (.seqn _ (.cons m .nil)) => condbreaknode m
  | .codeN (.condBreakN a c t) => some (a, c, t)
  | .seqn _ (.cons m .nil) => condbreaknode m
  | .condBreakN a c t => some (a, c, t)
  | _ => Option.none

mutual
/-- The `_merge_nesting_conditionals` pass (walker dispatch): the custom
handler applies to `SequenceNode`s; all other variants get the default
recursion.  Conditions stored on nodes are already claripy ASTs, on which
`claripy_ast_from_ail_condition` is the identity. -/
def mnc_node : Node → Node × Bool
  | .block a sz stmts i => (.block a sz stmts i, false)
  | .multi a i l => (.multi a i (mnc_children l).1, (mnc_children l).2)
  | .seqn a l => (.seqn a (mnc_nodes l).1, (mnc_nodes l).2)
  | .codeN inner => (.codeN (mnc_node inner).1, (mnc_node inner).2)
  | .condN a r c t f =>
    (.condN a r c (mnc_onode t).1 (mnc_onode f).1, (mnc_onode t).2 || (mnc_onode f).2)
  | .loopN a s c b => (.loopN a s c (mnc_node b).1, (mnc_node b).2)
  | .switchN a cs d e =>
    (.switchN a (mnc_cases cs).1 (mnc_onode d).1 e, (mnc_cases cs).2 || (mnc_onode d).2)
  | .breakN a t => (.breakN a t, false)
  | .condBreakN a c t => (.condBreakN a c t, false)
  | .contN a t => (.contN a t, false)

/-- Default recursion into an optional child. -/
def mnc_onode : ONode → ONode × Bool
  | .none => (.none, false)
  | .some n => (.some (mnc_node n).1, (mnc_node n).2)

/-- Default recursion into the children of a non-`Sequence` container. -/
def mnc_children : NodeList → NodeList × Bool
  | .nil => (.nil, false)
  | .cons x tl => (.cons (mnc_node x).1 (mnc_children tl).1, (mnc_node x).2 || (mnc_children tl).2)

/-- Default recursion into switch cases. -/
def mnc_cases : CaseList → CaseList × Bool
  | .nil => (.nil, false)
  | .cons k n tl => (.cons k (mnc_node n).1 (mnc_cases tl).1, (mnc_node n).2 || (mnc_cases tl).2)

/-- The custom `SequenceNode` handler of `_merge_nesting_conditionals`: a
one-sided `Condition`-of-`Condition` child becomes a single `Condition` with
`simplify(And(outer, inner))`; a one-sided `Condition` over a (possibly
sequence-wrapped) `ConditionalBreak` becomes a single `ConditionalBreak`
with `simplify(And(outer, inner))`; other children get the default
recursion (merged replacements are not revisited). -/
def mnc_nodes : NodeList → NodeList × Bool
  | .nil => (.nil, false)
  | .cons x tl =>
    match condnode_truenode_only x with
    | some (ca, _, A, innerT) =>
      match condnode_truenode_only innerT with
      | some (_, _, B, S) =>
        (.cons (.condN ca Option.none (simplifyCond (.cand A B)) (.some S) .none)
          (mnc_nodes tl).1, true)
      | Option.none =>
        match condbreaknode innerT with
        | some (cba, Bc, E) =>
          (.cons (.condBreakN cba (simplifyCond (.cand A Bc)) E) (mnc_nodes tl).1, true)
        | Option.none =>
          (.cons (mnc_node x).1 (mnc_nodes tl).1, (mnc_node x).2 || (mnc_nodes tl).2)
    | Option.none =>
      (.cons (mnc_node x).1 (mnc_nodes tl).1, (mnc_node x).2 || (mnc_nodes tl).2)
end

/-- List-style induction for `NodeList` (the auto-generated recursor is
mutual, which the `induction` tactic does not accept). -/
theorem NodeList.inductionOn {motive : NodeList → Prop} (l : NodeList)
    (hnil : motive .nil) (hcons : ∀ x tl, motive tl → motive (.cons x tl)) : motive l :=
  match l with
  | .nil => hnil
  | .cons x tl => hcons x tl (NodeList.inductionOn tl hnil hcons)
termination_by l.length
decreasing_by simp [NodeList.length]

/-- The `_merge_nesting_conditionals` sequence scan distributes over
concatenation (each child is examined independently). -/
theorem mnc_nodes_append (l1 l2 : NodeList) :
    mnc_nodes (l1.append l2)
      = ((mnc_nodes l1).1.append (mnc_nodes l2).1, (mnc_nodes l1).2 || (mnc_nodes l2).2) := by
  induction l1 using NodeList.inductionOn with
  | hnil => simp [NodeList.append, mnc_nodes]
  | hcons x tl ih =>
    show mnc_nodes (.cons x (tl.append l2)) = _
    cases h1 : condnode_truenode_only x with
    | none =>
      simp only [mnc_nodes, h1]
      rw [ih]
      simp [NodeList.append, Bool.or_assoc]
    | some v =>
      obtain ⟨ca, r, A, innerT⟩ := v
      cases h2 : condnode_truenode_only innerT with
      | some w =>
        obtain ⟨ca2, r2, B, S⟩ := w
        simp only [mnc_nodes, h1, h2]
        rw [ih]
        simp [NodeList.append]
      | none =>
        cases h3 : condbreaknode innerT with
        | some u =>
          obtain ⟨cba, Bc, E⟩ := u
          simp only [mnc_nodes, h1, h2, h3]
          rw [ih]
          simp [NodeList.append]
        | none =>
          simp only [mnc_nodes, h1, h2, h3]
          rw [ih]
          simp [NodeList.append, Bool.or_assoc]

/-- C8: a one-sided `Condition(A, Condition(B, S))` child merges into
`Condition(simplify(And(A, B)), S)`; a one-sided `Condition(A, ·)` over a
`ConditionalBreak(B, E)` — bare or wrapped in a single-node sequence —
merges into `ConditionalBreak(simplify(And(A, B)), E)`. -/
theorem merge_nesting_conditionals_spec (a sa : Option Nat) (pre post : NodeList)
    (ca ca2 cba E : Nat) (r r2 : Option CExpr) (A B : CExpr) (S : Node) :
    mnc_node (.seqn a (pre.append
        (.cons (.condN ca r A (.some (.condN ca2 r2 B (.some S) .none)) .none) post)))
      = (.seqn a ((mnc_nodes pre).1.append
          (.cons (.condN ca Option.none (simplifyCond (.cand A B)) (.some S) .none)
            (mnc_nodes post).1)), true)
    ∧ mnc_node (.seqn a (pre.append
        (.cons (.condN ca r A (.some (.condBreakN cba B E)) .none) post)))
      = (.seqn a ((mnc_nodes pre).1.append
          (.cons (.condBreakN cba (simplifyCond (.cand A B)) E) (mnc_nodes post).1)), true)
    ∧ mnc_node (.seqn a (pre.append
        (.cons (.condN ca r A
          (.some (.seqn sa (.cons (.condBreakN cba B E) .nil))) .none) post)))
      = (.seqn a ((mnc_nodes pre).1.append
          (.cons (.condBreakN cba (simplifyCond (.cand A B)) E) (mnc_nodes post).1)), true) := by
  refine ⟨?_, ?_, ?_⟩ <;>
  · simp only [mnc_node]
    rw [mnc_nodes_append]
    rw [mnc_nodes]
    dsimp only [condnode_truenode_only, unwrapCode, condbreaknode]
    simp

/-! ## `StructurerBase._remove_redundant_jumps` -/

/-- `isinstance(target, Const) and target.value == next_node.addr`: does the
(optional) jump target constant-match the next sibling's address?  (`addr`
may be `None`, in which case the Python `==` against an `int` is `False`.) -/
def targetIsNext (na : Option Nat) : Option Expr → Bool
  | some (.econst _ v _) => decide (na = some v)
  | _ => false

/-- The statement-level rewrite of `_remove_redundant_jumps` applied to a
block whose next sibling has address `na`: a trailing constant `Jump` to the
next sibling is deleted; a trailing `ConditionalJump` whose true target is
the next sibling keeps the false target under the negated condition (new
`true_target_idx` = old `false_target_idx`); one whose false target is the
next sibling keeps the true target under the unchanged condition, where the
`SequenceNode` handler preserves the old `true_target_idx` but the
`MultiNode` handler (`inMulti = true`) copies the old `false_target_idx`. -/
def rrj_adjust_stmts (inMulti : Bool) (na : Option Nat) (stmts : List Stmt) : List Stmt :=
  match stmts.getLast? with
  | some (.jump _ t _ _) =>
    if targetIsNext na (some t) then stmts.dropLast else stmts
  | some (.condJump idx c tT fT ti fi ia) =>
    if targetIsNext na tT then
      stmts.dropLast ++ [.condJump idx (.enot Option.none c) fT Option.none fi Option.none ia]
    else if targetIsNext na fT then
      stmts.dropLast ++
        [.condJump idx c tT Option.none (if inMulti then fi else ti) Option.none ia]
    else stmts
  | _ => stmts

mutual
/-- The `_remove_redundant_jumps` pass (walker dispatch): custom handlers
for `SequenceNode` and `MultiNode` adjacent-pair rewriting, default
recursion everywhere else. -/
def rrj_node : Node → Node
  | .block a sz stmts i => .block a sz stmts i
  | .multi a i l => .multi a i (rrj_multi_list_adj false Option.none l)
  | .seqn a l => .seqn a (rrj_seq_list l)
  | .codeN inner => .codeN (rrj_node inner)
  | .condN a r c t f => .condN a r c (rrj_onode t) (rrj_onode f)
  | .loopN a s c b => .loopN a s c (rrj_node b)
  | .switchN a cs d e => .switchN a (rrj_cases cs) (rrj_onode d) e
  | .breakN a t => .breakN a t
  | .condBreakN a c t => .condBreakN a c t
  | .contN a t => .contN a t

/-- Default recursion into an optional child. -/
def rrj_onode : ONode → ONode
  | .none => .none
  | .some n => .some (rrj_node n)

/-- Default recursion into switch cases. -/
def rrj_cases : CaseList → CaseList
  | .nil => .nil
  | .cons k n tl => .cons k (rrj_node n) (rrj_cases tl)

/-- The `SequenceNode` handler: every child but the last is rewritten
against its next sibling's address, then all children are recursed into. -/
def rrj_seq_list : NodeList → NodeList
  | .nil => .nil
  | .cons x .nil => .cons (rrj_node x) .nil
  | .cons x (.cons y tl) => .cons (rrj_seq_child y.addrO x) (rrj_seq_list (.cons y tl))

/-- One non-final `SequenceNode` child: blocks (and the trailing block of a
`MultiNode` child) receive the pair rewrite, then the default recursion
applies; all other variants get the plain recursion. -/
def rrj_seq_child (na : Option Nat) : Node → Node
  | .block a sz stmts i => .block a sz (rrj_adjust_stmts false na stmts) i
  | .multi a i l => .multi a i (rrj_multi_list_adj false na l)
  | .seqn a l => .seqn a (rrj_seq_list l)
  | .codeN inner => .codeN (rrj_node inner)
  | .condN a r c t f => .condN a r c (rrj_onode t) (rrj_onode f)
  | .loopN a s c b => .loopN a s c (rrj_node b)
  | .switchN a cs d e => .switchN a (rrj_cases cs) (rrj_onode d) e
  | .breakN a t => .breakN a t
  | .condBreakN a c t => .condBreakN a c t
  | .contN a t => .contN a t

/-- The `MultiNode` handler: inner adjacent pairs are rewritten with the
`MultiNode` variant of the statement rewrite; the final child additionally
receives the adjustment `(outerInMulti, na)` inherited from the enclosing
pair (none when the `MultiNode` is not a non-final sibling). -/
def rrj_multi_list_adj (outerInMulti : Bool) (na : Option Nat) : NodeList → NodeList
  | .nil => .nil
  | .cons x .nil =>
    match x with
    | .block a sz stmts i => .cons (.block a sz (rrj_adjust_stmts outerInMulti na stmts) i) .nil
    | n => .cons (rrj_node n) .nil
  | .cons x (.cons y tl) => .cons (rrj_multi_child y.addrO x) (rrj_multi_list_adj outerInMulti na (.cons y tl))

/-- One non-final `MultiNode` child. -/
def rrj_multi_child (na : Option Nat) : Node → Node
  | .block a sz stmts i => .block a sz (rrj_adjust_stmts true na stmts) i
  | .multi a i l => .multi a i (rrj_multi_list_adj true na l)
  | .seqn a l => .seqn a (rrj_seq_list l)
  | .codeN inner => .codeN (rrj_node inner)
  | .condN a r c t f => .condN a r c (rrj_onode t) (rrj_onode f)
  | .loopN a s c b => .loopN a s c (rrj_node b)
  | .switchN a cs d e => .switchN a (rrj_cases cs) (rrj_onode d) e
  | .breakN a t => .breakN a t
  | .condBreakN a c t => .condBreakN a c t
  | .contN a t => .contN a t
end

/-- C5 at its failing input (`code_bug`): inside a `MultiNode`, rewriting a
trailing two-target conditional jump whose false target is the next
sibling's address keeps the true target but sets the new
`true_target_idx` to the *false* target's index (here `some 2`), instead of
preserving the true target's index (`some 1`) as the claim (and the
parallel `SequenceNode` handler) state. -/
theorem remove_redundant_jumps_multinode_idx_divergence :
    rrj_node (.seqn Option.none (.cons (.multi 10 Option.none
      (.cons (.block 10 4 [.condJump Option.none (.evar Option.none 0)
          (some (.econst Option.none 100 32)) (some (.econst Option.none 50 32))
          (some 1) (some 2) 10] Option.none)
        (.cons (.block 50 4 [.other 0 50] Option.none) .nil))) .nil))
      = .seqn Option.none (.cons (.multi 10 Option.none
      (.cons (.block 10 4 [.condJump Option.none (.evar Option.none 0)
          (some (.econst Option.none 100 32)) Option.none
          (some 2) Option.none 10] Option.none)
        (.cons (.block 50 4 [.other 0 50] Option.none) .nil))) .nil) := by
  rfl

/-- C6 refuted as stated: a trailing conditional jump with *both* constant
targets equal to the next sibling's address is rewritten by each pass
application (first to a single-target jump, then to a no-target jump with a
doubly negated condition), so running `_remove_redundant_jumps` twice
differs from running it once. -/
theorem remove_redundant_jumps_not_idempotent_counterexample :
    rrj_node (rrj_node (.seqn Option.none
        (.cons (.block 0 4 [.condJump Option.none (.evar Option.none 0)
            (some (.econst Option.none 32 32)) (some (.econst Option.none 32 32))
            Option.none Option.none 0] Option.none)
          (.cons (.block 32 4 [.other 0 32] Option.none) .nil))))
      ≠ rrj_node (.seqn Option.none
        (.cons (.block 0 4 [.condJump Option.none (.evar Option.none 0)
            (some (.econst Option.none 32 32)) (some (.econst Option.none 32 32))
            Option.none Option.none 0] Option.none)
          (.cons (.block 32 4 [.other 0 32] Option.none) .nil))) := by
  decide

/-! Machinery for the amended C6 (idempotence under a safety condition). -/

/-- The trailing statement of a block when it is a jump statement (the only
shape the pair rewrite of `_remove_redundant_jumps` inspects). -/
def jumpyTail (stmts : List Stmt) : Option Stmt :=
  match stmts.getLast? with
  | some st => if st.isJumpish then some st else Option.none
  | Option.none => Option.none

/-- The trailing jump statement of the final node of a `MultiNode` child,
when that final node is a block (the one-level dig of both handlers). -/
def lastBlockJumpyTail : NodeList → Option Stmt
  | .nil => Option.none
  | .cons (.block _ _ stmts _) .nil => jumpyTail stmts
  | .cons _ .nil => Option.none
  | .cons _ (.cons y tl) => lastBlockJumpyTail (.cons y tl)

/-- The `jump_stmt` the pair rewrite would extract from a non-final
sibling. -/
def effLast : Node → Option Stmt
  | .block _ _ stmts _ => jumpyTail stmts
  | .multi _ _ l => lastBlockJumpyTail l
  | _ => Option.none

/-- Would the pair rewrite fire on this trailing jump statement (given the
next sibling's address `na`)? -/
def stmtRedundant (na : Option Nat) : Option Stmt → Bool
  | some (.jump _ t _ _) => targetIsNext na (some t)
  | some (.condJump _ _ tT fT _ _ _) => targetIsNext na tT || targetIsNext na fT
  | _ => false

/-- Does this trailing statement have *both* constant targets equal to the
next sibling's address (the C6 failure shape)? -/
def stmtBothNext (na : Option Nat) : Option Stmt → Bool
  | some (.condJump _ _ tT fT _ _ _) => targetIsNext na tT && targetIsNext na fT
  | _ => false

/-- All non-final statements of the block are non-jump statements. -/
def cleanStmts (stmts : List Stmt) : Bool :=
  stmts.dropLast.all fun st => !st.isJumpish

mutual
/-- The C6 safety condition: every block keeps its jumps in final position
only, and no non-final sibling's effective trailing conditional jump has
both constant targets equal to its next sibling's address. -/
def rrjSafe : Node → Bool
  | .block _ _ stmts _ => cleanStmts stmts
  | .multi _ _ l => rrjSafePairs l && rrjSafeList l
  | .seqn _ l => rrjSafePairs l && rrjSafeList l
  | .codeN n => rrjSafe n
  | .condN _ _ _ t f => rrjSafeO t && rrjSafeO f
  | .loopN _ _ _ b => rrjSafe b
  | .switchN _ cs d _ => rrjSafeCases cs && rrjSafeO d
  | .breakN _ _ => true
  | .condBreakN _ _ _ => true
  | .contN _ _ => true

/-- Safety of an optional child. -/
def rrjSafeO : ONode → Bool
  | .none => true
  | .some n => rrjSafe n

/-- Safety of every element of a list. -/
def rrjSafeList : NodeList → Bool
  | .nil => true
  | .cons x tl => rrjSafe x && rrjSafeList tl

/-- The pairwise both-targets condition along a child list. -/
def rrjSafePairs : NodeList → Bool
  | .cons x (.cons y tl) => !stmtBothNext y.addrO (effLast x) && rrjSafePairs (.cons y tl)
  | _ => true

/-- Safety of every case body. -/
def rrjSafeCases : CaseList → Bool
  | .nil => true
  | .cons _ n tl => rrjSafe n && rrjSafeCases tl
end

mutual
/-- No adjacent pair anywhere in the tree would fire the pair rewrite: on
such trees `_remove_redundant_jumps` is the identity. -/
def noRed : Node → Bool
  | .block _ _ _ _ => true
  | .multi _ _ l => noRedPairs l && noRedList l
  | .seqn _ l => noRedPairs l && noRedList l
  | .codeN n => noRed n
  | .condN _ _ _ t f => noRedO t && noRedO f
  | .loopN _ _ _ b => noRed b
  | .switchN _ cs d _ => noRedCases cs && noRedO d
  | .breakN _ _ => true
  | .condBreakN _ _ _ => true
  | .contN _ _ => true

/-- Redundancy-freeness of an optional child. -/
def noRedO : ONode → Bool
  | .none => true
  | .some n => noRed n

/-- Redundancy-freeness of every element of a list. -/
def noRedList : NodeList → Bool
  | .nil => true
  | .cons x tl => noRed x && noRedList tl

/-- No adjacent pair of the list would fire the pair rewrite. -/
def noRedPairs : NodeList → Bool
  | .cons x (.cons y tl) => !stmtRedundant y.addrO (effLast x) && noRedPairs (.cons y tl)
  | _ => true

/-- Redundancy-freeness of every case body. -/
def noRedCases : CaseList → Bool
  | .nil => true
  | .cons _ n tl => noRed n && noRedCases tl
end

mutual
/-- Tree size of a node (for strong induction over the mutual tree). -/
def Node.tsz : Node → Nat
  | .block _ _ _ _ => 1
  | .multi _ _ l => l.tszL + 1
  | .seqn _ l => l.tszL + 1
  | .codeN n => n.tsz + 1
  | .condN _ _ _ t f => t.tszO + f.tszO + 1
  | .loopN _ _ _ b => b.tsz + 1
  | .switchN _ cs d _ => cs.tszC + d.tszO + 1
  | .breakN _ _ => 1
  | .condBreakN _ _ _ => 1
  | .contN _ _ => 1

/-- Tree size of an optional node. -/
def ONode.tszO : ONode → Nat
  | .none => 1
  | .some n => n.tsz + 1

/-- Tree size of a node list. -/
def NodeList.tszL : NodeList → Nat
  | .nil => 1
  | .cons x tl => x.tsz + tl.tszL + 1

/-- Tree size of a case list. -/
def CaseList.tszC : CaseList → Nat
  | .nil => 1
  | .cons _ n tl => n.tsz + tl.tszC + 1
end

/-- Every tree size is positive. -/
theorem Node.tsz_pos (n : Node) : 1 ≤ n.tsz := by
  cases n <;> simp [Node.tsz]

/-- Every optional-node size is positive. -/
theorem ONode.tszO_pos (t : ONode) : 1 ≤ t.tszO := by
  cases t <;> simp [ONode.tszO]

/-- Every list size is positive. -/
theorem NodeList.tszL_pos (l : NodeList) : 1 ≤ l.tszL := by
  cases l <;> simp [NodeList.tszL]

/-- Every case-list size is positive. -/
theorem CaseList.tszC_pos (cs : CaseList) : 1 ≤ cs.tszC := by
  cases cs <;> simp [CaseList.tszC]

/-- With `None` as next-sibling address nothing is redundant (the Python
`int == None` comparisons are all false). -/
theorem stmtRedundant_none (os : Option Stmt) : stmtRedundant Option.none os = false := by
  cases os with
  | none => rfl
  | some st =>
    cases st with
    | jump i t ti ia => cases t <;> simp [stmtRedundant, targetIsNext]
    | condJump idx c tT fT ti fi ia =>
      have ht : targetIsNext Option.none tT = false := by
        cases tT with
        | none => rfl
        | some e => cases e <;> simp [targetIsNext]
      have hf : targetIsNext Option.none fT = false := by
        cases fT with
        | none => rfl
        | some e => cases e <;> simp [targetIsNext]
      simp [stmtRedundant, ht, hf]
    | lbl a bi => rfl
    | other u a => rfl

/-- A clean block's statements minus the last contain no jump to expose. -/
theorem jumpyTail_dropLast_of_clean (stmts : List Stmt) (h : cleanStmts stmts = true) :
    jumpyTail stmts.dropLast = Option.none := by
  unfold jumpyTail
  cases hl : stmts.dropLast.getLast? with
  | none => rfl
  | some st =>
    have hmem : st ∈ stmts.dropLast := by
      obtain ⟨hne, heq⟩ := List.mem_getLast?_eq_getLast (Option.mem_def.mpr hl)
      rw [heq]
      exact List.getLast_mem hne
    have hst := List.all_eq_true.mp h st hmem
    simp only [Bool.not_eq_true'] at hst
    simp [hst]

/-- The pair rewrite leaves a block's statements unchanged when its trailing
jump is not redundant. -/
theorem rrj_adjust_stmts_id (inMulti : Bool) (na : Option Nat) (stmts : List Stmt)
    (h : stmtRedundant na (jumpyTail stmts) = false) :
    rrj_adjust_stmts inMulti na stmts = stmts := by
  unfold rrj_adjust_stmts
  cases hl : stmts.getLast? with
  | none => rfl
  | some st =>
    cases st with
    | jump i t ti ia =>
      have hj : jumpyTail stmts = some (.jump i t ti ia) := by
        simp [jumpyTail, hl, Stmt.isJumpish]
      rw [hj] at h
      simp only [stmtRedundant] at h
      simp [h]
    | condJump idx c tT fT ti fi ia =>
      have hj : jumpyTail stmts = some (.condJump idx c tT fT ti fi ia) := by
        simp [jumpyTail, hl, Stmt.isJumpish]
      rw [hj] at h
      simp only [stmtRedundant, Bool.or_eq_false_iff] at h
      obtain ⟨h1, h2⟩ := h
      simp [h1, h2]
    | lbl a bi => rfl
    | other u a => rfl

/-- On redundancy-free trees `_remove_redundant_jumps` is the identity
(strong induction on tree size, one component per pass function). -/
theorem rrj_id_aux (k : Nat) :
    (∀ n : Node, n.tsz ≤ k → noRed n = true → rrj_node n = n)
    ∧ (∀ t : ONode, t.tszO ≤ k → noRedO t = true → rrj_onode t = t)
    ∧ (∀ cs : CaseList, cs.tszC ≤ k → noRedCases cs = true → rrj_cases cs = cs)
    ∧ (∀ l : NodeList, l.tszL ≤ k → noRedPairs l = true → noRedList l = true →
        rrj_seq_list l = l)
    ∧ (∀ (na : Option Nat) (x : Node), x.tsz ≤ k → noRed x = true →
        stmtRedundant na (effLast x) = false → rrj_seq_child na x = x)
    ∧ (∀ (na : Option Nat) (x : Node), x.tsz ≤ k → noRed x = true →
        stmtRedundant na (effLast x) = false → rrj_multi_child na x = x)
    ∧ (∀ (outer : Bool) (na : Option Nat) (l : NodeList), l.tszL ≤ k →
        noRedPairs l = true → noRedList l = true →
        stmtRedundant na (lastBlockJumpyTail l) = false →
        rrj_multi_list_adj outer na l = l) := by
  induction k with
  | zero =>
    refine ⟨?_, ?_, ?_, ?_, ?_, ?_, ?_⟩
    · intro n hsz; have := Node.tsz_pos n; omega
    · intro t hsz; have := ONode.tszO_pos t; omega
    · intro cs hsz; have := CaseList.tszC_pos cs; omega
    · intro l hsz; have := NodeList.tszL_pos l; omega
    · intro na x hsz; have := Node.tsz_pos x; omega
    · intro na x hsz; have := Node.tsz_pos x; omega
    · intro outer na l hsz; have := NodeList.tszL_pos l; omega
  | succ k ih =>
    obtain ⟨ih1, ih2, ih3, ih4, ih5, ih6, ih7⟩ := ih
    have main56 : ∀ (na : Option Nat) (x : Node), x.tsz ≤ k + 1 →
        noRed x = true → stmtRedundant na (effLast x) = false →
        rrj_seq_child na x = x ∧ rrj_multi_child na x = x := by
      intro na x hsz hnr heff
      cases x with
      | block a sz stmts i =>
        refine ⟨?_, ?_⟩ <;>
          simp [rrj_seq_child, rrj_multi_child,
            rrj_adjust_stmts_id _ na stmts (by simpa [effLast] using heff)]
      | multi a i l =>
        simp only [noRed, Bool.and_eq_true] at hnr
        have hsz2 : l.tszL ≤ k := by simp [Node.tsz] at hsz; omega
        refine ⟨?_, ?_⟩ <;>
          simp [rrj_seq_child, rrj_multi_child,
            ih7 _ na l hsz2 hnr.1 hnr.2 (by simpa [effLast] using heff)]
      | seqn a l =>
        simp only [noRed, Bool.and_eq_true] at hnr
        have hsz2 : l.tszL ≤ k := by simp [Node.tsz] at hsz; omega
        refine ⟨?_, ?_⟩ <;>
          simp [rrj_seq_child, rrj_multi_child, ih4 l hsz2 hnr.1 hnr.2]
      | codeN inner =>
        simp only [noRed] at hnr
        have hsz2 : inner.tsz ≤ k := by simp [Node.tsz] at hsz; omega
        refine ⟨?_, ?_⟩ <;>
          simp [rrj_seq_child, rrj_multi_child, ih1 inner hsz2 hnr]
      | condN a r c t f =>
        simp only [noRed, Bool.and_eq_true] at hnr
        have hsz2 : t.tszO ≤ k ∧ f.tszO ≤ k := by
          have h1 := ONode.tszO_pos t
          have h2 := ONode.tszO_pos f
          simp [Node.tsz] at hsz
          omega
        refine ⟨?_, ?_⟩ <;>
          simp [rrj_seq_child, rrj_multi_child, ih2 t hsz2.1 hnr.1, ih2 f hsz2.2 hnr.2]
      | loopN a s c b =>
        simp only [noRed] at hnr
        have hsz2 : b.tsz ≤ k := by simp [Node.tsz] at hsz; omega
        refine ⟨?_, ?_⟩ <;> simp [rrj_seq_child, rrj_multi_child, ih1 b hsz2 hnr]
      | switchN a cs d e =>
        simp only [noRed, Bool.and_eq_true] at hnr
        have hsz2 : cs.tszC ≤ k ∧ d.tszO ≤ k := by
          have h1 := CaseList.tszC_pos cs
          have h2 := ONode.tszO_pos d
          simp [Node.tsz] at hsz
          omega
        refine ⟨?_, ?_⟩ <;>
          simp [rrj_seq_child, rrj_multi_child, ih3 cs hsz2.1 hnr.1, ih2 d hsz2.2 hnr.2]
      | breakN a t => exact ⟨rfl, rfl⟩
      | condBreakN a c t => exact ⟨rfl, rfl⟩
      | contN a t => exact ⟨rfl, rfl⟩
    have main7 : ∀ (outer : Bool) (na : Option Nat) (l : NodeList), l.tszL ≤ k + 1 →
        noRedPairs l = true → noRedList l = true →
        stmtRedundant na (lastBlockJumpyTail l) = false →
        rrj_multi_list_adj outer na l = l := by
      intro outer na l hsz hp hl heff
      cases l with
      | nil => rfl
      | cons x tl =>
        simp only [noRedList, Bool.and_eq_true] at hl
        cases tl with
        | nil =>
          have hsz2 : x.tsz ≤ k := by
            simp [NodeList.tszL] at hsz
            omega
          cases x with
          | block a sz stmts i =>
            simp [rrj_multi_list_adj,
              rrj_adjust_stmts_id _ na stmts (by simpa [lastBlockJumpyTail] using heff)]
          | multi a i l2 => simp [rrj_multi_list_adj, ih1 _ hsz2 hl.1]
          | seqn a l2 => simp [rrj_multi_list_adj, ih1 _ hsz2 hl.1]
          | codeN inner => simp [rrj_multi_list_adj, ih1 _ hsz2 hl.1]
          | condN a r c t f => simp [rrj_multi_list_adj, ih1 _ hsz2 hl.1]
          | loopN a s c b => simp [rrj_multi_list_adj, ih1 _ hsz2 hl.1]
          | switchN a cs d e => simp [rrj_multi_list_adj, ih1 _ hsz2 hl.1]
          | breakN a t => rfl
          | condBreakN a c t => rfl
          | contN a t => rfl
        | cons y tl2 =>
          simp only [noRedPairs, Bool.and_eq_true, Bool.not_eq_true'] at hp
          have hpos := NodeList.tszL_pos tl2
          have hposy := Node.tsz_pos y
          have hposx := Node.tsz_pos x
          have hszx : x.tsz ≤ k := by
            simp [NodeList.tszL] at hsz
            omega
          have hszt : (NodeList.cons y tl2).tszL ≤ k := by
            simp [NodeList.tszL] at hsz ⊢
            omega
          rw [rrj_multi_list_adj]
          rw [ih6 y.addrO x hszx hl.1 hp.1]
          rw [ih7 outer na (.cons y tl2) hszt hp.2 hl.2
            (by simpa [lastBlockJumpyTail] using heff)]
    refine ⟨?_, ?_, ?_, ?_,
      (fun na x h1 h2 h3 => (main56 na x h1 h2 h3).1),
      (fun na x h1 h2 h3 => (main56 na x h1 h2 h3).2), main7⟩
    · -- nodes
      intro n hsz hnr
      cases n with
      | block a sz stmts i => rfl
      | multi a i l =>
        simp only [noRed, Bool.and_eq_true] at hnr
        have hsz2 : l.tszL ≤ k := by simp [Node.tsz] at hsz; omega
        simp [rrj_node, ih7 false Option.none l hsz2 hnr.1 hnr.2 (by rw [stmtRedundant_none])]
      | seqn a l =>
        simp only [noRed, Bool.and_eq_true] at hnr
        have hsz2 : l.tszL ≤ k := by simp [Node.tsz] at hsz; omega
        simp [rrj_node, ih4 l hsz2 hnr.1 hnr.2]
      | codeN inner =>
        simp only [noRed] at hnr
        have hsz2 : inner.tsz ≤ k := by simp [Node.tsz] at hsz; omega
        simp [rrj_node, ih1 inner hsz2 hnr]
      | condN a r c t f =>
        simp only [noRed, Bool.and_eq_true] at hnr
        have hsz2 : t.tszO ≤ k ∧ f.tszO ≤ k := by
          have h1 := ONode.tszO_pos t
          have h2 := ONode.tszO_pos f
          simp [Node.tsz] at hsz
          omega
        simp [rrj_node, ih2 t hsz2.1 hnr.1, ih2 f hsz2.2 hnr.2]
      | loopN a s c b =>
        simp only [noRed] at hnr
        have hsz2 : b.tsz ≤ k := by simp [Node.tsz] at hsz; omega
        simp [rrj_node, ih1 b hsz2 hnr]
      | switchN a cs d e =>
        simp only [noRed, Bool.and_eq_true] at hnr
        have hsz2 : cs.tszC ≤ k ∧ d.tszO ≤ k := by
          have h1 := CaseList.tszC_pos cs
          have h2 := ONode.tszO_pos d
          simp [Node.tsz] at hsz
          omega
        simp [rrj_node, ih3 cs hsz2.1 hnr.1, ih2 d hsz2.2 hnr.2]
      | breakN a t => rfl
      | condBreakN a c t => rfl
      | contN a t => rfl
    · -- optional nodes
      intro t hsz hnr
      cases t with
      | none => rfl
      | some n =>
        simp only [noRedO] at hnr
        have hsz2 : n.tsz ≤ k := by simp [ONode.tszO] at hsz; omega
        simp [rrj_onode, ih1 n hsz2 hnr]
    · -- case lists
      intro cs hsz hnr
      cases cs with
      | nil => rfl
      | cons key n tl =>
        simp only [noRedCases, Bool.and_eq_true] at hnr
        have hsz2 : n.tsz ≤ k ∧ tl.tszC ≤ k := by
          have h1 := Node.tsz_pos n
          have h2 := CaseList.tszC_pos tl
          simp [CaseList.tszC] at hsz
          omega
        simp [rrj_cases, ih1 n hsz2.1 hnr.1, ih3 tl hsz2.2 hnr.2]
    · -- sequence child lists
      intro l hsz hp hl
      cases l with
      | nil => rfl
      | cons x tl =>
        simp only [noRedList, Bool.and_eq_true] at hl
        cases tl with
        | nil =>
          have hsz2 : x.tsz ≤ k := by simp [NodeList.tszL] at hsz; omega
          simp [rrj_seq_list, ih1 x hsz2 hl.1]
        | cons y tl2 =>
          simp only [noRedPairs, Bool.and_eq_true, Bool.not_eq_true'] at hp
          have hpos := NodeList.tszL_pos tl2
          have hposy := Node.tsz_pos y
          have hposx := Node.tsz_pos x
          have hszx : x.tsz ≤ k := by simp [NodeList.tszL] at hsz; omega
          have hszt : (NodeList.cons y tl2).tszL ≤ k := by
            simp [NodeList.tszL] at hsz ⊢
            omega
          rw [rrj_seq_list]
          rw [ih5 y.addrO x hszx hl.1 hp.1]
          rw [ih4 (.cons y tl2) hszt hp.2 hl.2]

/-- After the pair rewrite against next-address `na`, a clean block's
trailing jump is no longer redundant with respect to `na` (unless both
targets of a trailing conditional jump equalled `na`, which is excluded). -/
theorem rrj_adjust_stmts_not_red (inMulti : Bool) (na : Option Nat) (stmts : List Stmt)
    (hclean : cleanStmts stmts = true)
    (hboth : stmtBothNext na (jumpyTail stmts) = false) :
    stmtRedundant na (jumpyTail (rrj_adjust_stmts inMulti na stmts)) = false := by
  unfold rrj_adjust_stmts
  cases hl : stmts.getLast? with
  | none =>
    simp [jumpyTail, hl, stmtRedundant]
  | some st =>
    cases st with
    | jump i t ti ia =>
      dsimp only
      by_cases ht : targetIsNext na (some t) = true
      · rw [if_pos ht]
        rw [jumpyTail_dropLast_of_clean stmts hclean]
        rfl
      · rw [if_neg ht]
        simp only [Bool.not_eq_true] at ht
        simp [jumpyTail, hl, Stmt.isJumpish, stmtRedundant, ht]
    | condJump idx c tT fT ti fi ia =>
      have hj : jumpyTail stmts = some (.condJump idx c tT fT ti fi ia) := by
        simp [jumpyTail, hl, Stmt.isJumpish]
      rw [hj] at hboth
      simp only [stmtBothNext, Bool.and_eq_false_iff] at hboth
      dsimp only
      by_cases ht : targetIsNext na tT = true
      · rw [if_pos ht]
        have hf : targetIsNext na fT = false := by
          rcases hboth with h | h
          · rw [ht] at h
            simp at h
          · exact h
        have hlast : jumpyTail (stmts.dropLast ++
            [Stmt.condJump idx (.enot Option.none c) fT Option.none fi Option.none ia])
            = some (Stmt.condJump idx (.enot Option.none c) fT Option.none fi Option.none ia) := by
          simp [jumpyTail, List.getLast?_append_cons, Stmt.isJumpish]
        rw [hlast]
        simp only [stmtRedundant]
        rw [hf]
        simp [targetIsNext]
      · rw [if_neg ht]
        simp only [Bool.not_eq_true] at ht
        by_cases hf : targetIsNext na fT = true
        · rw [if_pos hf]
          have hlast : jumpyTail (stmts.dropLast ++
              [Stmt.condJump idx c tT Option.none (if inMulti then fi else ti) Option.none ia])
              = some (Stmt.condJump idx c tT Option.none
                  (if inMulti then fi else ti) Option.none ia) := by
            simp [jumpyTail, List.getLast?_append_cons, Stmt.isJumpish]
          rw [hlast]
          simp only [stmtRedundant]
          rw [ht]
          simp [targetIsNext]
        · rw [if_neg hf]
          simp only [Bool.not_eq_true] at hf
          simp [jumpyTail, hl, Stmt.isJumpish, stmtRedundant, ht, hf]
    | lbl a bi =>
      simp [jumpyTail, hl, Stmt.isJumpish, stmtRedundant]
    | other u a =>
      simp [jumpyTail, hl, Stmt.isJumpish, stmtRedundant]

/-- `_remove_redundant_jumps` never changes a node's address. -/
theorem rrj_node_addrO : ∀ n : Node, (rrj_node n).addrO = n.addrO
  | .block _ _ _ _ => rfl
  | .multi _ _ _ => rfl
  | .seqn _ _ => rfl
  | .codeN inner => by
    show (Node.codeN (rrj_node inner)).addrO = (Node.codeN inner).addrO
    simp only [Node.addrO]
    exact rrj_node_addrO inner
  | .condN _ _ _ _ _ => rfl
  | .loopN _ _ _ _ => rfl
  | .switchN _ _ _ _ => rfl
  | .breakN _ _ => rfl
  | .condBreakN _ _ _ => rfl
  | .contN _ _ => rfl

/-- The pair rewrite of a non-final sibling never changes its address. -/
theorem rrj_seq_child_addrO (na : Option Nat) :
    ∀ n : Node, (rrj_seq_child na n).addrO = n.addrO
  | .block _ _ _ _ => rfl
  | .multi _ _ _ => rfl
  | .seqn _ _ => rfl
  | .codeN inner => by
    show (Node.codeN (rrj_node inner)).addrO = (Node.codeN inner).addrO
    simp only [Node.addrO]
    exact rrj_node_addrO inner
  | .condN _ _ _ _ _ => rfl
  | .loopN _ _ _ _ => rfl
  | .switchN _ _ _ _ => rfl
  | .breakN _ _ => rfl
  | .condBreakN _ _ _ => rfl
  | .contN _ _ => rfl

/-- The `MultiNode` variant of the pair rewrite never changes a node's
address. -/
theorem rrj_multi_child_addrO (na : Option Nat) :
    ∀ n : Node, (rrj_multi_child na n).addrO = n.addrO
  | .block _ _ _ _ => rfl
  | .multi _ _ _ => rfl
  | .seqn _ _ => rfl
  | .codeN inner => by
    show (Node.codeN (rrj_node inner)).addrO = (Node.codeN inner).addrO
    simp only [Node.addrO]
    exact rrj_node_addrO inner
  | .condN _ _ _ _ _ => rfl
  | .loopN _ _ _ _ => rfl
  | .switchN _ _ _ _ => rfl
  | .breakN _ _ => rfl
  | .condBreakN _ _ _ => rfl
  | .contN _ _ => rfl

/-- After processing a `MultiNode`'s children, the effective trailing jump
statement of the `MultiNode` (the dig into its final block) is not
redundant with respect to the inherited next-sibling address. -/
theorem lastBlock_adj_not_red (outer : Bool) (na : Option Nat) :
    ∀ l : NodeList, rrjSafeList l = true →
      stmtBothNext na (lastBlockJumpyTail l) = false →
      stmtRedundant na (lastBlockJumpyTail (rrj_multi_list_adj outer na l)) = false
  | .nil => by
    intro _ _
    simp [rrj_multi_list_adj, lastBlockJumpyTail, stmtRedundant]
  | .cons x .nil => by
    intro hs hb
    simp only [rrjSafeList, Bool.and_eq_true] at hs
    cases x with
    | block a sz stmts i =>
      simp only [rrj_multi_list_adj, lastBlockJumpyTail]
      exact rrj_adjust_stmts_not_red outer na stmts
        (by simpa [rrjSafe] using hs.1) (by simpa [lastBlockJumpyTail] using hb)
    | multi a i l2 => simp [rrj_multi_list_adj, rrj_node, lastBlockJumpyTail, stmtRedundant]
    | seqn a l2 => simp [rrj_multi_list_adj, rrj_node, lastBlockJumpyTail, stmtRedundant]
    | codeN inner => simp [rrj_multi_list_adj, rrj_node, lastBlockJumpyTail, stmtRedundant]
    | condN a r c t f => simp [rrj_multi_list_adj, rrj_node, lastBlockJumpyTail, stmtRedundant]
    | loopN a s c b => simp [rrj_multi_list_adj, rrj_node, lastBlockJumpyTail, stmtRedundant]
    | switchN a cs d e => simp [rrj_multi_list_adj, rrj_node, lastBlockJumpyTail, stmtRedundant]
    | breakN a t => simp [rrj_multi_list_adj, lastBlockJumpyTail, stmtRedundant]
    | condBreakN a c t => simp [rrj_multi_list_adj, lastBlockJumpyTail, stmtRedundant]
    | contN a t => simp [rrj_multi_list_adj, lastBlockJumpyTail, stmtRedundant]
  | .cons x (.cons y tl) => by
    intro hs hb
    simp only [rrjSafeList, Bool.and_eq_true] at hs
    have hrec := lastBlock_adj_not_red outer na (.cons y tl)
      (by simp only [rrjSafeList, Bool.and_eq_true]; exact hs.2)
      (by simpa [lastBlockJumpyTail] using hb)
    rw [rrj_multi_list_adj]
    cases htl : rrj_multi_list_adj outer na (.cons y tl) with
    | nil =>
      exfalso
      cases tl with
      | nil => cases y <;> simp [rrj_multi_list_adj] at htl
      | cons z tl3 => simp [rrj_multi_list_adj] at htl
    | cons z tl2 =>
      rw [htl] at hrec
      simpa [lastBlockJumpyTail] using hrec

/-- After the pair rewrite, a safe non-final sibling's effective trailing
jump is not redundant with respect to its next sibling's address. -/
theorem rrj_child_not_red (na : Option Nat) (x : Node)
    (hsafe : rrjSafe x = true) (hboth : stmtBothNext na (effLast x) = false) :
    stmtRedundant na (effLast (rrj_seq_child na x)) = false ∧
    stmtRedundant na (effLast (rrj_multi_child na x)) = false := by
  cases x with
  | block a sz stmts i =>
    refine ⟨?_, ?_⟩ <;>
    · simp only [rrj_seq_child, rrj_multi_child, effLast]
      exact rrj_adjust_stmts_not_red _ na stmts (by simpa [rrjSafe] using hsafe)
        (by simpa [effLast] using hboth)
  | multi a i l =>
    simp only [rrjSafe, Bool.and_eq_true] at hsafe
    refine ⟨?_, ?_⟩ <;>
    · simp only [rrj_seq_child, rrj_multi_child, effLast]
      exact lastBlock_adj_not_red _ na l hsafe.2 (by simpa [effLast] using hboth)
  | seqn a l =>
    refine ⟨?_, ?_⟩ <;> simp [rrj_seq_child, rrj_multi_child, effLast, stmtRedundant]
  | codeN inner =>
    refine ⟨?_, ?_⟩ <;> simp [rrj_seq_child, rrj_multi_child, effLast, stmtRedundant]
  | condN a r c t f =>
    refine ⟨?_, ?_⟩ <;> simp [rrj_seq_child, rrj_multi_child, effLast, stmtRedundant]
  | loopN a s c b =>
    refine ⟨?_, ?_⟩ <;> simp [rrj_seq_child, rrj_multi_child, effLast, stmtRedundant]
  | switchN a cs d e =>
    refine ⟨?_, ?_⟩ <;> simp [rrj_seq_child, rrj_multi_child, effLast, stmtRedundant]
  | breakN a t =>
    refine ⟨?_, ?_⟩ <;> simp [rrj_seq_child, rrj_multi_child, effLast, stmtRedundant]
  | condBreakN a c t =>
    refine ⟨?_, ?_⟩ <;> simp [rrj_seq_child, rrj_multi_child, effLast, stmtRedundant]
  | contN a t =>
    refine ⟨?_, ?_⟩ <;> simp [rrj_seq_child, rrj_multi_child, effLast, stmtRedundant]

/-- The processed form of a nonempty sequence child list starts with a node
of the original head's address. -/
theorem rrj_seq_list_head_addr (y : Node) (tl : NodeList) :
    ∃ z tl2, rrj_seq_list (.cons y tl) = .cons z tl2 ∧ z.addrO = y.addrO := by
  cases tl with
  | nil => exact ⟨rrj_node y, .nil, rfl, rrj_node_addrO y⟩
  | cons w tl2 => exact ⟨rrj_seq_child w.addrO y, _, rfl, rrj_seq_child_addrO _ y⟩

/-- The processed form of a nonempty `MultiNode` child list starts with a
node of the original head's address. -/
theorem rrj_multi_list_adj_head_addr (outer : Bool) (na : Option Nat) (y : Node)
    (tl : NodeList) :
    ∃ z tl2, rrj_multi_list_adj outer na (.cons y tl) = .cons z tl2 ∧ z.addrO = y.addrO := by
  cases tl with
  | nil =>
    cases y with
    | block a sz stmts i => exact ⟨_, _, rfl, rfl⟩
    | multi a i l => exact ⟨_, _, rfl, rrj_node_addrO _⟩
    | seqn a l => exact ⟨_, _, rfl, rrj_node_addrO _⟩
    | codeN inner => exact ⟨_, _, rfl, rrj_node_addrO _⟩
    | condN a r c t f => exact ⟨_, _, rfl, rrj_node_addrO _⟩
    | loopN a s c b => exact ⟨_, _, rfl, rrj_node_addrO _⟩
    | switchN a cs d e => exact ⟨_, _, rfl, rrj_node_addrO _⟩
    | breakN a t => exact ⟨_, _, rfl, rrj_node_addrO _⟩
    | condBreakN a c t => exact ⟨_, _, rfl, rrj_node_addrO _⟩
    | contN a t => exact ⟨_, _, rfl, rrj_node_addrO _⟩
  | cons w tl3 => exact ⟨_, _, rfl, rrj_multi_child_addrO _ _⟩

/-- On safe trees the pass output is redundancy-free (strong induction on
tree size, one component per pass function). -/
theorem rrj_B_aux (k : Nat) :
    (∀ n : Node, n.tsz ≤ k → rrjSafe n = true → noRed (rrj_node n) = true)
    ∧ (∀ t : ONode, t.tszO ≤ k → rrjSafeO t = true → noRedO (rrj_onode t) = true)
    ∧ (∀ cs : CaseList, cs.tszC ≤ k → rrjSafeCases cs = true → noRedCases (rrj_cases cs) = true)
    ∧ (∀ l : NodeList, l.tszL ≤ k → rrjSafePairs l = true → rrjSafeList l = true →
        noRedPairs (rrj_seq_list l) = true ∧ noRedList (rrj_seq_list l) = true)
    ∧ (∀ (na : Option Nat) (x : Node), x.tsz ≤ k → rrjSafe x = true →
        noRed (rrj_seq_child na x) = true ∧ noRed (rrj_multi_child na x) = true)
    ∧ (∀ (outer : Bool) (na : Option Nat) (l : NodeList), l.tszL ≤ k →
        rrjSafePairs l = true → rrjSafeList l = true →
        noRedPairs (rrj_multi_list_adj outer na l) = true ∧
        noRedList (rrj_multi_list_adj outer na l) = true) := by
  induction k with
  | zero =>
    refine ⟨?_, ?_, ?_, ?_, ?_, ?_⟩
    · intro n hsz; have := Node.tsz_pos n; omega
    · intro t hsz; have := ONode.tszO_pos t; omega
    · intro cs hsz; have := CaseList.tszC_pos cs; omega
    · intro l hsz; have := NodeList.tszL_pos l; omega
    · intro na x hsz; have := Node.tsz_pos x; omega
    · intro outer na l hsz; have := NodeList.tszL_pos l; omega
  | succ k ih =>
    obtain ⟨ih1, ih2, ih3, ih4, ih5, ih6⟩ := ih
    refine ⟨?_, ?_, ?_, ?_, ?_, ?_⟩
    · -- nodes
      intro n hsz hs
      cases n with
      | block a sz stmts i => rfl
      | multi a i l =>
        simp only [rrjSafe, Bool.and_eq_true] at hs
        have hsz2 : l.tszL ≤ k := by simp [Node.tsz] at hsz; omega
        have := ih6 false Option.none l hsz2 hs.1 hs.2
        simp [rrj_node, noRed, this.1, this.2]
      | seqn a l =>
        simp only [rrjSafe, Bool.and_eq_true] at hs
        have hsz2 : l.tszL ≤ k := by simp [Node.tsz] at hsz; omega
        have := ih4 l hsz2 hs.1 hs.2
        simp [rrj_node, noRed, this.1, this.2]
      | codeN inner =>
        simp only [rrjSafe] at hs
        have hsz2 : inner.tsz ≤ k := by simp [Node.tsz] at hsz; omega
        simp [rrj_node, noRed, ih1 inner hsz2 hs]
      | condN a r c t f =>
        simp only [rrjSafe, Bool.and_eq_true] at hs
        have hsz2 : t.tszO ≤ k ∧ f.tszO ≤ k := by
          have h1 := ONode.tszO_pos t
          have h2 := ONode.tszO_pos f
          simp [Node.tsz] at hsz
          omega
        simp [rrj_node, noRed, ih2 t hsz2.1 hs.1, ih2 f hsz2.2 hs.2]
      | loopN a s c b =>
        simp only [rrjSafe] at hs
        have hsz2 : b.tsz ≤ k := by simp [Node.tsz] at hsz; omega
        simp [rrj_node, noRed, ih1 b hsz2 hs]
      | switchN a cs d e =>
        simp only [rrjSafe, Bool.and_eq_true] at hs
        have hsz2 : cs.tszC ≤ k ∧ d.tszO ≤ k := by
          have h1 := CaseList.tszC_pos cs
          have h2 := ONode.tszO_pos d
          simp [Node.tsz] at hsz
          omega
        simp [rrj_node, noRed, ih3 cs hsz2.1 hs.1, ih2 d hsz2.2 hs.2]
      | breakN a t => rfl
      | condBreakN a c t => rfl
      | contN a t => rfl
    · -- optional nodes
      intro t hsz hs
      cases t with
      | none => rfl
      | some n =>
        simp only [rrjSafeO] at hs
        have hsz2 : n.tsz ≤ k := by simp [ONode.tszO] at hsz; omega
        simp [rrj_onode, noRedO, ih1 n hsz2 hs]
    · -- case lists
      intro cs hsz hs
      cases cs with
      | nil => rfl
      | cons key n tl =>
        simp only [rrjSafeCases, Bool.and_eq_true] at hs
        have hsz2 : n.tsz ≤ k ∧ tl.tszC ≤ k := by
          have h1 := Node.tsz_pos n
          have h2 := CaseList.tszC_pos tl
          simp [CaseList.tszC] at hsz
          omega
        simp [rrj_cases, noRedCases, ih1 n hsz2.1 hs.1, ih3 tl hsz2.2 hs.2]
    · -- sequence child lists
      intro l hsz hp hl
      cases l with
      | nil => exact ⟨rfl, rfl⟩
      | cons x tl =>
        simp only [rrjSafeList, Bool.and_eq_true] at hl
        cases tl with
        | nil =>
          have hsz2 : x.tsz ≤ k := by simp [NodeList.tszL] at hsz; omega
          constructor
          · simp [rrj_seq_list, noRedPairs]
          · simp [rrj_seq_list, noRedList, ih1 x hsz2 hl.1]
        | cons y tl2 =>
          simp only [rrjSafePairs, Bool.and_eq_true, Bool.not_eq_true'] at hp
          have hpos := NodeList.tszL_pos tl2
          have hposy := Node.tsz_pos y
          have hposx := Node.tsz_pos x
          have hszx : x.tsz ≤ k := by simp [NodeList.tszL] at hsz; omega
          have hszt : (NodeList.cons y tl2).tszL ≤ k := by
            simp [NodeList.tszL] at hsz ⊢
            omega
          obtain ⟨z, zl, heq, haddr⟩ := rrj_seq_list_head_addr y tl2
          have hrest := ih4 (.cons y tl2) hszt hp.2 hl.2
          rw [heq] at hrest
          constructor
          · rw [rrj_seq_list, heq]
            simp only [noRedPairs, Bool.and_eq_true, Bool.not_eq_true']
            refine ⟨?_, hrest.1⟩
            rw [haddr]
            exact (rrj_child_not_red y.addrO x hl.1 hp.1).1
          · rw [rrj_seq_list, heq]
            simp only [noRedList, Bool.and_eq_true]
            have h2 := hrest.2
            simp only [noRedList, Bool.and_eq_true] at h2
            exact ⟨(ih5 y.addrO x hszx hl.1).1, h2⟩
    · -- non-final children
      intro na x hsz hs
      cases x with
      | block a sz stmts i => exact ⟨rfl, rfl⟩
      | multi a i l =>
        simp only [rrjSafe, Bool.and_eq_true] at hs
        have hsz2 : l.tszL ≤ k := by simp [Node.tsz] at hsz; omega
        have h1 := ih6 false na l hsz2 hs.1 hs.2
        have h2 := ih6 true na l hsz2 hs.1 hs.2
        constructor
        · simp [rrj_seq_child, noRed, h1.1, h1.2]
        · simp [rrj_multi_child, noRed, h2.1, h2.2]
      | seqn a l =>
        simp only [rrjSafe, Bool.and_eq_true] at hs
        have hsz2 : l.tszL ≤ k := by simp [Node.tsz] at hsz; omega
        have h1 := ih4 l hsz2 hs.1 hs.2
        constructor
        · simp [rrj_seq_child, noRed, h1.1, h1.2]
        · simp [rrj_multi_child, noRed, h1.1, h1.2]
      | codeN inner =>
        simp only [rrjSafe] at hs
        have hsz2 : inner.tsz ≤ k := by simp [Node.tsz] at hsz; omega
        constructor
        · simp [rrj_seq_child, noRed, ih1 inner hsz2 hs]
        · simp [rrj_multi_child, noRed, ih1 inner hsz2 hs]
      | condN a r c t f =>
        simp only [rrjSafe, Bool.and_eq_true] at hs
        have hsz2 : t.tszO ≤ k ∧ f.tszO ≤ k := by
          have h1 := ONode.tszO_pos t
          have h2 := ONode.tszO_pos f
          simp [Node.tsz] at hsz
          omega
        constructor
        · simp [rrj_seq_child, noRed, ih2 t hsz2.1 hs.1, ih2 f hsz2.2 hs.2]
        · simp [rrj_multi_child, noRed, ih2 t hsz2.1 hs.1, ih2 f hsz2.2 hs.2]
      | loopN a s c b =>
        simp only [rrjSafe] at hs
        have hsz2 : b.tsz ≤ k := by simp [Node.tsz] at hsz; omega
        constructor
        · simp [rrj_seq_child, noRed, ih1 b hsz2 hs]
        · simp [rrj_multi_child, noRed, ih1 b hsz2 hs]
      | switchN a cs d e =>
        simp only [rrjSafe, Bool.and_eq_true] at hs
        have hsz2 : cs.tszC ≤ k ∧ d.tszO ≤ k := by
          have h1 := CaseList.tszC_pos cs
          have h2 := ONode.tszO_pos d
          simp [Node.tsz] at hsz
          omega
        constructor
        · simp [rrj_seq_child, noRed, ih3 cs hsz2.1 hs.1, ih2 d hsz2.2 hs.2]
        · simp [rrj_multi_child, noRed, ih3 cs hsz2.1 hs.1, ih2 d hsz2.2 hs.2]
      | breakN a t => exact ⟨rfl, rfl⟩
      | condBreakN a c t => exact ⟨rfl, rfl⟩
      | contN a t => exact ⟨rfl, rfl⟩
    · -- multinode child lists
      intro outer na l hsz hp hl
      cases l with
      | nil => exact ⟨rfl, rfl⟩
      | cons x tl =>
        simp only [rrjSafeList, Bool.and_eq_true] at hl
        cases tl with
        | nil =>
          have hsz2 : x.tsz ≤ k := by simp [NodeList.tszL] at hsz; omega
          cases x with
          | block a sz stmts i => exact ⟨rfl, rfl⟩
          | multi a i l2 =>
            constructor
            · simp [rrj_multi_list_adj, noRedPairs]
            · simp [rrj_multi_list_adj, noRedList, ih1 _ hsz2 hl.1]
          | seqn a l2 =>
            constructor
            · simp [rrj_multi_list_adj, noRedPairs]
            · simp [rrj_multi_list_adj, noRedList, ih1 _ hsz2 hl.1]
          | codeN inner =>
            constructor
            · simp [rrj_multi_list_adj, noRedPairs]
            · simp [rrj_multi_list_adj, noRedList, ih1 _ hsz2 hl.1]
          | condN a r c t f =>
            constructor
            · simp [rrj_multi_list_adj, noRedPairs]
            · simp [rrj_multi_list_adj, noRedList, ih1 _ hsz2 hl.1]
          | loopN a s c b =>
            constructor
            · simp [rrj_multi_list_adj, noRedPairs]
            · simp [rrj_multi_list_adj, noRedList, ih1 _ hsz2 hl.1]
          | switchN a cs d e =>
            constructor
            · simp [rrj_multi_list_adj, noRedPairs]
            · simp [rrj_multi_list_adj, noRedList, ih1 _ hsz2 hl.1]
          | breakN a t => exact ⟨rfl, rfl⟩
          | condBreakN a c t => exact ⟨rfl, rfl⟩
          | contN a t => exact ⟨rfl, rfl⟩
        | cons y tl2 =>
          simp only [rrjSafePairs, Bool.and_eq_true, Bool.not_eq_true'] at hp
          have hpos := NodeList.tszL_pos tl2
          have hposy := Node.tsz_pos y
          have hposx := Node.tsz_pos x
          have hszx : x.tsz ≤ k := by simp [NodeList.tszL] at hsz; omega
          have hszt : (NodeList.cons y tl2).tszL ≤ k := by
            simp [NodeList.tszL] at hsz ⊢
            omega
          obtain ⟨z, zl, heq, haddr⟩ := rrj_multi_list_adj_head_addr outer na y tl2
          have hrest := ih6 outer na (.cons y tl2) hszt hp.2 hl.2
          rw [heq] at hrest
          constructor
          · rw [rrj_multi_list_adj, heq]
            simp only [noRedPairs, Bool.and_eq_true, Bool.not_eq_true']
            refine ⟨?_, hrest.1⟩
            rw [haddr]
            exact (rrj_child_not_red y.addrO x hl.1 hp.1).2
          · rw [rrj_multi_list_adj, heq]
            simp only [noRedList, Bool.and_eq_true]
            have h2 := hrest.2
            simp only [noRedList, Bool.and_eq_true] at h2
            exact ⟨(ih5 y.addrO x hszx hl.1).2, h2⟩

/-- C6 (amended): `_remove_redundant_jumps` is idempotent on every tree that
is safe in the following sense: each block keeps jump statements only in
final position, and no non-final sibling's effective trailing conditional
jump has both constant targets equal to the next sibling's address. -/
theorem remove_redundant_jumps_idempotent (s : Node) (h : rrjSafe s = true) :
    rrj_node (rrj_node s) = rrj_node s :=
  (rrj_id_aux (rrj_node s).tsz).1 (rrj_node s) le_rfl ((rrj_B_aux s.tsz).1 s le_rfl h)

/-- Closed witness for `remove_redundant_jumps_idempotent` at a sequence
with a genuinely redundant trailing jump (removed by the pass). -/
theorem remove_redundant_jumps_idempotent_witness :
    rrj_node (rrj_node (.seqn Option.none
        (.cons (.block 0 4 [.other 5 0,
            .jump Option.none (.econst Option.none 32 32) Option.none 0] Option.none)
          (.cons (.block 32 4 [.other 6 32] Option.none) .nil))))
      = rrj_node (.seqn Option.none
        (.cons (.block 0 4 [.other 5 0,
            .jump Option.none (.econst Option.none 32 32) Option.none 0] Option.none)
          (.cons (.block 32 4 [.other 6 32] Option.none) .nil))) :=
  remove_redundant_jumps_idempotent _ (by decide)

/-! ## `StructurerBase._rewrite_jumps_to_continues` and
`_remove_continue_node_at_loop_body_ends` -/

/-- `continue_node_addr`: the loop sequence's address, except for a
do-while loop whose condition is a `MultiStatementExpression`, where it is
the condition's `ins_addr`. -/
def continueNodeAddr (loopSeqAddr : Option Nat) (loopNode : Option (LoopSort × Option Expr)) :
    Option Nat :=
  match loopNode with
  | some (LoopSort.doWhileSort, some (.emse _ ia)) => some ia
  | _ => loopSeqAddr

/-- The `elif` chain of `_rewrite_jump_to_continue` on a trailing
conditional jump: the rewritten claripy condition, the other (not-continue)
target, and the matched continue address, when either constant target
equals `continue_node_addr`; the false-target arm. -/
def contCondFalse (caddr : Option Nat) (c : Expr) (tT fT : Option Expr) :
    Option (CExpr × Option Expr × Nat) :=
  match fT with
  | some (.econst _ v _) =>
    if caddr = some v then some (.cnot (claripyOfAil c), tT, v) else Option.none
  | _ => Option.none

/-- The `if`/`elif` chain of `_rewrite_jump_to_continue` on a trailing
conditional jump (true-target arm first). -/
def contCondParts (caddr : Option Nat) (c : Expr) (tT fT : Option Expr) :
    Option (CExpr × Option Expr × Nat) :=
  match tT with
  | some (.econst _ v _) =>
    if caddr = some v then some (claripyOfAil c, fT, v) else contCondFalse caddr c tT fT
  | _ => contCondFalse caddr c tT fT

/-- The `_rewrite_jump_to_continue` block handler: the list of nodes that
replaces an `ailment.Block` child (the block itself, with the trailing
statement removed when the rewrite fires, followed by the spliced
nodes). -/
def rwc_block_cluster (caddr : Option Nat) (a : Nat) (sz : Int) (stmts : List Stmt)
    (i : Option Nat) : NodeList :=
  match stmts.getLast? with
  | Option.none => .cons (.block a sz stmts i) .nil
  | some st =>
    match st with
    | .jump _ (.econst _ v _) _ ia =>
      if caddr = some v then
        .cons (.block a sz stmts.dropLast i) (.cons (.contN ia v) .nil)
      else .cons (.block a sz stmts i) .nil
    | .condJump cidx c tT fT _ _ ia =>
      match contCondParts caddr c tT fT with
      | Option.none => .cons (.block a sz stmts i) .nil
      | some (cond, otherT, v) =>
        match otherT with
        | some ot =>
          -- a conditional jump-out node followed by an unconditional continue
          .cons (.block a sz stmts.dropLast i)
            (.cons (.condN ia Option.none (.cnot cond)
                (.some (.block ia 0 [.jump cidx ot Option.none ia] Option.none)) .none)
              (.cons (.contN ia v) .nil))
        | Option.none =>
          .cons (.block a sz stmts.dropLast i)
            (.cons (.condN ia Option.none cond (.some (.contN ia v)) .none) .nil)
    | _ => .cons (.block a sz stmts i) .nil

/-- Modelled from the spec: splicing a multi-node replacement into a
single-node slot (a `Condition` branch, `CodeNode` body or switch case)
wraps it in a `SequenceNode`; spliced nodes are not re-visited (§4.3). -/
def wrapCluster (a : Nat) : NodeList → Node
  | .cons x .nil => x
  | l => .seqn (some a) l

mutual
/-- The `_rewrite_jumps_to_continues` walker: a custom `ailment.Block`
handler, a dummy `LoopNode` handler, and the default recursion elsewhere
(including into `SwitchCaseNode`s). -/
def rwc_node (caddr : Option Nat) : Node → Node
  | .block a sz stmts i => .block a sz stmts i
  | .multi a i l => .multi a i (rwc_list caddr l)
  | .seqn a l => .seqn a (rwc_list caddr l)
  | .codeN inner => .codeN (rwc_slot caddr inner)
  | .condN a r c t f => .condN a r c (rwc_oslot caddr t) (rwc_oslot caddr f)
  | .loopN a s c b => .loopN a s c b
  | .switchN a cs d e => .switchN a (rwc_case_list caddr cs) (rwc_oslot caddr d) e
  | .breakN a t => .breakN a t
  | .condBreakN a c t => .condBreakN a c t
  | .contN a t => .contN a t

/-- One list-position child of the continue rewrite: blocks expand into
their replacement cluster, all other variants are visited in place. -/
def rwc_child (caddr : Option Nat) : Node → NodeList
  | .block a sz stmts i => rwc_block_cluster caddr a sz stmts i
  | .multi a i l => .cons (.multi a i (rwc_list caddr l)) .nil
  | .seqn a l => .cons (.seqn a (rwc_list caddr l)) .nil
  | .codeN inner => .cons (.codeN (rwc_slot caddr inner)) .nil
  | .condN a r c t f => .cons (.condN a r c (rwc_oslot caddr t) (rwc_oslot caddr f)) .nil
  | .loopN a s c b => .cons (.loopN a s c b) .nil
  | .switchN a cs d e => .cons (.switchN a (rwc_case_list caddr cs) (rwc_oslot caddr d) e) .nil
  | .breakN a t => .cons (.breakN a t) .nil
  | .condBreakN a c t => .cons (.condBreakN a c t) .nil
  | .contN a t => .cons (.contN a t) .nil

/-- Children of a `SequenceNode`/`MultiNode` under the continue rewrite. -/
def rwc_list (caddr : Option Nat) : NodeList → NodeList
  | .nil => .nil
  | .cons x tl => NodeList.append (rwc_child caddr x) (rwc_list caddr tl)

/-- A single-slot child of the continue rewrite: a block's cluster is
wrapped into a sequence, every other variant is visited in place. -/
def rwc_slot (caddr : Option Nat) : Node → Node
  | .block a sz stmts i => wrapCluster a (rwc_block_cluster caddr a sz stmts i)
  | .multi a i l => .multi a i (rwc_list caddr l)
  | .seqn a l => .seqn a (rwc_list caddr l)
  | .codeN inner => .codeN (rwc_slot caddr inner)
  | .condN a r c t f => .condN a r c (rwc_oslot caddr t) (rwc_oslot caddr f)
  | .loopN a s c b => .loopN a s c b
  | .switchN a cs d e => .switchN a (rwc_case_list caddr cs) (rwc_oslot caddr d) e
  | .breakN a t => .breakN a t
  | .condBreakN a c t => .condBreakN a c t
  | .contN a t => .contN a t

/-- Optional single-slot child of the continue rewrite. -/
def rwc_oslot (caddr : Option Nat) : ONode → ONode
  | .none => .none
  | .some n => .some (rwc_slot caddr n)

/-- Switch cases under the continue rewrite. -/
def rwc_case_list (caddr : Option Nat) : CaseList → CaseList
  | .nil => .nil
  | .cons k n tl => .cons k (rwc_slot caddr n) (rwc_case_list caddr tl)
end

mutual
/-- `_remove_continue_node_at_loop_body_ends`: custom handlers for
`SequenceNode`/`MultiNode` that drop a trailing `ContinueNode` (or recurse
into the last child only), dummy handlers for `LoopNode`/`SwitchCaseNode`,
default recursion elsewhere. -/
def rtc_node : Node → Node
  | .block a sz stmts i => .block a sz stmts i
  | .multi a i l => .multi a i (rtc_tail l)
  | .seqn a l => .seqn a (rtc_tail l)
  | .codeN inner => .codeN (rtc_node inner)
  | .condN a r c t f => .condN a r c (rtc_onode t) (rtc_onode f)
  | .loopN a s c b => .loopN a s c b
  | .switchN a cs d e => .switchN a cs d e
  | .breakN a t => .breakN a t
  | .condBreakN a c t => .condBreakN a c t
  | .contN a t => .contN a t

/-- Trailing-continue removal on a child list: only the last child is
touched. -/
def rtc_tail : NodeList → NodeList
  | .nil => .nil
  | .cons x .nil =>
    match x with
    | .contN _ _ => .nil
    | n => .cons (rtc_node n) .nil
  | .cons x (.cons y tl) => .cons x (rtc_tail (.cons y tl))

/-- Optional child under trailing-continue removal. -/
def rtc_onode : ONode → ONode
  | .none => .none
  | .some n => .some (rtc_node n)
end

/-- `StructurerBase._rewrite_jumps_to_continues(loop_seq, loop_node)`: the
jump-to-continue rewrite over the loop body, followed by
`_remove_continue_node_at_loop_body_ends`. -/
def rewrite_jumps_to_continues (loopNode : Option (LoopSort × Option Expr))
    (loopSeq : Node) : Node :=
  rtc_node (rwc_node (continueNodeAddr loopSeq.addrO loopNode) loopSeq)

/-! ## `StructurerBase._rewrite_conditional_jumps_to_breaks` -/

/-- The skip test of `_rewrite_conditional_jump_to_break`: an unconditional
jump straight to the next sibling within the same `SequenceNode` (with
`nextA` the next sibling's address in that case, `None` otherwise). -/
def rjb_skip (nextA : Option Nat) (st : Stmt) : Bool :=
  match st with
  | .jump _ (.econst _ v _) _ _ => decide (nextA = some v)
  | _ => false

/-- The statement scan of `_rewrite_conditional_jump_to_break`: walk the
block's statements carrying the pending run since the last fired jump;
a jump with a target in the successor set emits the pending run (as a new
sub-block) and the synthesized break node.  Returns the emitted nodes and
the final pending run. -/
def rjb_scan (succ : List Nat) (nextA : Option Nat) (bidx : Option Nat) :
    List Stmt → List Stmt → Except PyErr (NodeList × List Stmt)
  | pending, [] => .ok (.nil, pending)
  | pending, st :: rest =>
    if st.isJumpish = false then
      rjb_scan succ nextA bidx (pending ++ [st]) rest
    else if rjb_skip nextA st then
      rjb_scan succ nextA bidx (pending ++ [st]) rest
    else if (extract_jump_targets st).any (fun t => decide (t ∈ succ)) then
      match loop_create_break_node st succ with
      | .error e => .error e
      | .ok bn =>
        match rjb_scan succ nextA bidx [] rest with
        | .error e => .error e
        | .ok (emitted, pfin) =>
          let here : NodeList :=
            (match pending with
             | [] => (match bn with | some b => .cons b .nil | Option.none => .nil)
             | p :: _ =>
               .cons (.block p.insA ((st.insA : Int) - (p.insA : Int)) pending bidx)
                 (match bn with | some b => .cons b .nil | Option.none => .nil))
          .ok (NodeList.append here emitted, pfin)
    else
      rjb_scan succ nextA bidx (pending ++ [st]) rest

/-- The `_rewrite_conditional_jump_to_break` handler on one `ailment.Block`
child: the replacement node list (the emptied block followed by the spliced
nodes), or the unchanged block when no jump fired.  The trailing sub-block
is only emitted when more than one statement remains after the last fired
jump (the source's `len(node.statements) - 1 > last_nonjump_stmt_idx`
test). -/
def rjb_block_cluster (succ : List Nat) (nextA : Option Nat) (a : Nat) (sz : Int)
    (stmts : List Stmt) (bidx : Option Nat) : Except PyErr NodeList :=
  if stmts = [] then .ok (.cons (.block a sz stmts bidx) .nil)
  else
    match rjb_scan succ nextA bidx [] stmts with
    | .error e => .error e
    | .ok (emitted, pending) =>
      match emitted with
      | .nil => .ok (.cons (.block a sz stmts bidx) .nil)
      | _ =>
        let tailN : NodeList :=
          if pending.length > 1 then
            match pending with
            | p :: _ =>
              .cons (.block p.insA ((a : Int) + sz - (p.insA : Int)) pending bidx) .nil
            | [] => .nil
          else .nil
        .ok (.cons (.block a sz [] bidx) (NodeList.append emitted tailN))

/-- `addr` of the head of a list, if any. -/
def headAddrO : NodeList → Option Nat
  | .cons y _ => y.addrO
  | .nil => Option.none

mutual
/-- The `_rewrite_conditional_jumps_to_breaks` walker: a custom
`ailment.Block` handler, dummy handlers for `LoopNode` and
`SwitchCaseNode`, default recursion elsewhere.  A bare block in root
position is returned unchanged when no jump fires and raises otherwise (no
parent to splice into). -/
def rjb_node (succ : List Nat) : Node → Except PyErr Node
  | .block a sz stmts i =>
    if stmts = [] then .ok (.block a sz stmts i)
    else
      match rjb_scan succ Option.none i [] stmts with
      | .error e => .error e
      | .ok (emitted, _) =>
        match emitted with
        | .nil => .ok (.block a sz stmts i)
        | _ => .error .attributeError
  | .multi a i l =>
    match rjb_list succ l with
    | .ok l2 => .ok (.multi a i l2)
    | .error e => .error e
  | .seqn a l =>
    match rjb_seq_list succ l with
    | .ok l2 => .ok (.seqn a l2)
    | .error e => .error e
  | .codeN inner =>
    match rjb_slot succ inner with
    | .ok r => .ok (.codeN r)
    | .error e => .error e
  | .condN a r c t f =>
    match rjb_oslot succ t with
    | .error e => .error e
    | .ok t2 =>
      match rjb_oslot succ f with
      | .error e => .error e
      | .ok f2 => .ok (.condN a r c t2 f2)
  | .loopN a s c b => .ok (.loopN a s c b)
  | .switchN a cs d e => .ok (.switchN a cs d e)
  | .breakN a t => .ok (.breakN a t)
  | .condBreakN a c t => .ok (.condBreakN a c t)
  | .contN a t => .ok (.contN a t)

/-- One list-position child of the break rewrite (`nextA` is the next
sibling's address when the parent is a `SequenceNode`). -/
def rjb_seq_child (succ : List Nat) (nextA : Option Nat) : Node → Except PyErr NodeList
  | .block a sz stmts i => rjb_block_cluster succ nextA a sz stmts i
  | .multi a i l =>
    match rjb_list succ l with
    | .ok l2 => .ok (.cons (.multi a i l2) .nil)
    | .error e => .error e
  | .seqn a l =>
    match rjb_seq_list succ l with
    | .ok l2 => .ok (.cons (.seqn a l2) .nil)
    | .error e => .error e
  | .codeN inner =>
    match rjb_slot succ inner with
    | .ok r => .ok (.cons (.codeN r) .nil)
    | .error e => .error e
  | .condN a r c t f =>
    match rjb_oslot succ t with
    | .error e => .error e
    | .ok t2 =>
      match rjb_oslot succ f with
      | .error e => .error e
      | .ok f2 => .ok (.cons (.condN a r c t2 f2) .nil)
  | .loopN a s c b => .ok (.cons (.loopN a s c b) .nil)
  | .switchN a cs d e => .ok (.cons (.switchN a cs d e) .nil)
  | .breakN a t => .ok (.cons (.breakN a t) .nil)
  | .condBreakN a c t => .ok (.cons (.condBreakN a c t) .nil)
  | .contN a t => .ok (.cons (.contN a t) .nil)

/-- Children of a `SequenceNode` under the break rewrite (each non-final
child sees its next sibling's address for the skip test). -/
def rjb_seq_list (succ : List Nat) : NodeList → Except PyErr NodeList
  | .nil => .ok .nil
  | .cons x tl =>
    match rjb_seq_child succ (headAddrO tl) x with
    | .error e => .error e
    | .ok c =>
      match rjb_seq_list succ tl with
      | .error e => .error e
      | .ok rest => .ok (NodeList.append c rest)

/-- Children of a `MultiNode` under the break rewrite (no skip test: the
parent is not a `SequenceNode`). -/
def rjb_list (succ : List Nat) : NodeList → Except PyErr NodeList
  | .nil => .ok .nil
  | .cons x tl =>
    match rjb_seq_child succ Option.none x with
    | .error e => .error e
    | .ok c =>
      match rjb_list succ tl with
      | .error e => .error e
      | .ok rest => .ok (NodeList.append c rest)

/-- A single-slot child of the break rewrite. -/
def rjb_slot (succ : List Nat) : Node → Except PyErr Node
  | .block a sz stmts i =>
    match rjb_block_cluster succ Option.none a sz stmts i with
    | .ok cl => .ok (wrapCluster a cl)
    | .error e => .error e
  | .multi a i l =>
    match rjb_list succ l with
    | .ok l2 => .ok (.multi a i l2)
    | .error e => .error e
  | .seqn a l =>
    match rjb_seq_list succ l with
    | .ok l2 => .ok (.seqn a l2)
    | .error e => .error e
  | .codeN inner =>
    match rjb_slot succ inner with
    | .ok r => .ok (.codeN r)
    | .error e => .error e
  | .condN a r c t f =>
    match rjb_oslot succ t with
    | .error e => .error e
    | .ok t2 =>
      match rjb_oslot succ f with
      | .error e => .error e
      | .ok f2 => .ok (.condN a r c t2 f2)
  | .loopN a s c b => .ok (.loopN a s c b)
  | .switchN a cs d e => .ok (.switchN a cs d e)
  | .breakN a t => .ok (.breakN a t)
  | .condBreakN a c t => .ok (.condBreakN a c t)
  | .contN a t => .ok (.contN a t)

/-- Optional single-slot child of the break rewrite. -/
def rjb_oslot (succ : List Nat) : ONode → Except PyErr ONode
  | .none => .ok .none
  | .some n =>
    match rjb_slot succ n with
    | .ok r => .ok (.some r)
    | .error e => .error e
end

/-- `StructurerBase._rewrite_conditional_jumps_to_breaks(loop_node,
successor_addrs)`. -/
def rewrite_conditional_jumps_to_breaks (succ : List Nat) (loopNode : Node) :
    Except PyErr Node :=
  rjb_node succ loopNode

/-! ## Frame property of the loop rewrites (C10) -/

mutual
/-- The maximal `LoopNode` subtrees of a tree, in traversal order (not
descending into them). -/
def loopsOf : Node → List Node
  | .loopN a s c b => [.loopN a s c b]
  | .block _ _ _ _ => []
  | .multi _ _ l => loopsOfList l
  | .seqn _ l => loopsOfList l
  | .codeN n => loopsOf n
  | .condN _ _ _ t f => loopsOfO t ++ loopsOfO f
  | .switchN _ cs d _ => loopsOfCases cs ++ loopsOfO d
  | .breakN _ _ => []
  | .condBreakN _ _ _ => []
  | .contN _ _ => []

/-- Loops of an optional child. -/
def loopsOfO : ONode → List Node
  | .none => []
  | .some n => loopsOf n

/-- Loops of a child list. -/
def loopsOfList : NodeList → List Node
  | .nil => []
  | .cons x tl => loopsOf x ++ loopsOfList tl

/-- Loops of the switch cases. -/
def loopsOfCases : CaseList → List Node
  | .nil => []
  | .cons _ n tl => loopsOf n ++ loopsOfCases tl
end

mutual
/-- The maximal `SwitchCaseNode` subtrees of a tree, in traversal order
(not descending into them). -/
def switchesOf : Node → List Node
  | .switchN a cs d e => [.switchN a cs d e]
  | .block _ _ _ _ => []
  | .multi _ _ l => switchesOfList l
  | .seqn _ l => switchesOfList l
  | .codeN n => switchesOf n
  | .condN _ _ _ t f => switchesOfO t ++ switchesOfO f
  | .loopN _ _ _ b => switchesOf b
  | .breakN _ _ => []
  | .condBreakN _ _ _ => []
  | .contN _ _ => []

/-- Switches of an optional child. -/
def switchesOfO : ONode → List Node
  | .none => []
  | .some n => switchesOf n

/-- Switches of a child list. -/
def switchesOfList : NodeList → List Node
  | .nil => []
  | .cons x tl => switchesOf x ++ switchesOfList tl

/-- Switches of the switch cases. -/
def switchesOfCases : CaseList → List Node
  | .nil => []
  | .cons _ n tl => switchesOf n ++ switchesOfCases tl
end

/-- Loops distribute over list concatenation. -/
theorem loopsOfList_append (a b : NodeList) :
    loopsOfList (NodeList.append a b) = loopsOfList a ++ loopsOfList b := by
  induction a using NodeList.inductionOn with
  | hnil => simp [NodeList.append, loopsOfList]
  | hcons x tl ih => simp [NodeList.append, loopsOfList, ih]

/-- Switches distribute over list concatenation. -/
theorem switchesOfList_append (a b : NodeList) :
    switchesOfList (NodeList.append a b) = switchesOfList a ++ switchesOfList b := by
  induction a using NodeList.inductionOn with
  | hnil => simp [NodeList.append, switchesOfList]
  | hcons x tl ih => simp [NodeList.append, switchesOfList, ih]

/-- The continue rewrite's block clusters contain no loop subtree. -/
theorem loopsOf_rwc_cluster (caddr : Option Nat) (a : Nat) (sz : Int)
    (stmts : List Stmt) (i : Option Nat) :
    loopsOfList (rwc_block_cluster caddr a sz stmts i) = [] := by
  unfold rwc_block_cluster
  cases hl : stmts.getLast? with
  | none => simp [loopsOfList, loopsOf]
  | some st =>
    cases st with
    | jump jidx t tidx ia =>
      cases t <;> simp [loopsOfList, loopsOf] <;>
        split <;> simp [loopsOfList, loopsOf]
    | condJump cidx c tT fT ti fi ia =>
      cases hc : contCondParts caddr c tT fT with
      | none => simp [hc, loopsOfList, loopsOf]
      | some v =>
        obtain ⟨cond, otherT, w⟩ := v
        cases otherT <;> simp [hc, loopsOfList, loopsOf, loopsOfO]
    | lbl x y => simp [loopsOfList, loopsOf]
    | other x y => simp [loopsOfList, loopsOf]

/-- A cluster without loop subtrees wraps to a slot node without loop
subtrees. -/
theorem loopsOf_wrapCluster (a : Nat) (c : NodeList) (h : loopsOfList c = []) :
    loopsOf (wrapCluster a c) = [] := by
  cases c with
  | nil => simp [wrapCluster, loopsOf, loopsOfList]
  | cons x tl =>
    cases tl with
    | nil =>
      simp only [wrapCluster]
      simpa [loopsOfList] using h
    | cons y tl2 => simpa [wrapCluster, loopsOf] using h

/-- The continue rewrite preserves the maximal loop subtrees (strong
induction on tree size, one component per pass function). -/
theorem rwc_loops_aux (caddr : Option Nat) (k : Nat) :
    (∀ n : Node, n.tsz ≤ k → loopsOf (rwc_node caddr n) = loopsOf n)
    ∧ (∀ l : NodeList, l.tszL ≤ k → loopsOfList (rwc_list caddr l) = loopsOfList l)
    ∧ (∀ x : Node, x.tsz ≤ k → loopsOfList (rwc_child caddr x) = loopsOf x)
    ∧ (∀ x : Node, x.tsz ≤ k → loopsOf (rwc_slot caddr x) = loopsOf x)
    ∧ (∀ t : ONode, t.tszO ≤ k → loopsOfO (rwc_oslot caddr t) = loopsOfO t)
    ∧ (∀ cs : CaseList, cs.tszC ≤ k → loopsOfCases (rwc_case_list caddr cs) = loopsOfCases cs) := by
  induction k with
  | zero =>
    refine ⟨?_, ?_, ?_, ?_, ?_, ?_⟩
    · intro n hsz; have := Node.tsz_pos n; omega
    · intro l hsz; have := NodeList.tszL_pos l; omega
    · intro x hsz; have := Node.tsz_pos x; omega
    · intro x hsz; have := Node.tsz_pos x; omega
    · intro t hsz; have := ONode.tszO_pos t; omega
    · intro cs hsz; have := CaseList.tszC_pos cs; omega
  | succ k ih =>
    obtain ⟨ih1, ih2, ih3, ih4, ih5, ih6⟩ := ih
    have hnode : ∀ n : Node, n.tsz ≤ k + 1 → loopsOf (rwc_node caddr n) = loopsOf n := by
      intro n hsz
      cases n with
      | block a sz stmts i => rfl
      | multi a i l =>
        have hsz2 : l.tszL ≤ k := by simp [Node.tsz] at hsz; omega
        simp [rwc_node, loopsOf, ih2 l hsz2]
      | seqn a l =>
        have hsz2 : l.tszL ≤ k := by simp [Node.tsz] at hsz; omega
        simp [rwc_node, loopsOf, ih2 l hsz2]
      | codeN inner =>
        have hsz2 : inner.tsz ≤ k := by simp [Node.tsz] at hsz; omega
        simp [rwc_node, loopsOf, ih4 inner hsz2]
      | condN a r c t f =>
        have hsz2 : t.tszO ≤ k ∧ f.tszO ≤ k := by
          have h1 := ONode.tszO_pos t
          have h2 := ONode.tszO_pos f
          simp [Node.tsz] at hsz
          omega
        simp [rwc_node, loopsOf, ih5 t hsz2.1, ih5 f hsz2.2]
      | loopN a s c b => rfl
      | switchN a cs d e =>
        have hsz2 : cs.tszC ≤ k ∧ d.tszO ≤ k := by
          have h1 := CaseList.tszC_pos cs
          have h2 := ONode.tszO_pos d
          simp [Node.tsz] at hsz
          omega
        simp [rwc_node, loopsOf, ih6 cs hsz2.1, ih5 d hsz2.2]
      | breakN a t => rfl
      | condBreakN a c t => rfl
      | contN a t => rfl
    have hslot : ∀ x : Node, x.tsz ≤ k + 1 → loopsOf (rwc_slot caddr x) = loopsOf x := by
      intro x hsz
      cases x with
      | block a sz stmts i =>
        simp only [rwc_slot]
        rw [loopsOf_wrapCluster a _ (loopsOf_rwc_cluster caddr a sz stmts i)]
        rfl
      | multi a i l =>
        have hsz2 : l.tszL ≤ k := by simp [Node.tsz] at hsz; omega
        simp [rwc_slot, loopsOf, ih2 l hsz2]
      | seqn a l =>
        have hsz2 : l.tszL ≤ k := by simp [Node.tsz] at hsz; omega
        simp [rwc_slot, loopsOf, ih2 l hsz2]
      | codeN inner =>
        have hsz2 : inner.tsz ≤ k := by simp [Node.tsz] at hsz; omega
        simp [rwc_slot, loopsOf, ih4 inner hsz2]
      | condN a r c t f =>
        have hsz2 : t.tszO ≤ k ∧ f.tszO ≤ k := by
          have h1 := ONode.tszO_pos t
          have h2 := ONode.tszO_pos f
          simp [Node.tsz] at hsz
          omega
        simp [rwc_slot, loopsOf, ih5 t hsz2.1, ih5 f hsz2.2]
      | loopN a s c b => rfl
      | switchN a cs d e =>
        have hsz2 : cs.tszC ≤ k ∧ d.tszO ≤ k := by
          have h1 := CaseList.tszC_pos cs
          have h2 := ONode.tszO_pos d
          simp [Node.tsz] at hsz
          omega
        simp [rwc_slot, loopsOf, ih6 cs hsz2.1, ih5 d hsz2.2]
      | breakN a t => rfl
      | condBreakN a c t => rfl
      | contN a t => rfl
    have hchild : ∀ x : Node, x.tsz ≤ k + 1 → loopsOfList (rwc_child caddr x) = loopsOf x := by
      intro x hsz
      cases x with
      | block a sz stmts i =>
        rw [show rwc_child caddr (.block a sz stmts i)
            = rwc_block_cluster caddr a sz stmts i from rfl]
        rw [loopsOf_rwc_cluster]
        rfl
      | multi a i l =>
        have hsz2 : l.tszL ≤ k := by simp [Node.tsz] at hsz; omega
        simp [rwc_child, loopsOfList, loopsOf, ih2 l hsz2]
      | seqn a l =>
        have hsz2 : l.tszL ≤ k := by simp [Node.tsz] at hsz; omega
        simp [rwc_child, loopsOfList, loopsOf, ih2 l hsz2]
      | codeN inner =>
        have hsz2 : inner.tsz ≤ k := by simp [Node.tsz] at hsz; omega
        simp [rwc_child, loopsOfList, loopsOf, ih4 inner hsz2]
      | condN a r c t f =>
        have hsz2 : t.tszO ≤ k ∧ f.tszO ≤ k := by
          have h1 := ONode.tszO_pos t
          have h2 := ONode.tszO_pos f
          simp [Node.tsz] at hsz
          omega
        simp [rwc_child, loopsOfList, loopsOf, ih5 t hsz2.1, ih5 f hsz2.2]
      | loopN a s c b => simp [rwc_child, loopsOfList, loopsOf]
      | switchN a cs d e =>
        have hsz2 : cs.tszC ≤ k ∧ d.tszO ≤ k := by
          have h1 := CaseList.tszC_pos cs
          have h2 := ONode.tszO_pos d
          simp [Node.tsz] at hsz
          omega
        simp [rwc_child, loopsOfList, loopsOf, ih6 cs hsz2.1, ih5 d hsz2.2]
      | breakN a t => simp [rwc_child, loopsOfList, loopsOf]
      | condBreakN a c t => simp [rwc_child, loopsOfList, loopsOf]
      | contN a t => simp [rwc_child, loopsOfList, loopsOf]
    refine ⟨hnode, ?_, hchild, hslot, ?_, ?_⟩
    · intro l hsz
      cases l with
      | nil => rfl
      | cons x tl =>
        have hpos := NodeList.tszL_pos tl
        have hsz2 : x.tsz ≤ k + 1 ∧ tl.tszL ≤ k := by
          have := Node.tsz_pos x
          simp [NodeList.tszL] at hsz
          omega
        rw [rwc_list, loopsOfList_append, hchild x hsz2.1, ih2 tl hsz2.2]
        rfl
    · intro t hsz
      cases t with
      | none => rfl
      | some n =>
        have hsz2 : n.tsz ≤ k + 1 := by simp [ONode.tszO] at hsz; omega
        simp [rwc_oslot, loopsOfO, hslot n hsz2]
    · intro cs hsz
      cases cs with
      | nil => rfl
      | cons key n tl =>
        have hsz2 : n.tsz ≤ k + 1 ∧ tl.tszC ≤ k := by
          have h1 := Node.tsz_pos n
          have h2 := CaseList.tszC_pos tl
          simp [CaseList.tszC] at hsz
          omega
        simp [rwc_case_list, loopsOfCases, hslot n hsz2.1, ih6 tl hsz2.2]

/-- Trailing-continue removal preserves the maximal loop subtrees. -/
theorem rtc_loops_aux (k : Nat) :
    (∀ n : Node, n.tsz ≤ k → loopsOf (rtc_node n) = loopsOf n)
    ∧ (∀ l : NodeList, l.tszL ≤ k → loopsOfList (rtc_tail l) = loopsOfList l)
    ∧ (∀ t : ONode, t.tszO ≤ k → loopsOfO (rtc_onode t) = loopsOfO t) := by
  induction k with
  | zero =>
    refine ⟨?_, ?_, ?_⟩
    · intro n hsz; have := Node.tsz_pos n; omega
    · intro l hsz; have := NodeList.tszL_pos l; omega
    · intro t hsz; have := ONode.tszO_pos t; omega
  | succ k ih =>
    obtain ⟨ih1, ih2, ih3⟩ := ih
    refine ⟨?_, ?_, ?_⟩
    · intro n hsz
      cases n with
      | block a sz stmts i => rfl
      | multi a i l =>
        have hsz2 : l.tszL ≤ k := by simp [Node.tsz] at hsz; omega
        simp [rtc_node, loopsOf, ih2 l hsz2]
      | seqn a l =>
        have hsz2 : l.tszL ≤ k := by simp [Node.tsz] at hsz; omega
        simp [rtc_node, loopsOf, ih2 l hsz2]
      | codeN inner =>
        have hsz2 : inner.tsz ≤ k := by simp [Node.tsz] at hsz; omega
        simp [rtc_node, loopsOf, ih1 inner hsz2]
      | condN a r c t f =>
        have hsz2 : t.tszO ≤ k ∧ f.tszO ≤ k := by
          have h1 := ONode.tszO_pos t
          have h2 := ONode.tszO_pos f
          simp [Node.tsz] at hsz
          omega
        simp [rtc_node, loopsOf, ih3 t hsz2.1, ih3 f hsz2.2]
      | loopN a s c b => rfl
      | switchN a cs d e => rfl
      | breakN a t => rfl
      | condBreakN a c t => rfl
      | contN a t => rfl
    · intro l hsz
      cases l with
      | nil => rfl
      | cons x tl =>
        cases tl with
        | nil =>
          have hsz2 : x.tsz ≤ k := by simp [NodeList.tszL] at hsz; omega
          cases x with
          | contN a t => simp [rtc_tail, loopsOfList, loopsOf]
          | block a sz stmts i => simp [rtc_tail, loopsOfList, loopsOf, ih1 _ hsz2]
          | multi a i l2 => simp [rtc_tail, loopsOfList, ih1 _ hsz2]
          | seqn a l2 => simp [rtc_tail, loopsOfList, ih1 _ hsz2]
          | codeN inner => simp [rtc_tail, loopsOfList, ih1 _ hsz2]
          | condN a r c t f => simp [rtc_tail, loopsOfList, ih1 _ hsz2]
          | loopN a s c b => simp [rtc_tail, loopsOfList, ih1 _ hsz2]
          | switchN a cs d e => simp [rtc_tail, loopsOfList, ih1 _ hsz2]
          | breakN a t => simp [rtc_tail, loopsOfList, ih1 _ hsz2]
          | condBreakN a c t => simp [rtc_tail, loopsOfList, ih1 _ hsz2]
        | cons y tl2 =>
          have hsz2 : (NodeList.cons y tl2).tszL ≤ k := by
            have := Node.tsz_pos x
            simp [NodeList.tszL] at hsz ⊢
            omega
          rw [rtc_tail]
          simp only [loopsOfList]
          rw [ih2 _ hsz2]
          simp [loopsOfList]
    · intro t hsz
      cases t with
      | none => rfl
      | some n =>
        have hsz2 : n.tsz ≤ k := by simp [ONode.tszO] at hsz; omega
        simp [rtc_onode, loopsOfO, ih1 n hsz2]

/-- A successfully synthesized break node is a `BreakNode` or
`ConditionalBreakNode`, hence contains no loop or switch subtree. -/
theorem loop_create_break_node_shape (st : Stmt) (succ : List Nat) (b : Node)
    (h : loop_create_break_node st succ = .ok (some b)) :
    loopsOf b = [] ∧ switchesOf b = [] := by
  unfold loop_create_break_node at h
  repeat' split at h
  all_goals simp at h
  all_goals subst h
  all_goals exact ⟨rfl, rfl⟩

/-- The statement scan of the break rewrite emits only blocks and break
nodes: no loop or switch subtree. -/
theorem rjb_scan_emitted (succ : List Nat) (nextA : Option Nat) (bidx : Option Nat) :
    ∀ (stmts pending : List Stmt) (em : NodeList) (p : List Stmt),
      rjb_scan succ nextA bidx pending stmts = .ok (em, p) →
      loopsOfList em = [] ∧ switchesOfList em = [] := by
  intro stmts
  induction stmts with
  | nil =>
    intro pending em p h
    rw [rjb_scan] at h
    simp at h
    rw [← h.1]
    exact ⟨rfl, rfl⟩
  | cons st rest ih =>
    intro pending em p h
    rw [rjb_scan] at h
    split at h
    · exact ih _ _ _ h
    · split at h
      · exact ih _ _ _ h
      · split at h
        · cases hbn : loop_create_break_node st succ with
          | error e => rw [hbn] at h; simp at h
          | ok bn =>
            rw [hbn] at h
            cases hrec : rjb_scan succ nextA bidx [] rest with
            | error e => rw [hrec] at h; simp at h
            | ok q =>
              obtain ⟨em2, p2⟩ := q
              rw [hrec] at h
              simp only [Except.ok.injEq, Prod.mk.injEq] at h
              obtain ⟨hem, hp⟩ := h
              have hrest := ih [] em2 p2 hrec
              subst hem
              rw [loopsOfList_append, switchesOfList_append, hrest.1, hrest.2]
              cases pending with
              | nil =>
                cases bn with
                | none => exact ⟨rfl, rfl⟩
                | some b =>
                  have hb := loop_create_break_node_shape st succ b hbn
                  simp [loopsOfList, switchesOfList, hb.1, hb.2]
              | cons p0 prest =>
                cases bn with
                | none => simp [loopsOfList, switchesOfList, loopsOf, switchesOf]
                | some b =>
                  have hb := loop_create_break_node_shape st succ b hbn
                  simp [loopsOfList, switchesOfList, loopsOf, switchesOf, hb.1, hb.2]
        · exact ih _ _ _ h

/-- The break rewrite's block clusters contain no loop or switch
subtree. -/
theorem rjb_cluster_frame (succ : List Nat) (nextA : Option Nat) (a : Nat) (sz : Int)
    (stmts : List Stmt) (bidx : Option Nat) (cl : NodeList)
    (h : rjb_block_cluster succ nextA a sz stmts bidx = .ok cl) :
    loopsOfList cl = [] ∧ switchesOfList cl = [] := by
  unfold rjb_block_cluster at h
  split at h
  · simp at h
    rw [← h]
    exact ⟨rfl, rfl⟩
  · cases hs : rjb_scan succ nextA bidx [] stmts with
    | error e => rw [hs] at h; simp at h
    | ok q =>
      obtain ⟨em, pending⟩ := q
      rw [hs] at h
      have hem := rjb_scan_emitted succ nextA bidx stmts [] em pending hs
      cases em with
      | nil =>
        simp at h
        rw [← h]
        exact ⟨rfl, rfl⟩
      | cons e0 etl =>
        simp only [Except.ok.injEq] at h
        subst h
        have h1 : loopsOf e0 = [] ∧ loopsOfList etl = [] := by
          simpa [loopsOfList] using hem.1
        have h2 : switchesOf e0 = [] ∧ switchesOfList etl = [] := by
          simpa [switchesOfList] using hem.2
        constructor
        · simp only [loopsOfList, loopsOf, loopsOfList_append, h1.1, h1.2]
          split
          · split <;> simp [loopsOfList, loopsOf, h1.1, h1.2]
          · simp [loopsOfList, h1.1, h1.2]
        · simp only [switchesOfList, switchesOf, switchesOfList_append, h2.1, h2.2]
          split
          · split <;> simp [switchesOfList, switchesOf, h2.1, h2.2]
          · simp [switchesOfList, h2.1, h2.2]

/-- The break rewrite preserves the maximal loop and switch subtrees
(strong induction on tree size, one component per pass function). -/
theorem rjb_frame_aux (succ : List Nat) (k : Nat) :
    (∀ n : Node, n.tsz ≤ k → ∀ m, rjb_node succ n = .ok m →
      loopsOf m = loopsOf n ∧ switchesOf m = switchesOf n)
    ∧ (∀ l : NodeList, l.tszL ≤ k → ∀ m, rjb_seq_list succ l = .ok m →
      loopsOfList m = loopsOfList l ∧ switchesOfList m = switchesOfList l)
    ∧ (∀ l : NodeList, l.tszL ≤ k → ∀ m, rjb_list succ l = .ok m →
      loopsOfList m = loopsOfList l ∧ switchesOfList m = switchesOfList l)
    ∧ (∀ (nextA : Option Nat) (x : Node), x.tsz ≤ k → ∀ m,
      rjb_seq_child succ nextA x = .ok m →
      loopsOfList m = loopsOf x ∧ switchesOfList m = switchesOf x)
    ∧ (∀ x : Node, x.tsz ≤ k → ∀ m, rjb_slot succ x = .ok m →
      loopsOf m = loopsOf x ∧ switchesOf m = switchesOf x)
    ∧ (∀ t : ONode, t.tszO ≤ k → ∀ m, rjb_oslot succ t = .ok m →
      loopsOfO m = loopsOfO t ∧ switchesOfO m = switchesOfO t) := by
  induction k with
  | zero =>
    refine ⟨?_, ?_, ?_, ?_, ?_, ?_⟩
    · intro n hsz; have := Node.tsz_pos n; omega
    · intro l hsz; have := NodeList.tszL_pos l; omega
    · intro l hsz; have := NodeList.tszL_pos l; omega
    · intro nextA x hsz; have := Node.tsz_pos x; omega
    · intro x hsz; have := Node.tsz_pos x; omega
    · intro t hsz; have := ONode.tszO_pos t; omega
  | succ k ih =>
    obtain ⟨ih1, ih2, ih3, ih4, ih5, ih6⟩ := ih
    have hnode : ∀ n : Node, n.tsz ≤ k + 1 → ∀ m, rjb_node succ n = .ok m →
        loopsOf m = loopsOf n ∧ switchesOf m = switchesOf n := by
      intro n hsz m hm
      cases n with
      | block a sz stmts i =>
        rw [rjb_node] at hm
        split at hm
        · simp at hm
          subst hm
          exact ⟨rfl, rfl⟩
        · cases hs : rjb_scan succ Option.none i [] stmts with
          | error e => rw [hs] at hm; simp at hm
          | ok q =>
            obtain ⟨em, p⟩ := q
            rw [hs] at hm
            cases em with
            | nil =>
              simp at hm
              subst hm
              exact ⟨rfl, rfl⟩
            | cons e0 etl => simp at hm
      | multi a i l =>
        have hsz2 : l.tszL ≤ k := by simp [Node.tsz] at hsz; omega
        rw [rjb_node] at hm
        cases h2 : rjb_list succ l with
        | error e => rw [h2] at hm; simp at hm
        | ok l2 =>
          rw [h2] at hm
          simp only [Except.ok.injEq] at hm
          subst hm
          have := ih3 l hsz2 l2 h2
          simp [loopsOf, switchesOf, this.1, this.2]
      | seqn a l =>
        have hsz2 : l.tszL ≤ k := by simp [Node.tsz] at hsz; omega
        rw [rjb_node] at hm
        cases h2 : rjb_seq_list succ l with
        | error e => rw [h2] at hm; simp at hm
        | ok l2 =>
          rw [h2] at hm
          simp only [Except.ok.injEq] at hm
          subst hm
          have := ih2 l hsz2 l2 h2
          simp [loopsOf, switchesOf, this.1, this.2]
      | codeN inner =>
        have hsz2 : inner.tsz ≤ k := by simp [Node.tsz] at hsz; omega
        rw [rjb_node] at hm
        cases h2 : rjb_slot succ inner with
        | error e => rw [h2] at hm; simp at hm
        | ok r =>
          rw [h2] at hm
          simp only [Except.ok.injEq] at hm
          subst hm
          have := ih5 inner hsz2 r h2
          simp [loopsOf, switchesOf, this.1, this.2]
      | condN a r c t f =>
        have hsz2 : t.tszO ≤ k ∧ f.tszO ≤ k := by
          have h1 := ONode.tszO_pos t
          have h2 := ONode.tszO_pos f
          simp [Node.tsz] at hsz
          omega
        rw [rjb_node] at hm
        cases h2 : rjb_oslot succ t with
        | error e => rw [h2] at hm; simp at hm
        | ok t2 =>
          rw [h2] at hm
          cases h3 : rjb_oslot succ f with
          | error e => rw [h3] at hm; simp at hm
          | ok f2 =>
            rw [h3] at hm
            simp only [Except.ok.injEq] at hm
            subst hm
            have e2 := ih6 t hsz2.1 t2 h2
            have e3 := ih6 f hsz2.2 f2 h3
            simp [loopsOf, switchesOf, e2.1, e2.2, e3.1, e3.2]
      | loopN a s c b =>
        rw [rjb_node] at hm
        simp at hm
        subst hm
        exact ⟨rfl, rfl⟩
      | switchN a cs d e =>
        rw [rjb_node] at hm
        simp at hm
        subst hm
        exact ⟨rfl, rfl⟩
      | breakN a t =>
        rw [rjb_node] at hm
        simp at hm
        subst hm
        exact ⟨rfl, rfl⟩
      | condBreakN a c t =>
        rw [rjb_node] at hm
        simp at hm
        subst hm
        exact ⟨rfl, rfl⟩
      | contN a t =>
        rw [rjb_node] at hm
        simp at hm
        subst hm
        exact ⟨rfl, rfl⟩
    have hslot : ∀ x : Node, x.tsz ≤ k + 1 → ∀ m, rjb_slot succ x = .ok m →
        loopsOf m = loopsOf x ∧ switchesOf m = switchesOf x := by
      intro x hsz m hm
      cases x with
      | block a sz stmts i =>
        rw [rjb_slot] at hm
        cases hc : rjb_block_cluster succ Option.none a sz stmts i with
        | error e => rw [hc] at hm; simp at hm
        | ok cl =>
          rw [hc] at hm
          simp only [Except.ok.injEq] at hm
          subst hm
          have hcl := rjb_cluster_frame succ Option.none a sz stmts i cl hc
          constructor
          · rw [loopsOf_wrapCluster a cl hcl.1]
            rfl
          · cases cl with
            | nil =>
              simp only [wrapCluster]
              exact hcl.2
            | cons c0 ctl =>
              cases ctl with
              | nil =>
                simp only [wrapCluster]
                simpa [switchesOfList] using hcl.2
              | cons c1 ctl2 =>
                simp only [wrapCluster]
                simpa [switchesOf] using hcl.2
      | multi a i l =>
        have hsz2 : l.tszL ≤ k := by simp [Node.tsz] at hsz; omega
        rw [rjb_slot] at hm
        cases h2 : rjb_list succ l with
        | error e => rw [h2] at hm; simp at hm
        | ok l2 =>
          rw [h2] at hm
          simp only [Except.ok.injEq] at hm
          subst hm
          have := ih3 l hsz2 l2 h2
          simp [loopsOf, switchesOf, this.1, this.2]
      | seqn a l =>
        have hsz2 : l.tszL ≤ k := by simp [Node.tsz] at hsz; omega
        rw [rjb_slot] at hm
        cases h2 : rjb_seq_list succ l with
        | error e => rw [h2] at hm; simp at hm
        | ok l2 =>
          rw [h2] at hm
          simp only [Except.ok.injEq] at hm
          subst hm
          have := ih2 l hsz2 l2 h2
          simp [loopsOf, switchesOf, this.1, this.2]
      | codeN inner =>
        have hsz2 : inner.tsz ≤ k := by simp [Node.tsz] at hsz; omega
        rw [rjb_slot] at hm
        cases h2 : rjb_slot succ inner with
        | error e => rw [h2] at hm; simp at hm
        | ok r =>
          rw [h2] at hm
          simp only [Except.ok.injEq] at hm
          subst hm
          have := ih5 inner hsz2 r h2
          simp [loopsOf, switchesOf, this.1, this.2]
      | condN a r c t f =>
        have hsz2 : t.tszO ≤ k ∧ f.tszO ≤ k := by
          have h1 := ONode.tszO_pos t
          have h2 := ONode.tszO_pos f
          simp [Node.tsz] at hsz
          omega
        rw [rjb_slot] at hm
        cases h2 : rjb_oslot succ t with
        | error e => rw [h2] at hm; simp at hm
        | ok t2 =>
          rw [h2] at hm
          cases h3 : rjb_oslot succ f with
          | error e => rw [h3] at hm; simp at hm
          | ok f2 =>
            rw [h3] at hm
            simp only [Except.ok.injEq] at hm
            subst hm
            have e2 := ih6 t hsz2.1 t2 h2
            have e3 := ih6 f hsz2.2 f2 h3
            simp [loopsOf, switchesOf, e2.1, e2.2, e3.1, e3.2]
      | loopN a s c b =>
        rw [rjb_slot] at hm
        simp at hm
        subst hm
        exact ⟨rfl, rfl⟩
      | switchN a cs d e =>
        rw [rjb_slot] at hm
        simp at hm
        subst hm
        exact ⟨rfl, rfl⟩
      | breakN a t =>
        rw [rjb_slot] at hm
        simp at hm
        subst hm
        exact ⟨rfl, rfl⟩
      | condBreakN a c t =>
        rw [rjb_slot] at hm
        simp at hm
        subst hm
        exact ⟨rfl, rfl⟩
      | contN a t =>
        rw [rjb_slot] at hm
        simp at hm
        subst hm
        exact ⟨rfl, rfl⟩
    have hchild : ∀ (nextA : Option Nat) (x : Node), x.tsz ≤ k + 1 → ∀ m,
        rjb_seq_child succ nextA x = .ok m →
        loopsOfList m = loopsOf x ∧ switchesOfList m = switchesOf x := by
      intro nextA x hsz m hm
      cases x with
      | block a sz stmts i =>
        rw [rjb_seq_child] at hm
        have := rjb_cluster_frame succ nextA a sz stmts i m hm
        simp [loopsOf, switchesOf, this.1, this.2]
      | multi a i l =>
        have hsz2 : l.tszL ≤ k := by simp [Node.tsz] at hsz; omega
        rw [rjb_seq_child] at hm
        cases h2 : rjb_list succ l with
        | error e => rw [h2] at hm; simp at hm
        | ok l2 =>
          rw [h2] at hm
          simp only [Except.ok.injEq] at hm
          subst hm
          have := ih3 l hsz2 l2 h2
          simp [loopsOfList, loopsOf, switchesOfList, switchesOf, this.1, this.2]
      | seqn a l =>
        have hsz2 : l.tszL ≤ k := by simp [Node.tsz] at hsz; omega
        rw [rjb_seq_child] at hm
        cases h2 : rjb_seq_list succ l with
        | error e => rw [h2] at hm; simp at hm
        | ok l2 =>
          rw [h2] at hm
          simp only [Except.ok.injEq] at hm
          subst hm
          have := ih2 l hsz2 l2 h2
          simp [loopsOfList, loopsOf, switchesOfList, switchesOf, this.1, this.2]
      | codeN inner =>
        have hsz2 : inner.tsz ≤ k := by simp [Node.tsz] at hsz; omega
        rw [rjb_seq_child] at hm
        cases h2 : rjb_slot succ inner with
        | error e => rw [h2] at hm; simp at hm
        | ok r =>
          rw [h2] at hm
          simp only [Except.ok.injEq] at hm
          subst hm
          have := ih5 inner hsz2 r h2
          simp [loopsOfList, loopsOf, switchesOfList, switchesOf, this.1, this.2]
      | condN a r c t f =>
        have hsz2 : t.tszO ≤ k ∧ f.tszO ≤ k := by
          have h1 := ONode.tszO_pos t
          have h2 := ONode.tszO_pos f
          simp [Node.tsz] at hsz
          omega
        rw [rjb_seq_child] at hm
        cases h2 : rjb_oslot succ t with
        | error e => rw [h2] at hm; simp at hm
        | ok t2 =>
          rw [h2] at hm
          cases h3 : rjb_oslot succ f with
          | error e => rw [h3] at hm; simp at hm
          | ok f2 =>
            rw [h3] at hm
            simp only [Except.ok.injEq] at hm
            subst hm
            have e2 := ih6 t hsz2.1 t2 h2
            have e3 := ih6 f hsz2.2 f2 h3
            simp [loopsOfList, loopsOf, switchesOfList, switchesOf,
              e2.1, e2.2, e3.1, e3.2]
      | loopN a s c b =>
        rw [rjb_seq_child] at hm
        simp at hm
        subst hm
        simp [loopsOfList, loopsOf, switchesOfList, switchesOf]
      | switchN a cs d e =>
        rw [rjb_seq_child] at hm
        simp at hm
        subst hm
        simp [loopsOfList, loopsOf, switchesOfList, switchesOf]
      | breakN a t =>
        rw [rjb_seq_child] at hm
        simp at hm
        subst hm
        simp [loopsOfList, loopsOf, switchesOfList, switchesOf]
      | condBreakN a c t =>
        rw [rjb_seq_child] at hm
        simp at hm
        subst hm
        simp [loopsOfList, loopsOf, switchesOfList, switchesOf]
      | contN a t =>
        rw [rjb_seq_child] at hm
        simp at hm
        subst hm
        simp [loopsOfList, loopsOf, switchesOfList, switchesOf]
    refine ⟨hnode, ?_, ?_, hchild, hslot, ?_⟩
    · intro l hsz m hm
      cases l with
      | nil =>
        rw [rjb_seq_list] at hm
        simp at hm
        subst hm
        exact ⟨rfl, rfl⟩
      | cons x tl =>
        have hpos := NodeList.tszL_pos tl
        have hsz2 : x.tsz ≤ k + 1 ∧ tl.tszL ≤ k := by
          have := Node.tsz_pos x
          simp [NodeList.tszL] at hsz
          omega
        rw [rjb_seq_list] at hm
        cases hc : rjb_seq_child succ (headAddrO tl) x with
        | error e => rw [hc] at hm; simp at hm
        | ok c =>
          rw [hc] at hm
          cases hr : rjb_seq_list succ tl with
          | error e => rw [hr] at hm; simp at hm
          | ok rest =>
            rw [hr] at hm
            simp only [Except.ok.injEq] at hm
            subst hm
            have e1 := hchild (headAddrO tl) x hsz2.1 c hc
            have e2 := ih2 tl hsz2.2 rest hr
            rw [loopsOfList_append, switchesOfList_append, e1.1, e1.2, e2.1, e2.2]
            exact ⟨rfl, rfl⟩
    · intro l hsz m hm
      cases l with
      | nil =>
        rw [rjb_list] at hm
        simp at hm
        subst hm
        exact ⟨rfl, rfl⟩
      | cons x tl =>
        have hpos := NodeList.tszL_pos tl
        have hsz2 : x.tsz ≤ k + 1 ∧ tl.tszL ≤ k := by
          have := Node.tsz_pos x
          simp [NodeList.tszL] at hsz
          omega
        rw [rjb_list] at hm
        cases hc : rjb_seq_child succ Option.none x with
        | error e => rw [hc] at hm; simp at hm
        | ok c =>
          rw [hc] at hm
          cases hr : rjb_list succ tl with
          | error e => rw [hr] at hm; simp at hm
          | ok rest =>
            rw [hr] at hm
            simp only [Except.ok.injEq] at hm
            subst hm
            have e1 := hchild Option.none x hsz2.1 c hc
            have e2 := ih3 tl hsz2.2 rest hr
            rw [loopsOfList_append, switchesOfList_append, e1.1, e1.2, e2.1, e2.2]
            exact ⟨rfl, rfl⟩
    · intro t hsz m hm
      cases t with
      | none =>
        rw [rjb_oslot] at hm
        simp at hm
        subst hm
        exact ⟨rfl, rfl⟩
      | some n =>
        have hsz2 : n.tsz ≤ k + 1 := by simp [ONode.tszO] at hsz; omega
        rw [rjb_oslot] at hm
        cases h2 : rjb_slot succ n with
        | error e => rw [h2] at hm; simp at hm
        | ok r =>
          rw [h2] at hm
          simp only [Except.ok.injEq] at hm
          subst hm
          have := hslot n hsz2 r h2
          simp [loopsOfO, switchesOfO, this.1, this.2]

/-! ## Trailing `Continue` nodes after the continue rewrite (C4) -/

mutual
/-- Whether the node's sequence spine ends in a `ContinueNode`: a
`ContinueNode` itself, or a `SequenceNode`/`MultiNode` whose last child's
spine ends in one (`_remove_continue_node_at_loop_body_ends` only walks
this spine). -/
def spineEndsInCont : Node → Bool
  | .block _ _ _ _ => false
  | .multi _ _ l => spineTail l
  | .seqn _ l => spineTail l
  | .codeN _ => false
  | .condN _ _ _ _ _ => false
  | .loopN _ _ _ _ => false
  | .switchN _ _ _ _ => false
  | .breakN _ _ => false
  | .condBreakN _ _ _ => false
  | .contN _ _ => true

/-- Whether a child list's last element's spine ends in a `ContinueNode`. -/
def spineTail : NodeList → Bool
  | .nil => false
  | .cons x .nil => spineEndsInCont x
  | .cons _ (.cons y tl) => spineTail (.cons y tl)
end

mutual
/-- No `ContinueNode` occurs at a `SequenceNode`/`MultiNode` child
position (outside nested `Loop`/`SwitchCase`/`Condition`/`Code` subtrees,
which the spine never reaches). -/
def noContSpine : Node → Bool
  | .block _ _ _ _ => true
  | .multi _ _ l => noContSpineL l
  | .seqn _ l => noContSpineL l
  | .codeN _ => true
  | .condN _ _ _ _ _ => true
  | .loopN _ _ _ _ => true
  | .switchN _ _ _ _ => true
  | .breakN _ _ => true
  | .condBreakN _ _ _ => true
  | .contN _ _ => false

/-- `noContSpine` over every element of a child list. -/
def noContSpineL : NodeList → Bool
  | .nil => true
  | .cons x tl => noContSpine x && noContSpineL tl
end

mutual
/-- Invariant making trailing-continue removal effective: each
`SequenceNode`/`MultiNode` list satisfies `listTailOK`; every other
constructor has a continue-free spine after removal regardless. -/
def tailOK : Node → Bool
  | .block _ _ _ _ => true
  | .multi _ _ l => listTailOK l
  | .seqn _ l => listTailOK l
  | .codeN _ => true
  | .condN _ _ _ _ _ => true
  | .loopN _ _ _ _ => true
  | .switchN _ _ _ _ => true
  | .breakN _ _ => true
  | .condBreakN _ _ _ => true
  | .contN _ _ => false

/-- Invariant on a child list: if the last element is a `ContinueNode`
then the (untouched) element before it must not have a spine ending in a
continue; otherwise the last element recursively satisfies `tailOK`. -/
def listTailOK : NodeList → Bool
  | .nil => true
  | .cons x .nil =>
    match x with
    | .contN _ _ => true
    | .block _ _ _ _ => true
    | .multi _ _ l => listTailOK l
    | .seqn _ l => listTailOK l
    | .codeN _ => true
    | .condN _ _ _ _ _ => true
    | .loopN _ _ _ _ => true
    | .switchN _ _ _ _ => true
    | .breakN _ _ => true
    | .condBreakN _ _ _ => true
  | .cons x (.cons y .nil) =>
    match y with
    | .contN _ _ => !spineEndsInCont x
    | .block _ _ _ _ => true
    | .multi _ _ l => listTailOK l
    | .seqn _ l => listTailOK l
    | .codeN _ => true
    | .condN _ _ _ _ _ => true
    | .loopN _ _ _ _ => true
    | .switchN _ _ _ _ => true
    | .breakN _ _ => true
    | .condBreakN _ _ _ => true
  | .cons _ (.cons y (.cons z tl)) => listTailOK (.cons y (.cons z tl))
end

/-- The first element of a child list is not a `ContinueNode` (vacuously
true of the empty list). -/
def headNotCont : NodeList → Bool
  | .nil => true
  | .cons x _ =>
    match x with
    | .contN _ _ => false
    | _ => true

/-- `listTailOK` holds of the last element alone whenever the last element
is not handled through the two-element case. -/
theorem listTailOK_tail (x : Node) (tl : NodeList)
    (h : listTailOK (.cons x tl) = true) : listTailOK tl = true := by
  cases tl with
  | nil => rfl
  | cons y tl2 =>
    cases tl2 with
    | nil =>
      cases y <;> simp_all [listTailOK]
    | cons z tl3 =>
      exact h

/-- Only the last two elements decide `listTailOK`. -/
theorem listTailOK_cons3 (x y z : Node) (tl : NodeList) :
    listTailOK (.cons x (.cons y (.cons z tl))) = listTailOK (.cons y (.cons z tl)) := rfl

/-- `headNotCont` distributes over concatenation. -/
theorem headNotCont_append (c r : NodeList) (hc : headNotCont c = true)
    (hr : headNotCont r = true) : headNotCont (NodeList.append c r) = true := by
  cases c with
  | nil => simpa [NodeList.append] using hr
  | cons x tl =>
    simpa [NodeList.append, headNotCont] using hc

/-- `listTailOK` is preserved by appending a list whose head is not a
`ContinueNode` (every continue in the result keeps its in-cluster
predecessor). -/
theorem listTailOK_append (c r : NodeList) (hc : listTailOK c = true)
    (hr : listTailOK r = true) (hh : headNotCont r = true) :
    listTailOK (NodeList.append c r) = true := by
  induction c using NodeList.inductionOn with
  | hnil => simpa [NodeList.append] using hr
  | hcons x tl ih =>
    have htl : listTailOK tl = true := listTailOK_tail x tl hc
    cases tl with
    | nil =>
      show listTailOK (.cons x r) = true
      cases r with
      | nil => exact hc
      | cons y rtl =>
        cases rtl with
        | nil =>
          cases y <;> simp_all [listTailOK, headNotCont]
        | cons z rtl2 =>
          rw [listTailOK_cons3]
          exact hr
    | cons x2 tl2 =>
      show listTailOK (.cons x (.cons x2 (NodeList.append tl2 r))) = true
      cases hM : NodeList.append tl2 r with
      | nil =>
        cases tl2 with
        | cons u utl => simp [NodeList.append] at hM
        | nil =>
          cases r with
          | cons u utl => simp [NodeList.append] at hM
          | nil => exact hc
      | cons m mtl =>
        rw [listTailOK_cons3, ← hM]
        exact ih htl

/-- The continue-rewrite block cluster always starts with the block and
satisfies the tail invariant: every emitted continue is preceded in the
cluster by the shortened block or the jump-out condition node. -/
theorem rwc_cluster_tailOK (caddr : Option Nat) (a : Nat) (sz : Int)
    (stmts : List Stmt) (i : Option Nat) :
    headNotCont (rwc_block_cluster caddr a sz stmts i) = true
    ∧ listTailOK (rwc_block_cluster caddr a sz stmts i) = true := by
  unfold rwc_block_cluster
  repeat' split
  all_goals simp [headNotCont, listTailOK, spineEndsInCont]

/-- The continue rewrite only produces child lists satisfying the tail
invariant, given a spine free of pre-existing `ContinueNode`s (strong
induction on tree size; one component per pass function). -/
theorem rwc_tail_aux (caddr : Option Nat) (k : Nat) :
    (∀ x : Node, x.tsz ≤ k → noContSpine x = true →
      headNotCont (rwc_child caddr x) = true ∧ listTailOK (rwc_child caddr x) = true)
    ∧ (∀ l : NodeList, l.tszL ≤ k → noContSpineL l = true →
      headNotCont (rwc_list caddr l) = true ∧ listTailOK (rwc_list caddr l) = true) := by
  induction k with
  | zero =>
    constructor
    · intro x hsz; have := Node.tsz_pos x; omega
    · intro l hsz; have := NodeList.tszL_pos l; omega
  | succ k ih =>
    obtain ⟨ih1, ih2⟩ := ih
    constructor
    · intro x hsz hnc
      cases x with
      | block a sz stmts i =>
        rw [rwc_child]
        exact rwc_cluster_tailOK caddr a sz stmts i
      | multi a i l =>
        have hsz2 : l.tszL ≤ k := by simp [Node.tsz] at hsz; omega
        have hl := (ih2 l hsz2 (by simpa [noContSpine] using hnc)).2
        rw [rwc_child]
        exact ⟨rfl, by simpa [listTailOK] using hl⟩
      | seqn a l =>
        have hsz2 : l.tszL ≤ k := by simp [Node.tsz] at hsz; omega
        have hl := (ih2 l hsz2 (by simpa [noContSpine] using hnc)).2
        rw [rwc_child]
        exact ⟨rfl, by simpa [listTailOK] using hl⟩
      | codeN inner => exact ⟨rfl, rfl⟩
      | condN a r c t f => exact ⟨rfl, rfl⟩
      | loopN a s c b => exact ⟨rfl, rfl⟩
      | switchN a cs d e => exact ⟨rfl, rfl⟩
      | breakN a t => exact ⟨rfl, rfl⟩
      | condBreakN a c t => exact ⟨rfl, rfl⟩
      | contN a t => simp [noContSpine] at hnc
    · intro l hsz hnc
      cases l with
      | nil => exact ⟨rfl, rfl⟩
      | cons x tl =>
        have hpos := NodeList.tszL_pos tl
        have hxpos := Node.tsz_pos x
        have hsz2 : x.tsz ≤ k ∧ tl.tszL ≤ k := by
          simp [NodeList.tszL] at hsz; omega
        simp only [noContSpineL, Bool.and_eq_true] at hnc
        have hx := ih1 x hsz2.1 hnc.1
        have ht := ih2 tl hsz2.2 hnc.2
        rw [rwc_list]
        exact ⟨headNotCont_append _ _ hx.1 ht.1,
          listTailOK_append _ _ hx.2 ht.2 ht.1⟩

/-- Trailing-continue removal yields a continue-free spine on any tree
satisfying the tail invariant (strong induction on tree size). -/
theorem rtc_spine_aux (k : Nat) :
    (∀ n : Node, n.tsz ≤ k → tailOK n = true →
      spineEndsInCont (rtc_node n) = false)
    ∧ (∀ l : NodeList, l.tszL ≤ k → listTailOK l = true →
      spineTail (rtc_tail l) = false) := by
  induction k with
  | zero =>
    constructor
    · intro n hsz; have := Node.tsz_pos n; omega
    · intro l hsz; have := NodeList.tszL_pos l; omega
  | succ k ih =>
    obtain ⟨ih1, ih2⟩ := ih
    constructor
    · intro n hsz ht
      cases n with
      | block a sz stmts i => rfl
      | multi a i l =>
        have hsz2 : l.tszL ≤ k := by simp [Node.tsz] at hsz; omega
        exact ih2 l hsz2 (by simpa [tailOK] using ht)
      | seqn a l =>
        have hsz2 : l.tszL ≤ k := by simp [Node.tsz] at hsz; omega
        exact ih2 l hsz2 (by simpa [tailOK] using ht)
      | codeN inner => rfl
      | condN a r c t f => rfl
      | loopN a s c b => rfl
      | switchN a cs d e => rfl
      | breakN a t => rfl
      | condBreakN a c t => rfl
      | contN a t => simp [tailOK] at ht
    · intro l hsz hto
      cases l with
      | nil => rfl
      | cons x tl =>
        have hxpos := Node.tsz_pos x
        have htpos := NodeList.tszL_pos tl
        cases tl with
        | nil =>
          have hsz2 : x.tsz ≤ k := by simp [NodeList.tszL] at hsz; omega
          cases x with
          | contN a t => rfl
          | block a sz stmts i => rfl
          | multi a i l2 =>
            show spineTail (.cons (rtc_node (.multi a i l2)) .nil) = false
            simp only [spineTail]
            exact ih1 _ hsz2 (by simpa [listTailOK, tailOK] using hto)
          | seqn a l2 =>
            show spineTail (.cons (rtc_node (.seqn a l2)) .nil) = false
            simp only [spineTail]
            exact ih1 _ hsz2 (by simpa [listTailOK, tailOK] using hto)
          | codeN inner => rfl
          | condN a r c t f => rfl
          | loopN a s c b => rfl
          | switchN a cs d e => rfl
          | breakN a t => rfl
          | condBreakN a c t => rfl
        | cons y tl2 =>
          cases tl2 with
          | nil =>
            have hsz2 : y.tsz ≤ k := by simp [NodeList.tszL] at hsz; omega
            cases y with
            | contN a t =>
              show spineTail (.cons x .nil) = false
              simp only [spineTail]
              simpa [listTailOK] using hto
            | block a sz stmts i => rfl
            | multi a i l2 =>
              show spineTail (.cons x (.cons (rtc_node (.multi a i l2)) .nil)) = false
              simp only [spineTail]
              exact ih1 _ hsz2 (by simpa [listTailOK, tailOK] using hto)
            | seqn a l2 =>
              show spineTail (.cons x (.cons (rtc_node (.seqn a l2)) .nil)) = false
              simp only [spineTail]
              exact ih1 _ hsz2 (by simpa [listTailOK, tailOK] using hto)
            | codeN inner => rfl
            | condN a r c t f => rfl
            | loopN a s c b => rfl
            | switchN a cs d e => rfl
            | breakN a t => rfl
            | condBreakN a c t => rfl
          | cons z tl3 =>
            have hsz2 : (NodeList.cons y (.cons z tl3)).tszL ≤ k := by
              simp [NodeList.tszL] at hsz ⊢; omega
            show spineTail (.cons x (rtc_tail (.cons y (.cons z tl3)))) = false
            rw [rtc_tail]
            simp only [spineTail]
            have := ih2 _ hsz2 (by simpa [listTailOK_cons3] using hto)
            rw [rtc_tail] at this
            exact this

/-- C4 counterexample: a loop body whose block jumps to the loop's
continue address and is followed by a `ContinueNode` child ends, after
`_rewrite_jumps_to_continues` (including
`_remove_continue_node_at_loop_body_ends`), in a `ContinueNode`: only the
single trailing continue is removed, with no re-check. -/
theorem rewrite_jumps_to_continues_trailing_continue_counterexample :
    spineEndsInCont (rewrite_jumps_to_continues Option.none
      (.seqn (some 0)
        (.cons (.block 0 4 [.jump Option.none (.econst Option.none 0 32) Option.none 5]
            Option.none)
          (.cons (.contN 9 0) .nil)))) = true := by decide

/-- C4 (amended): a block whose trailing statement is an unconditional
jump to the loop's continue address has that statement removed and a
`ContinueNode` appended right after it; and provided the input sequence
has no pre-existing `ContinueNode` at any `SequenceNode`/`MultiNode`
child position, the rewritten body's sequence spine never ends in a
`ContinueNode` (one trailing continue is always enough to delete). -/
theorem rewrite_jumps_to_continues_spec :
    (∀ (caddr : Option Nat) (a : Nat) (sz : Int) (stmts : List Stmt)
        (i idx e : Option Nat) (v w : Nat) (ti : Option Nat) (ia : Nat),
      stmts.getLast? = some (.jump idx (.econst e v w) ti ia) →
      caddr = some v →
      rwc_block_cluster caddr a sz stmts i =
        .cons (.block a sz stmts.dropLast i) (.cons (.contN ia v) .nil))
    ∧ ∀ (loopNode : Option (LoopSort × Option Expr)) (s : Node),
        noContSpine s = true →
        spineEndsInCont (rewrite_jumps_to_continues loopNode s) = false := by
  constructor
  · intro caddr a sz stmts i idx e v w ti ia hlast hc
    unfold rwc_block_cluster
    rw [hlast]
    subst hc
    simp
  · intro loopNode s h
    unfold rewrite_jumps_to_continues
    apply (rtc_spine_aux (rwc_node (continueNodeAddr s.addrO loopNode) s).tsz).1 _ le_rfl
    cases s with
    | block a sz stmts i => rfl
    | multi a i l =>
      rw [rwc_node]
      simp only [tailOK]
      exact ((rwc_tail_aux (continueNodeAddr (Node.addrO (.multi a i l)) loopNode)
        l.tszL).2 l le_rfl (by simpa [noContSpine] using h)).2
    | seqn a l =>
      rw [rwc_node]
      simp only [tailOK]
      exact ((rwc_tail_aux (continueNodeAddr (Node.addrO (.seqn a l)) loopNode)
        l.tszL).2 l le_rfl (by simpa [noContSpine] using h)).2
    | codeN inner => rfl
    | condN a r c t f => rfl
    | loopN a s2 c b => rfl
    | switchN a cs d e => rfl
    | breakN a t => rfl
    | condBreakN a c t => rfl
    | contN a t => simp [noContSpine] at h

/-- Closed witness for `rewrite_jumps_to_continues_spec`: the trailing
jump of a concrete block is replaced by a continue node, and a concrete
continue-free body has a continue-free spine after the rewrite. -/
theorem rewrite_jumps_to_continues_spec_witness :
    rwc_block_cluster (some 7) 4 4
        [.jump Option.none (.econst Option.none 7 32) Option.none 3] Option.none =
      .cons (.block 4 4 [] Option.none) (.cons (.contN 3 7) .nil)
    ∧ spineEndsInCont (rewrite_jumps_to_continues Option.none
        (.seqn (some 0)
          (.cons (.block 0 4 [.jump Option.none (.econst Option.none 0 32) Option.none 5]
              Option.none)
            .nil))) = false :=
  ⟨rewrite_jumps_to_continues_spec.1 (some 7) 4 4
      [.jump Option.none (.econst Option.none 7 32) Option.none 3] Option.none
      Option.none Option.none 7 32 Option.none 3 rfl rfl,
    rewrite_jumps_to_continues_spec.2 Option.none _ (by decide)⟩

/-- C10: neither loop-rewriting pass modifies nested `Loop` subtrees, and
the break pass also leaves nested `SwitchCase` subtrees unchanged: the
break rewrite (when it succeeds) preserves the maximal loop and switch
subtrees exactly, and the continue rewrite (with its trailing-continue
removal) preserves the maximal loop subtrees exactly. -/
theorem loop_rewrites_frame (succ : List Nat)
    (loopNode : Option (LoopSort × Option Expr)) (n : Node) :
    (∀ m, rewrite_conditional_jumps_to_breaks succ n = .ok m →
      loopsOf m = loopsOf n ∧ switchesOf m = switchesOf n)
    ∧ loopsOf (rewrite_jumps_to_continues loopNode n) = loopsOf n := by
  constructor
  · intro m hm
    exact (rjb_frame_aux succ n.tsz).1 n le_rfl m hm
  · unfold rewrite_jumps_to_continues
    rw [(rtc_loops_aux (rwc_node (continueNodeAddr n.addrO loopNode) n).tsz).1 _ le_rfl]
    exact (rwc_loops_aux (continueNodeAddr n.addrO loopNode) n.tsz).1 n le_rfl

/-- Closed witness for `loop_rewrites_frame`: a loop body whose leading
block jumps out to the successor 100, next to an inner loop at 50. -/
theorem loop_rewrites_frame_witness :
    loopsOf (.seqn Option.none
        (.cons (.block 0 4 [.other 9 0] Option.none)
          (.cons (.breakN 0 100)
            (.cons (.loopN 50 .whileSort Option.none (.block 50 4 [.other 7 50] Option.none))
              .nil))))
      = loopsOf (.seqn Option.none
        (.cons (.block 0 4 [.jump Option.none (.econst Option.none 100 32) Option.none 0]
            Option.none)
          (.cons (.loopN 50 .whileSort Option.none (.block 50 4 [.other 7 50] Option.none))
            .nil)))
    ∧ switchesOf (.seqn Option.none
        (.cons (.block 0 4 [.other 9 0] Option.none)
          (.cons (.breakN 0 100)
            (.cons (.loopN 50 .whileSort Option.none (.block 50 4 [.other 7 50] Option.none))
              .nil))))
      = switchesOf (.seqn Option.none
        (.cons (.block 0 4 [.jump Option.none (.econst Option.none 100 32) Option.none 0]
            Option.none)
          (.cons (.loopN 50 .whileSort Option.none (.block 50 4 [.other 7 50] Option.none))
            .nil))) :=
  (loop_rewrites_frame [100] Option.none
    (.seqn Option.none
      (.cons (.block 0 4 [.jump Option.none (.econst Option.none 100 32) Option.none 0]
          Option.none)
        (.cons (.loopN 50 .whileSort Option.none (.block 50 4 [.other 7 50] Option.none))
          .nil)))).1
    (.seqn Option.none
      (.cons (.block 0 4 [] Option.none)
        (.cons (.breakN 0 100)
          (.cons (.loopN 50 .whileSort Option.none (.block 50 4 [.other 7 50] Option.none))
            .nil))))
    (by rfl)

/-! ## `StructurerBase._reorganize_switch_cases` (C9): chain walks over
the inter-case fallthrough graph -/

/-- Modelled from the spec: the successor-chain traversal of the
fallthrough graph (`networkx.dfs_successors` followed along single
successors). Edge-consuming formulation: returns the traversed edges, the
final node and the residual edges; on the at-most-one-out/in-degree graphs
the pass builds this walk coincides with the DFS-tree successor chain. -/
def fwdRun : Nat → List (Nat × Nat) → Nat → List (Nat × Nat) × Nat × List (Nat × Nat)
  | 0, es, u => ([], u, es)
  | f+1, es, u =>
    match es.find? (fun e => e.1 = u) with
    | Option.none => ([], u, es)
    | some e =>
      (e :: (fwdRun f (es.erase e) e.2).1,
        (fwdRun f (es.erase e) e.2).2.1,
        (fwdRun f (es.erase e) e.2).2.2)

/-- The node chain visited by the successor walk. -/
def chainWalk (f : Nat) (es : List (Nat × Nat)) (u : Nat) : List Nat :=
  ((fwdRun f es u).1).map Prod.snd

/-- The predecessor-chain walk (edge-consuming), used to locate chain
heads and cycles. -/
def backRun : Nat → List (Nat × Nat) → Nat → List (Nat × Nat) × Nat × List (Nat × Nat)
  | 0, es, u => ([], u, es)
  | f+1, es, u =>
    match es.find? (fun e => e.2 = u) with
    | Option.none => ([], u, es)
    | some e =>
      (e :: (backRun f (es.erase e) e.1).1,
        (backRun f (es.erase e) e.1).2.1,
        (backRun f (es.erase e) e.1).2.2)

/-- An edge list forms a forward chain from a node. -/
def fwdLinked : Nat → List (Nat × Nat) → Prop
  | _, [] => True
  | u, e :: tl => e.1 = u ∧ fwdLinked e.2 tl

/-- An edge list forms a backward chain from a node. -/
def backLinked : Nat → List (Nat × Nat) → Prop
  | _, [] => True
  | u, e :: tl => e.2 = u ∧ backLinked e.1 tl

/-- The source endpoint at the far end of a backward chain. -/
def srcEnd (u : Nat) (l : List (Nat × Nat)) : Nat :=
  match l.getLast? with
  | Option.none => u
  | some e => e.1

/-- The target endpoint at the far end of a forward chain. -/
def dstEnd (u : Nat) (l : List (Nat × Nat)) : Nat :=
  match l.getLast? with
  | Option.none => u
  | some e => e.2

theorem srcEnd_irrel (u v : Nat) (l : List (Nat × Nat)) (h : l ≠ []) :
    srcEnd u l = srcEnd v l := by
  unfold srcEnd
  cases hg : l.getLast? with
  | none => exact absurd (List.getLast?_eq_none_iff.mp hg) h
  | some g => rfl

theorem dstEnd_irrel (u v : Nat) (l : List (Nat × Nat)) (h : l ≠ []) :
    dstEnd u l = dstEnd v l := by
  unfold dstEnd
  cases hg : l.getLast? with
  | none => exact absurd (List.getLast?_eq_none_iff.mp hg) h
  | some g => rfl

theorem srcEnd_cons (u : Nat) (e : Nat × Nat) (tl : List (Nat × Nat)) :
    srcEnd u (e :: tl) = srcEnd e.1 tl := by
  cases tl with
  | nil => rfl
  | cons t tl2 =>
    rw [srcEnd_irrel u e.1 (e :: t :: tl2) (by simp)]
    unfold srcEnd
    rw [List.getLast?_cons_cons]

theorem dstEnd_cons (u : Nat) (e : Nat × Nat) (tl : List (Nat × Nat)) :
    dstEnd u (e :: tl) = dstEnd e.2 tl := by
  cases tl with
  | nil => rfl
  | cons t tl2 =>
    rw [dstEnd_irrel u e.2 (e :: t :: tl2) (by simp)]
    unfold dstEnd
    rw [List.getLast?_cons_cons]

/-- Erasing an element that does not satisfy the predicate leaves `find?`
unchanged. -/
theorem find?_erase_of_not_pred (p : Nat × Nat → Bool) (x : Nat × Nat)
    (l : List (Nat × Nat)) (hx : p x = false) :
    (l.erase x).find? p = l.find? p := by
  induction l with
  | nil => rfl
  | cons a tl ih =>
    by_cases hax : a = x
    · subst hax
      rw [List.erase_cons_head]
      rw [List.find?_cons_of_neg _ (by simp [hx])]
    · rw [List.erase_cons_tail (by simpa using hax)]
      cases hpa : p a with
      | true =>
        rw [List.find?_cons_of_pos _ hpa, List.find?_cons_of_pos _ hpa]
      | false =>
        rw [List.find?_cons_of_neg _ (by simp [hpa]),
          List.find?_cons_of_neg _ (by simp [hpa])]
        exact ih

/-- With pairwise-distinct sources, the successor lookup of a member
edge's source finds that edge. -/
theorem find?_fst_unique (es : List (Nat × Nat)) (e : Nat × Nat)
    (hnd : (es.map Prod.fst).Nodup) (he : e ∈ es) :
    es.find? (fun g => g.1 = e.1) = some e := by
  induction es with
  | nil => cases he
  | cons a tl ih =>
    rw [List.map_cons, List.nodup_cons] at hnd
    rcases List.mem_cons.mp he with h | h
    · subst h
      exact List.find?_cons_of_pos _ (by simp)
    · have ha : ¬(a.1 = e.1) := by
        intro hq
        exact hnd.1 (hq ▸ List.mem_map_of_mem Prod.fst h)
      rw [List.find?_cons_of_neg _ (by simp [ha])]
      exact ih hnd.2 h

/-- A member is a permutation head of its erase (stated over the edge
lists used by the walks). -/
theorem perm_cons_erase_pair (e : Nat × Nat) : ∀ es : List (Nat × Nat),
    e ∈ es → es.Perm (e :: es.erase e) := by
  intro es he
  induction es with
  | nil => cases he
  | cons a tl ih =>
    by_cases hae : a = e
    · subst hae
      rw [List.erase_cons_head]
    · rw [List.erase_cons_tail (by simpa using hae)]
      have he2 : e ∈ tl := by
        rcases List.mem_cons.mp he with h | h
        · exact absurd h.symm hae
        · exact h
      exact ((ih he2).cons a).trans (List.Perm.swap e a (tl.erase e))

/-- The successor walk is independent of the fuel once the fuel covers the
edge count. -/
theorem fwdRun_fuel_stable : ∀ (f g : Nat) (es : List (Nat × Nat)) (u : Nat),
    es.length ≤ f → es.length ≤ g → fwdRun f es u = fwdRun g es u := by
  intro f
  induction f with
  | zero =>
    intro g es u hf hg
    have hes : es = [] := List.length_eq_zero.mp (Nat.le_zero.mp hf)
    subst hes
    cases g with
    | zero => rfl
    | succ g => simp [fwdRun]
  | succ f ih =>
    intro g es u hf hg
    cases g with
    | zero =>
      have hes : es = [] := List.length_eq_zero.mp (Nat.le_zero.mp hg)
      subst hes
      simp [fwdRun]
    | succ g =>
      cases h : es.find? (fun e => e.1 = u) with
      | none => simp [fwdRun, h]
      | some e =>
        have he : e ∈ es := List.mem_of_find?_eq_some h
        have hlen : (es.erase e).length ≤ f ∧ (es.erase e).length ≤ g := by
          rw [List.length_erase_of_mem he]
          have := List.length_pos.mpr (List.ne_nil_of_mem he)
          omega
        simp only [fwdRun, h]
        rw [ih g (es.erase e) e.2 hlen.1 hlen.2]

theorem fwdRun_trace_linked : ∀ (f : Nat) (es : List (Nat × Nat)) (u : Nat),
    fwdLinked u (fwdRun f es u).1 := by
  intro f
  induction f with
  | zero => intro es u; exact trivial
  | succ f ih =>
    intro es u
    cases h : es.find? (fun e => e.1 = u) with
    | none => simp [fwdRun, h, fwdLinked]
    | some e =>
      have he1 : e.1 = u := by simpa using List.find?_some h
      simp only [fwdRun, h]
      exact ⟨he1, ih (es.erase e) e.2⟩

theorem fwdRun_trace_mem : ∀ (f : Nat) (es : List (Nat × Nat)) (u : Nat),
    ∀ x ∈ (fwdRun f es u).1, x ∈ es := by
  intro f
  induction f with
  | zero => intro es u x hx; cases hx
  | succ f ih =>
    intro es u x hx
    cases h : es.find? (fun e => e.1 = u) with
    | none => rw [fwdRun] at hx; rw [h] at hx; cases hx
    | some e =>
      rw [fwdRun] at hx
      rw [h] at hx
      rcases List.mem_cons.mp hx with h2 | h2
      · exact h2 ▸ List.mem_of_find?_eq_some h
      · exact (es.erase_sublist e).mem (ih (es.erase e) e.2 x h2)

theorem fwdRun_trace_nodup : ∀ (f : Nat) (es : List (Nat × Nat)) (u : Nat),
    es.Nodup → (fwdRun f es u).1.Nodup := by
  intro f
  induction f with
  | zero => intro es u _; exact List.nodup_nil
  | succ f ih =>
    intro es u hnd
    cases h : es.find? (fun e => e.1 = u) with
    | none => simp [fwdRun, h]
    | some e =>
      simp only [fwdRun, h]
      rw [List.nodup_cons]
      constructor
      · intro hmem
        have : e ∈ es.erase e := fwdRun_trace_mem f (es.erase e) e.2 e hmem
        rw [(List.Nodup.mem_erase_iff hnd)] at this
        exact this.1 rfl
      · exact ih (es.erase e) e.2 (hnd.erase e)

theorem backRun_trace_linked : ∀ (f : Nat) (es : List (Nat × Nat)) (u : Nat),
    backLinked u (backRun f es u).1 := by
  intro f
  induction f with
  | zero => intro es u; exact trivial
  | succ f ih =>
    intro es u
    cases h : es.find? (fun e => e.2 = u) with
    | none => simp [backRun, h, backLinked]
    | some e =>
      have he2 : e.2 = u := by simpa using List.find?_some h
      simp only [backRun, h]
      exact ⟨he2, ih (es.erase e) e.1⟩

theorem backRun_perm : ∀ (f : Nat) (es : List (Nat × Nat)) (u : Nat),
    es.Perm ((backRun f es u).1 ++ (backRun f es u).2.2) := by
  intro f
  induction f with
  | zero => intro es u; exact List.Perm.refl es
  | succ f ih =>
    intro es u
    cases h : es.find? (fun e => e.2 = u) with
    | none => simp [backRun, h]
    | some e =>
      have he : e ∈ es := List.mem_of_find?_eq_some h
      simp only [backRun, h, List.cons_append]
      exact (perm_cons_erase_pair e es he).trans ((ih (es.erase e) e.1).cons e)

theorem backRun_final : ∀ (f : Nat) (es : List (Nat × Nat)) (u : Nat),
    (backRun f es u).2.1 = srcEnd u (backRun f es u).1 := by
  intro f
  induction f with
  | zero => intro es u; rfl
  | succ f ih =>
    intro es u
    cases h : es.find? (fun e => e.2 = u) with
    | none => simp [backRun, h, srcEnd]
    | some e =>
      simp only [backRun, h]
      rw [srcEnd_cons]
      exact ih (es.erase e) e.1

theorem backRun_stop : ∀ (f : Nat) (es : List (Nat × Nat)) (u : Nat),
    es.length < f →
    ((backRun f es u).2.2).find? (fun e => e.2 = (backRun f es u).2.1)
      = Option.none := by
  intro f
  induction f with
  | zero => intro es u hf; omega
  | succ f ih =>
    intro es u hf
    cases h : es.find? (fun e => e.2 = u) with
    | none => simp [backRun, h]
    | some e =>
      have he : e ∈ es := List.mem_of_find?_eq_some h
      have hlen : (es.erase e).length < f := by
        rw [List.length_erase_of_mem he]
        have := List.length_pos.mpr (List.ne_nil_of_mem he)
        omega
      simp only [backRun, h]
      exact ih (es.erase e) e.1 hlen

theorem backLinked_append (l₁ : List (Nat × Nat)) : ∀ (u : Nat)
    (l₂ : List (Nat × Nat)), backLinked u (l₁ ++ l₂) →
    backLinked (srcEnd u l₁) l₂ := by
  induction l₁ with
  | nil => intro u l₂ h; exact h
  | cons e tl ih =>
    intro u l₂ h
    rw [srcEnd_cons]
    exact ih e.1 l₂ h.2

theorem srcEnd_append (u : Nat) (l₁ l₂ : List (Nat × Nat)) :
    srcEnd u (l₁ ++ l₂) = srcEnd (srcEnd u l₁) l₂ := by
  cases l₂ with
  | nil => simp [srcEnd]
  | cons e tl =>
    rw [srcEnd_irrel u (srcEnd u l₁) (l₁ ++ e :: tl) (by simp)]
    unfold srcEnd
    rw [List.getLast?_append_cons]

theorem fwdLinked_append_single (l : List (Nat × Nat)) : ∀ (v : Nat)
    (e : Nat × Nat), fwdLinked v l → e.1 = dstEnd v l →
    fwdLinked v (l ++ [e]) := by
  induction l with
  | nil =>
    intro v e _ h2
    exact ⟨h2, trivial⟩
  | cons g tl ih =>
    intro v e h1 h2
    rw [dstEnd_cons] at h2
    exact ⟨h1.1, ih g.2 e h1.2 h2⟩

/-- Reversing a backward chain yields a forward chain from its far
endpoint back to the start. -/
theorem backLinked_reverse (l : List (Nat × Nat)) : ∀ (u : Nat),
    backLinked u l →
    fwdLinked (srcEnd u l) l.reverse ∧ dstEnd (srcEnd u l) l.reverse = u := by
  induction l with
  | nil => intro u _; exact ⟨trivial, rfl⟩
  | cons e tl ih =>
    intro u h
    obtain ⟨he, hlink⟩ := h
    obtain ⟨ih1, ih2⟩ := ih e.1 hlink
    rw [srcEnd_cons]
    rw [List.reverse_cons]
    constructor
    · exact fwdLinked_append_single tl.reverse (srcEnd e.1 tl) e ih1 ih2.symm
    · rw [dstEnd, List.getLast?_concat]
      exact he

/-- The successor walk from `u` follows any forward chain of distinct
member edges when sources are pairwise distinct. -/
theorem walk_follows (D : List (Nat × Nat)) : ∀ (es : List (Nat × Nat))
    (u : Nat) (f : Nat), fwdLinked u D → D.Nodup → (∀ x ∈ D, x ∈ es) →
    (es.map Prod.fst).Nodup → D.length ≤ f →
    ∀ x ∈ D, x.2 ∈ chainWalk f es u := by
  induction D with
  | nil => intro es u f _ _ _ _ _ x hx; cases hx
  | cons c D2 ih =>
    intro es u f hlink hnd hsub hfst hlen x hx
    obtain ⟨hc1, hlink2⟩ := hlink
    cases f with
    | zero => simp at hlen
    | succ f =>
      subst hc1
      have hfind : es.find? (fun g => g.1 = c.1) = some c :=
        find?_fst_unique es c hfst (hsub c (List.mem_cons_self c D2))
      have hstep : chainWalk (f + 1) es c.1
          = c.2 :: chainWalk f (es.erase c) c.2 := by
        simp [chainWalk, fwdRun, hfind]
      rw [List.nodup_cons] at hnd
      rcases List.mem_cons.mp hx with h2 | h2
      · rw [hstep, h2]
        exact List.mem_cons_self _ _
      · rw [hstep]
        refine List.mem_cons_of_mem _ ?_
        refine ih (es.erase c) c.2 f hlink2 hnd.2 ?_ ?_ ?_ x h2
        · intro y hy
          rw [List.mem_erase_of_ne]
          · exact hsub y (List.mem_cons_of_mem _ hy)
          · intro hyc
            exact hnd.1 (hyc ▸ hy)
        · exact ((es.erase_sublist c).map Prod.fst).nodup hfst
        · simpa using hlen

theorem backRun_trace_mem : ∀ (f : Nat) (es : List (Nat × Nat)) (u : Nat),
    ∀ x ∈ (backRun f es u).1, x ∈ es := by
  intro f
  induction f with
  | zero => intro es u x hx; cases hx
  | succ f ih =>
    intro es u x hx
    cases h : es.find? (fun e => e.2 = u) with
    | none => rw [backRun] at hx; rw [h] at hx; cases hx
    | some e =>
      rw [backRun] at hx
      rw [h] at hx
      rcases List.mem_cons.mp hx with h2 | h2
      · exact h2 ▸ List.mem_of_find?_eq_some h
      · exact (es.erase_sublist e).mem (ih (es.erase e) e.1 x h2)

theorem backRun_trace_nodup : ∀ (f : Nat) (es : List (Nat × Nat)) (u : Nat),
    es.Nodup → (backRun f es u).1.Nodup := by
  intro f
  induction f with
  | zero => intro es u _; exact List.nodup_nil
  | succ f ih =>
    intro es u hnd
    cases h : es.find? (fun e => e.2 = u) with
    | none => simp [backRun, h]
    | some e =>
      simp only [backRun, h]
      rw [List.nodup_cons]
      constructor
      · intro hmem
        have : e ∈ es.erase e := backRun_trace_mem f (es.erase e) e.1 e hmem
        rw [List.Nodup.mem_erase_iff hnd] at this
        exact this.1 rfl
      · exact ih (es.erase e) e.1 (hnd.erase e)

/-- Erasing an edge whose source never occurs as a target, starting from a
different node, does not change the successor walk's trace. -/
theorem fwdRun_erase_far : ∀ (f : Nat) (es : List (Nat × Nat)) (x : Nat × Nat)
    (u : Nat), x.1 ∉ es.map Prod.snd → u ≠ x.1 →
    (fwdRun f (es.erase x) u).1 = (fwdRun f es u).1 := by
  intro f
  induction f with
  | zero => intro es x u _ _; rfl
  | succ f ih =>
    intro es x u hx hu
    have hfind : (es.erase x).find? (fun e => e.1 = u)
        = es.find? (fun e => e.1 = u) :=
      find?_erase_of_not_pred _ x es (by simpa using Ne.symm hu)
    cases h : es.find? (fun e => e.1 = u) with
    | none =>
      rw [fwdRun, fwdRun, hfind, h]
    | some g =>
      have hg : g ∈ es := List.mem_of_find?_eq_some h
      simp only [fwdRun, hfind, h]
      rw [List.erase_comm]
      rw [ih (es.erase g) x g.2
        (fun hm => hx (((es.erase_sublist g).map Prod.snd).subset hm))
        (fun hq => hx (hq ▸ List.mem_map_of_mem Prod.snd hg))]

/-- Modelled from the spec: an edge lies on a fallthrough cycle when the
successor chain from its target returns to its source. -/
def onCycle (es : List (Nat × Nat)) (e : Nat × Nat) : Bool :=
  decide (e.1 ∈ chainWalk es.length es e.2)

/-- Modelled from the spec: cycles found in the inferred fallthrough graph
are broken by removing an edge of a remaining cycle until none is left. -/
def breakCycles : Nat → List (Nat × Nat) → List (Nat × Nat)
  | 0, es => es
  | f+1, es =>
    match es.find? (fun e => onCycle es e) with
    | Option.none => es
    | some e => breakCycles f (es.erase e)

theorem breakCycles_sublist : ∀ (f : Nat) (es : List (Nat × Nat)),
    (breakCycles f es).Sublist es := by
  intro f
  induction f with
  | zero => intro es; exact List.Sublist.refl es
  | succ f ih =>
    intro es
    cases h : es.find? (fun e => onCycle es e) with
    | none => simp [breakCycles, h]
    | some e =>
      simp only [breakCycles, h]
      exact (ih (es.erase e)).trans (es.erase_sublist e)

theorem breakCycles_acyclic : ∀ (f : Nat) (es : List (Nat × Nat)),
    es.length ≤ f →
    ∀ e ∈ breakCycles f es, onCycle (breakCycles f es) e = false := by
  intro f
  induction f with
  | zero =>
    intro es hf e he
    have hes : es = [] := List.length_eq_zero.mp (Nat.le_zero.mp hf)
    subst hes
    rw [breakCycles] at he
    cases he
  | succ f ih =>
    intro es hf e he
    cases h : es.find? (fun g => onCycle es g) with
    | none =>
      simp only [breakCycles, h] at he ⊢
      have := List.find?_eq_none.mp h e he
      simpa using this
    | some g =>
      have hg : g ∈ es := List.mem_of_find?_eq_some h
      have hlen : (es.erase g).length ≤ f := by
        rw [List.length_erase_of_mem hg]
        have := List.length_pos.mpr (List.ne_nil_of_mem hg)
        omega
      simp only [breakCycles, h] at he ⊢
      exact ih (es.erase g) hlen e he

/-- A cycle detected in a sub-graph is detected in the full graph. -/
theorem onCycle_of_sublist (es2 es : List (Nat × Nat)) (hsub : es2.Sublist es)
    (hfst : (es.map Prod.fst).Nodup) (e : Nat × Nat) (he : e ∈ es2)
    (hcyc : onCycle es2 e = true) : onCycle es e = true := by
  have hesnd : es.Nodup := List.Nodup.of_map Prod.fst hfst
  have hmem := fwdRun_trace_mem es2.length es2 e.2
  have hlink := fwdRun_trace_linked es2.length es2 e.2
  have hnd := fwdRun_trace_nodup es2.length es2 e.2 (hesnd.sublist hsub)
  have h1 : e.1 ∈ chainWalk es2.length es2 e.2 := by simpa [onCycle] using hcyc
  rw [chainWalk] at h1
  obtain ⟨d, hd, hd2⟩ := List.mem_map.mp h1
  have hlen : (fwdRun es2.length es2 e.2).1.length ≤ es.length := by
    have h2 : (fwdRun es2.length es2 e.2).1.Subperm es :=
      List.subperm_of_subset hnd (fun x hx => hsub.subset (hmem x hx))
    exact h2.length_le
  have := walk_follows (fwdRun es2.length es2 e.2).1 es e.2 es.length hlink hnd
    (fun x hx => hsub.subset (hmem x hx)) hfst hlen d hd
  rw [hd2] at this
  simpa [onCycle] using this

/-- Every nonempty acyclic functional fallthrough graph has a chain head:
an edge whose source has no incoming edge. -/
theorem head_edge_exists (es : List (Nat × Nat))
    (hfst : (es.map Prod.fst).Nodup)
    (hacyc : ∀ e ∈ es, onCycle es e = false)
    (hne : es ≠ []) : ∃ e ∈ es, e.1 ∉ es.map Prod.snd := by
  by_contra hcon
  push_neg at hcon
  obtain ⟨e₀, he₀⟩ := List.exists_mem_of_ne_nil es hne
  have hstop := backRun_stop (es.length + 1) es e₀.1 (by omega)
  have hlink := backRun_trace_linked (es.length + 1) es e₀.1
  have hperm := backRun_perm (es.length + 1) es e₀.1
  have hfin := backRun_final (es.length + 1) es e₀.1
  have htrm := backRun_trace_mem (es.length + 1) es e₀.1
  have htrnd := backRun_trace_nodup (es.length + 1) es e₀.1
    (List.Nodup.of_map Prod.fst hfst)
  rcases hq : backRun (es.length + 1) es e₀.1 with ⟨tr, z, r⟩
  rw [hq] at hstop hlink hperm hfin htrm htrnd
  dsimp only at hstop hlink hperm hfin htrm htrnd
  have hzsrc : ∃ w ∈ es, w.1 = z := by
    cases htr : tr with
    | nil =>
      refine ⟨e₀, he₀, ?_⟩
      rw [htr] at hfin
      exact hfin.symm
    | cons t ttl =>
      have hlast : (t :: ttl).getLast? = some ((t :: ttl).getLast (by simp)) :=
        List.getLast?_eq_getLast _ (by simp)
      refine ⟨(t :: ttl).getLast (by simp), ?_, ?_⟩
      · refine htrm _ ?_
        rw [htr]
        exact List.getLast_mem (by simp)
      · rw [htr] at hfin
        rw [hfin]
        unfold srcEnd
        rw [hlast]
  obtain ⟨w, hw, hwz⟩ := hzsrc
  have hz : z ∈ es.map Prod.snd := hwz ▸ hcon w hw
  obtain ⟨fe, hfe, hfez⟩ := List.mem_map.mp hz
  have hfr : fe ∉ r := by
    intro hin
    have := List.find?_eq_none.mp hstop fe hin
    simp [hfez] at this
  have hft : fe ∈ tr := by
    rcases List.mem_append.mp (hperm.mem_iff.mp hfe) with h | h
    · exact h
    · exact absurd h hfr
  obtain ⟨t₁, t₂, hsplit⟩ := List.append_of_mem hft
  rw [hsplit] at hlink hfin htrm htrnd
  have hseg := backLinked_append t₁ e₀.1 (fe :: t₂) hlink
  have hw1 : srcEnd e₀.1 t₁ = z := by
    rw [← hfez]
    exact hseg.1.symm
  have hC : backLinked z (fe :: t₂) := hw1 ▸ hseg
  have hzend : srcEnd z (fe :: t₂) = z := by
    rw [srcEnd_append, hw1] at hfin
    exact hfin.symm
  obtain ⟨hfwd, hdst⟩ := backLinked_reverse (fe :: t₂) z hC
  rw [hzend] at hfwd
  have hndC : (fe :: t₂).Nodup := htrnd.of_append_right
  have hmemC : ∀ x ∈ (fe :: t₂), x ∈ es := by
    intro x hx
    exact htrm x (List.mem_append_right t₁ hx)
  have hlenC : (fe :: t₂).reverse.length ≤ es.length := by
    have hl := hperm.length_eq
    rw [hsplit] at hl
    simp [List.length_append] at hl
    simp [List.length_reverse]
    omega
  have hf1 : ∃ d ∈ (fe :: t₂).reverse, d.2 = fe.1 := by
    cases t₂ with
    | nil =>
      refine ⟨fe, by simp, ?_⟩
      have hfz : fe.1 = z := by
        rw [← hzend]
        rfl
      rw [hfz, ← hfez]
    | cons g t₃ =>
      exact ⟨g, by simp, hC.2.1⟩
  obtain ⟨d, hd, hd2⟩ := hf1
  have hwin := walk_follows (fe :: t₂).reverse es z es.length hfwd
    (List.nodup_reverse.mpr hndC) (fun x hx => hmemC x (List.mem_reverse.mp hx))
    hfst hlenC d hd
  rw [hd2] at hwin
  have hcyc : onCycle es fe = true := by
    rw [onCycle, hfez]
    simpa using hwin
  rw [hacyc fe hfe] at hcyc
  cases hcyc

/-- Every edge target of an acyclic functional fallthrough graph is
reached by the successor chain from some chain head. -/
theorem chain_coverage : ∀ (N : Nat) (es : List (Nat × Nat)), es.length ≤ N →
    (es.map Prod.fst).Nodup → (es.map Prod.snd).Nodup →
    (∀ e ∈ es, onCycle es e = false) →
    ∀ e ∈ es, ∃ s, s ∈ es.map Prod.fst ∧ s ∉ es.map Prod.snd ∧
      e.2 ∈ chainWalk es.length es s := by
  intro N
  induction N with
  | zero =>
    intro es hlen _ _ _ e he
    rw [List.length_eq_zero.mp (Nat.le_zero.mp hlen)] at he
    cases he
  | succ N ih =>
    intro es hlen hfst hsnd hacyc e he
    have hne : es ≠ [] := List.ne_nil_of_mem he
    have hpos := List.length_pos.mpr hne
    obtain ⟨eh, heh, hehs⟩ := head_edge_exists es hfst hacyc hne
    obtain ⟨f2, hf2⟩ : ∃ f2, es.length = f2 + 1 := ⟨es.length - 1, by omega⟩
    have hf2e : (es.erase eh).length = f2 := by
      rw [List.length_erase_of_mem heh]
      omega
    by_cases hee : e = eh
    · subst hee
      refine ⟨e.1, List.mem_map_of_mem _ heh, hehs, ?_⟩
      have hfind : es.find? (fun g => g.1 = e.1) = some e :=
        find?_fst_unique es e hfst heh
      rw [hf2]
      simp [chainWalk, fwdRun, hfind]
    · have hee2 : e ∈ es.erase eh := (List.mem_erase_of_ne hee).mpr he
      have hsub2 : (es.erase eh).Sublist es := es.erase_sublist eh
      have hlen2 : (es.erase eh).length ≤ N := by omega
      have hfst2 : ((es.erase eh).map Prod.fst).Nodup :=
        (hsub2.map Prod.fst).nodup hfst
      have hsnd2 : ((es.erase eh).map Prod.snd).Nodup :=
        (hsub2.map Prod.snd).nodup hsnd
      have hacyc2 : ∀ g ∈ es.erase eh, onCycle (es.erase eh) g = false := by
        intro g hg
        cases hoc : onCycle (es.erase eh) g with
        | false => rfl
        | true =>
          have := onCycle_of_sublist (es.erase eh) es hsub2 hfst g hg hoc
          rw [hacyc g (hsub2.subset hg)] at this
          cases this
      obtain ⟨s2, hs2f, hs2ns, hs2w⟩ :=
        ih (es.erase eh) hlen2 hfst2 hsnd2 hacyc2 e hee2
      by_cases hseh : s2 = eh.2
      · refine ⟨eh.1, List.mem_map_of_mem _ heh, hehs, ?_⟩
        have hfind : es.find? (fun g => g.1 = eh.1) = some eh :=
          find?_fst_unique es eh hfst heh
        rw [hf2]
        have hstep : chainWalk (f2 + 1) es eh.1
            = eh.2 :: chainWalk f2 (es.erase eh) eh.2 := by
          simp [chainWalk, fwdRun, hfind]
        rw [hstep]
        refine List.mem_cons_of_mem _ ?_
        rw [← hseh, ← hf2e]
        exact hs2w
      · have hs2ne : s2 ≠ eh.1 := by
          intro hq
          obtain ⟨g2, hg2, hg21⟩ := List.mem_map.mp hs2f
          have hg2es : g2 ∈ es := hsub2.subset hg2
          have hg2ne : g2 ≠ eh := by
            intro hqq
            rw [List.Nodup.mem_erase_iff (List.Nodup.of_map Prod.fst hfst)]
              at hg2
            exact hg2.1 hqq
          have : g2 = eh := by
            have hinj := List.inj_on_of_nodup_map hfst
            exact hinj hg2es heh (by rw [hg21, hq])
          exact hg2ne this
        refine ⟨s2, (hsub2.map Prod.fst).subset hs2f, ?_, ?_⟩
        · intro hmem
          obtain ⟨g2, hg2, hg22⟩ := List.mem_map.mp hmem
          by_cases hgeh : g2 = eh
          · exact hseh (by rw [← hg22, hgeh])
          · exact hs2ns
              (hg22 ▸ List.mem_map_of_mem Prod.snd
                ((List.mem_erase_of_ne hgeh).mpr hg2))
        · have hwalkeq : (fwdRun es.length (es.erase eh) s2).1
              = (fwdRun es.length es s2).1 :=
            fwdRun_erase_far es.length es eh s2 hehs hs2ne
          have hstable : fwdRun (es.erase eh).length (es.erase eh) s2
              = fwdRun es.length (es.erase eh) s2 :=
            fwdRun_fuel_stable _ _ _ _ (le_refl _) (by omega)
          rw [chainWalk] at hs2w ⊢
          rw [← hwalkeq, ← hstable]
          exact hs2w

mutual
/-- Modelled from the spec: `ConditionProcessor.get_last_statement` — the
final statement along the last-child spine, `None` standing for the
`EmptyBlockNotice` control-flow exception. -/
def get_last_statement : Node → Option Stmt
  | .block _ _ stmts _ => stmts.getLast?
  | .multi _ _ l => gls_list l
  | .seqn _ l => gls_list l
  | .codeN inner => get_last_statement inner
  | .condN _ _ _ _ _ => Option.none
  | .loopN _ _ _ _ => Option.none
  | .switchN _ _ _ _ => Option.none
  | .breakN _ _ => Option.none
  | .condBreakN _ _ _ => Option.none
  | .contN _ _ => Option.none

/-- Last statement of the last child of a node list. -/
def gls_list : NodeList → Option Stmt
  | .nil => Option.none
  | .cons x .nil => get_last_statement x
  | .cons _ (.cons y tl) => gls_list (.cons y tl)
end

mutual
/-- Modelled from the spec: `ConditionProcessor.get_last_statements` — all
possible final statements (both branches of a condition), `None` standing
for `EmptyBlockNotice`. -/
def get_last_statements : Node → Option (List Stmt)
  | .block _ _ stmts _ =>
    match stmts.getLast? with
    | Option.none => Option.none
    | some s => some [s]
  | .multi _ _ l => glss_list l
  | .seqn _ l => glss_list l
  | .codeN inner => get_last_statements inner
  | .condN _ _ _ t f =>
    match glss_o t, glss_o f with
    | Option.none, Option.none => Option.none
    | some a, Option.none => some a
    | Option.none, some b => some b
    | some a, some b => some (a ++ b)
  | .loopN _ _ _ _ => Option.none
  | .switchN _ _ _ _ => Option.none
  | .breakN _ _ => Option.none
  | .condBreakN _ _ _ => Option.none
  | .contN _ _ => Option.none

/-- `get_last_statements` through an optional branch. -/
def glss_o : ONode → Option (List Stmt)
  | .none => Option.none
  | .some n => get_last_statements n

/-- `get_last_statements` of the last child of a node list. -/
def glss_list : NodeList → Option (List Stmt)
  | .nil => Option.none
  | .cons x .nil => get_last_statements x
  | .cons _ (.cons y tl) => glss_list (.cons y tl)
end

mutual
/-- Modelled from the spec: `remove_last_statement` — drop the final
statement along the last-child spine (both branches for conditions). -/
def remove_last_statement : Node → Node
  | .block a sz stmts i => .block a sz stmts.dropLast i
  | .multi a i l => .multi a i (rls_list l)
  | .seqn a l => .seqn a (rls_list l)
  | .codeN inner => .codeN (remove_last_statement inner)
  | .condN a r c t f => .condN a r c (rls_o t) (rls_o f)
  | .loopN a s c b => .loopN a s c b
  | .switchN a cs d e => .switchN a cs d e
  | .breakN a t => .breakN a t
  | .condBreakN a c t => .condBreakN a c t
  | .contN a t => .contN a t

/-- `remove_last_statement` on an optional branch. -/
def rls_o : ONode → ONode
  | .none => .none
  | .some n => .some (remove_last_statement n)

/-- `remove_last_statement` on the last child of a node list. -/
def rls_list : NodeList → NodeList
  | .nil => .nil
  | .cons x .nil => .cons (remove_last_statement x) .nil
  | .cons x (.cons y tl) => .cons x (rls_list (.cons y tl))
end

mutual
/-- Modelled from the spec: `LabelCollector` — every `Label` statement's
`(ins_addr, block_idx)` pair in the subtree. -/
def labelPairs : Node → List (Nat × Option Nat)
  | .block _ _ stmts _ =>
    stmts.filterMap (fun s =>
      match s with
      | .lbl a bi => some (a, bi)
      | _ => Option.none)
  | .multi _ _ l => labelPairsL l
  | .seqn _ l => labelPairsL l
  | .codeN inner => labelPairs inner
  | .condN _ _ _ t f => labelPairsO t ++ labelPairsO f
  | .loopN _ _ _ b => labelPairs b
  | .switchN _ cs d _ => labelPairsC cs ++ labelPairsO d
  | .breakN _ _ => []
  | .condBreakN _ _ _ => []
  | .contN _ _ => []

/-- Label pairs of an optional node. -/
def labelPairsO : ONode → List (Nat × Option Nat)
  | .none => []
  | .some n => labelPairs n

/-- Label pairs of a node list. -/
def labelPairsL : NodeList → List (Nat × Option Nat)
  | .nil => []
  | .cons x tl => labelPairs x ++ labelPairsL tl

/-- Label pairs of a case list. -/
def labelPairsC : CaseList → List (Nat × Option Nat)
  | .nil => []
  | .cons _ n tl => labelPairs n ++ labelPairsC tl
end

/-- The `(target value, target idx)` pairs of a trailing jump statement
(`_remove_last_statement_if_jump_to_addr`, lines 890–897). -/
def jump_targets_of (s : Stmt) : List (Nat × Option Nat) :=
  match s with
  | .jump _ (.econst _ v _) ti _ => [(v, ti)]
  | .condJump _ _ tT fT tI fI _ =>
    (match tT with
      | some (.econst _ v _) => [(v, tI)]
      | _ => []) ++
    (match fT with
      | some (.econst _ v _) => [(v, fI)]
      | _ => [])
  | _ => []

/-- `StructurerBase._remove_last_statement_if_jump_to_addr`: strip the
unique trailing jump when one of its constant targets is a collected
label pair. -/
def remove_last_statement_if_jump_to_addr (labels : List (Nat × Option Nat))
    (n : Node) : Node :=
  match get_last_statements n with
  | Option.none => n
  | some ls =>
    match ls with
    | [s] =>
      if (jump_targets_of s).any (fun t => decide (t ∈ labels)) then
        remove_last_statement n
      else n
    | _ => n

/-- The goto address collected for a case body: a trailing unconditional
jump with a constant target (lines 809–818). -/
def case_goto_addr (n : Node) : Option Nat :=
  match get_last_statement n with
  | some (.jump _ (.econst _ v _) _ _) => some v
  | _ => Option.none

/-- `caseid2gotoaddrs` as an ordered association list. -/
def caseid2gotoaddrs (cases : List (Nat × Node)) : List (Nat × Nat) :=
  cases.filterMap (fun p => (case_goto_addr p.2).map (fun v => (p.1, v)))

/-- `addr2caseids`: the case ids whose node address equals `a`, in case
order. -/
def addr2caseids (cases : List (Nat × Node)) (a : Nat) : List Nat :=
  (cases.filter (fun p => decide (p.2.addrO = some a))).map Prod.fst

/-- The edge-insertion loop (lines 820–834): an edge from a goto-carrying
case to the unique case at the goto address, subject to the
at-most-one-outgoing/incoming guards. -/
def addCaseEdges (cases : List (Nat × Node)) :
    List (Nat × Nat) → List (Nat × Nat) → List (Nat × Nat)
  | es, [] => es
  | es, g :: rest =>
    match addr2caseids cases g.2 with
    | [succ] =>
      if (es.all (fun e => e.1 != g.1)) && (es.all (fun e => e.2 != succ)) then
        addCaseEdges cases (es ++ [(g.1, succ)]) rest
      else addCaseEdges cases es rest
    | _ => addCaseEdges cases es rest

/-- The endpoints of the inferred fallthrough graph's edges (the graph's
node set, membership only). -/
def graph_node_list (es : List (Nat × Nat)) : List Nat :=
  es.bind (fun e => [e.1, e.2])

/-- `OrderedDict` assignment: replace in place when the key exists,
append otherwise. -/
def odSet (m : List (Nat × Node)) (k : Nat) (v : Node) : List (Nat × Node) :=
  if m.any (fun p => decide (p.1 = k)) then
    m.map (fun p => if p.1 = k then (k, v) else p)
  else m ++ [(k, v)]

/-- `cases[k]` (total; every use is at a key of the mapping). -/
def clookup (cases : List (Nat × Node)) (k : Nat) : Node :=
  match cases.find? (fun p => decide (p.1 = k)) with
  | some p => p.2
  | Option.none => .block 0 0 [] Option.none

/-- Emit a chain of successor cases (lines 869–873). -/
def emitChain (cases : List (Nat × Node)) :
    List (Nat × Node) → List Nat → List (Nat × Node)
  | m, [] => m
  | m, k :: rest => emitChain cases (odSet m k (clookup cases k)) rest

/-- Emit each starting case (jump-stripped) followed by its successor
chain (lines 866–873). -/
def rsc_chains (cases : List (Nat × Node)) (labels : List (Nat × Option Nat))
    (es : List (Nat × Nat)) :
    List (Nat × Node) → List Nat → List (Nat × Node)
  | m, [] => m
  | m, s :: rest =>
    rsc_chains cases labels es
      (emitChain cases
        (odSet m s (remove_last_statement_if_jump_to_addr labels (clookup cases s)))
        (chainWalk es.length es s))
      rest

/-- The reshuffling phases after cycle breaking: unlinked cases first (in
original order), then the chains from the starting cases. -/
def rsc_emit (cases : List (Nat × Node)) (es0 es : List (Nat × Nat)) :
    List (Nat × Node) :=
  rsc_chains cases (cases.bind (fun p => labelPairs p.2)) es
    (cases.foldl
      (fun m p => if p.1 ∈ graph_node_list es0 then m else odSet m p.1 p.2) [])
    ((cases.filter (fun p =>
        decide (p.1 ∈ graph_node_list es0) && es.all (fun e => e.2 != p.1))).map
      Prod.fst)

/-- `_reorganize_switch_cases` after the goto-graph construction: return
the input when the graph is empty, otherwise break cycles and reshuffle. -/
def rsc_core (cases : List (Nat × Node)) (es0 : List (Nat × Nat)) :
    List (Nat × Node) :=
  if es0 = [] then cases
  else rsc_emit cases es0 (breakCycles es0.length es0)

/-- `StructurerBase._reorganize_switch_cases` over an ordered
case-to-node mapping. -/
def reorganize_switch_cases (cases : List (Nat × Node)) : List (Nat × Node) :=
  rsc_core cases (addCaseEdges cases [] (caseid2gotoaddrs cases))

/-- C9 counterexample: case 0 at 0x100 falls through via `goto 0x200` to
case 1, which carries a label `(0x200, None)`. The reorganization strips
the trailing goto of the starting case 0 in place, so the returned
mapping does not contain the same key-to-node pairs as its input. -/
theorem reorganize_switch_cases_strip_counterexample :
    reorganize_switch_cases
        [(0, .seqn (some 100)
            (.cons (.block 100 4
              [.other 1 100,
               .jump Option.none (.econst Option.none 200 32) Option.none 104]
              Option.none) .nil)),
         (1, .seqn (some 200)
            (.cons (.block 200 4 [.lbl 200 Option.none, .other 2 201]
              Option.none) .nil))]
      = [(0, .seqn (some 100)
            (.cons (.block 100 4 [.other 1 100] Option.none) .nil)),
         (1, .seqn (some 200)
            (.cons (.block 200 4 [.lbl 200 Option.none, .other 2 201]
              Option.none) .nil))]
    ∧ (0, Node.seqn (some 100)
            (.cons (.block 100 4
              [.other 1 100,
               .jump Option.none (.econst Option.none 200 32) Option.none 104]
              Option.none) .nil)) ∉
        reorganize_switch_cases
          [(0, .seqn (some 100)
              (.cons (.block 100 4
                [.other 1 100,
                 .jump Option.none (.econst Option.none 200 32) Option.none 104]
                Option.none) .nil)),
           (1, .seqn (some 200)
              (.cons (.block 200 4 [.lbl 200 Option.none, .other 2 201]
                Option.none) .nil))] := by
  constructor
  · decide
  · decide

theorem odSet_cond (m : List (Nat × Node)) (k : Nat) :
    (m.any (fun p => decide (p.1 = k))) = true ↔ k ∈ m.map Prod.fst := by
  rw [List.any_eq_true]
  constructor
  · rintro ⟨p, hp, hpk⟩
    have : p.1 = k := by simpa using hpk
    exact this ▸ List.mem_map_of_mem Prod.fst hp
  · intro hm
    obtain ⟨p, hp, hpk⟩ := List.mem_map.mp hm
    exact ⟨p, hp, by simpa using hpk⟩

theorem odSet_of_not_mem (m : List (Nat × Node)) (k : Nat) (v : Node)
    (hk : k ∉ m.map Prod.fst) : odSet m k v = m ++ [(k, v)] := by
  unfold odSet
  rw [if_neg (fun h => hk ((odSet_cond m k).mp h))]

theorem odSet_keys_of_mem (m : List (Nat × Node)) (k : Nat) (v : Node)
    (hk : k ∈ m.map Prod.fst) :
    (odSet m k v).map Prod.fst = m.map Prod.fst := by
  unfold odSet
  rw [if_pos ((odSet_cond m k).mpr hk)]
  rw [List.map_map]
  refine List.map_congr_left ?_
  intro p hp
  by_cases h : p.1 = k
  · simp [h]
  · simp [h]

theorem odSet_keys_mono (m : List (Nat × Node)) (k : Nat) (v : Node) :
    ∀ k2 ∈ m.map Prod.fst, k2 ∈ (odSet m k v).map Prod.fst := by
  intro k2 hk2
  by_cases hk : k ∈ m.map Prod.fst
  · rw [odSet_keys_of_mem m k v hk]
    exact hk2
  · rw [odSet_of_not_mem m k v hk, List.map_append]
    exact List.mem_append_left _ hk2

theorem odSet_mem_keys (m : List (Nat × Node)) (k : Nat) (v : Node) :
    k ∈ (odSet m k v).map Prod.fst := by
  by_cases hk : k ∈ m.map Prod.fst
  · rw [odSet_keys_of_mem m k v hk]
    exact hk
  · rw [odSet_of_not_mem m k v hk, List.map_append]
    exact List.mem_append_right _ (by simp)

theorem odSet_keys_nodup (m : List (Nat × Node)) (k : Nat) (v : Node)
    (h : (m.map Prod.fst).Nodup) : ((odSet m k v).map Prod.fst).Nodup := by
  by_cases hk : k ∈ m.map Prod.fst
  · rw [odSet_keys_of_mem m k v hk]
    exact h
  · rw [odSet_of_not_mem m k v hk, List.map_append]
    simp [List.nodup_append, h, hk]

theorem odSet_pairs (m : List (Nat × Node)) (k : Nat) (v : Node) :
    ∀ p ∈ odSet m k v, p ∈ m ∨ p = (k, v) := by
  intro p hp
  by_cases hk : k ∈ m.map Prod.fst
  · unfold odSet at hp
    rw [if_pos ((odSet_cond m k).mpr hk)] at hp
    obtain ⟨q, hq, hqe⟩ := List.mem_map.mp hp
    by_cases h : q.1 = k
    · right
      rw [← hqe]
      simp [h]
    · left
      rw [← hqe]
      simpa [h] using hq
  · rw [odSet_of_not_mem m k v hk] at hp
    rcases List.mem_append.mp hp with h | h
    · exact Or.inl h
    · exact Or.inr (by simpa using h)

theorem filter_odmap (G : List Nat) (k : Nat) (v : Node) (hk : k ∈ G) :
    ∀ m : List (Nat × Node),
    (m.map (fun p => if p.1 = k then (k, v) else p)).filter
        (fun p => !decide (p.1 ∈ G))
      = m.filter (fun p => !decide (p.1 ∈ G)) := by
  intro m
  induction m with
  | nil => rfl
  | cons a tl ih =>
    rw [List.map_cons]
    by_cases h : a.1 = k
    · rw [if_pos h]
      rw [List.filter_cons, List.filter_cons]
      simp only [h, hk]
      simpa using ih
    · rw [if_neg h]
      rw [List.filter_cons, List.filter_cons]
      cases hq : (!decide (a.1 ∈ G)) with
      | true => simp only [ih]
      | false => simp only [ih]

theorem odSet_filter_in (G : List Nat) (m : List (Nat × Node)) (k : Nat)
    (v : Node) (hk : k ∈ G) :
    (odSet m k v).filter (fun p => !decide (p.1 ∈ G))
      = m.filter (fun p => !decide (p.1 ∈ G)) := by
  unfold odSet
  split
  · exact filter_odmap G k v hk m
  · rw [List.filter_append]
    simp [hk]

theorem clookup_mem (cases : List (Nat × Node)) (k : Nat)
    (hk : k ∈ cases.map Prod.fst) : (k, clookup cases k) ∈ cases := by
  obtain ⟨p, hp, hpk⟩ := List.mem_map.mp hk
  cases hf : cases.find? (fun q => decide (q.1 = k)) with
  | none =>
    have := List.find?_eq_none.mp hf p hp
    simp [hpk] at this
  | some q =>
    have hq : q ∈ cases := List.mem_of_find?_eq_some hf
    have hqk : q.1 = k := by simpa using List.find?_some hf
    unfold clookup
    rw [hf]
    rw [← hqk]
    simpa using hq

theorem strip_dichotomy (labels : List (Nat × Option Nat)) (n : Node) :
    remove_last_statement_if_jump_to_addr labels n = n
    ∨ remove_last_statement_if_jump_to_addr labels n
        = remove_last_statement n := by
  unfold remove_last_statement_if_jump_to_addr
  repeat' split
  all_goals first
    | exact Or.inl rfl
    | exact Or.inr rfl

theorem emitChain_keys_mono (cases : List (Nat × Node)) :
    ∀ (ks : List Nat) (m : List (Nat × Node)) (k2 : Nat),
    k2 ∈ m.map Prod.fst → k2 ∈ (emitChain cases m ks).map Prod.fst := by
  intro ks
  induction ks with
  | nil => intro m k2 h; exact h
  | cons k rest ih =>
    intro m k2 h
    rw [emitChain]
    exact ih _ k2 (odSet_keys_mono m k (clookup cases k) k2 h)

theorem emitChain_keys_cover (cases : List (Nat × Node)) :
    ∀ (ks : List Nat) (m : List (Nat × Node)) (k2 : Nat),
    k2 ∈ ks → k2 ∈ (emitChain cases m ks).map Prod.fst := by
  intro ks
  induction ks with
  | nil => intro m k2 h; cases h
  | cons k rest ih =>
    intro m k2 h
    rw [emitChain]
    rcases List.mem_cons.mp h with h2 | h2
    · subst h2
      exact emitChain_keys_mono cases rest _ k2 (odSet_mem_keys m k2 _)
    · exact ih _ k2 h2

theorem emitChain_keys_nodup (cases : List (Nat × Node)) :
    ∀ (ks : List Nat) (m : List (Nat × Node)),
    (m.map Prod.fst).Nodup → ((emitChain cases m ks).map Prod.fst).Nodup := by
  intro ks
  induction ks with
  | nil => intro m h; exact h
  | cons k rest ih =>
    intro m h
    rw [emitChain]
    exact ih _ (odSet_keys_nodup m k _ h)

theorem emitChain_pairs (cases : List (Nat × Node)) :
    ∀ (ks : List Nat) (m : List (Nat × Node)),
    ∀ p ∈ emitChain cases m ks,
      p ∈ m ∨ ∃ k ∈ ks, p = (k, clookup cases k) := by
  intro ks
  induction ks with
  | nil => intro m p hp; exact Or.inl hp
  | cons k rest ih =>
    intro m p hp
    rw [emitChain] at hp
    rcases ih _ p hp with h | ⟨k2, hk2, he⟩
    · rcases odSet_pairs m k _ p h with h2 | h2
      · exact Or.inl h2
      · exact Or.inr ⟨k, List.mem_cons_self _ _, h2⟩
    · exact Or.inr ⟨k2, List.mem_cons_of_mem _ hk2, he⟩

theorem emitChain_filter (G : List Nat) (cases : List (Nat × Node)) :
    ∀ (ks : List Nat) (m : List (Nat × Node)), (∀ k ∈ ks, k ∈ G) →
    (emitChain cases m ks).filter (fun p => !decide (p.1 ∈ G))
      = m.filter (fun p => !decide (p.1 ∈ G)) := by
  intro ks
  induction ks with
  | nil => intro m _; rfl
  | cons k rest ih =>
    intro m hks
    rw [emitChain]
    rw [ih _ (fun k2 hk2 => hks k2 (List.mem_cons_of_mem _ hk2))]
    exact odSet_filter_in G m k _ (hks k (List.mem_cons_self _ _))

theorem rsc_chains_keys_mono (cases : List (Nat × Node))
    (labels : List (Nat × Option Nat)) (es : List (Nat × Nat)) :
    ∀ (starts : List Nat) (m : List (Nat × Node)) (k2 : Nat),
    k2 ∈ m.map Prod.fst →
    k2 ∈ (rsc_chains cases labels es m starts).map Prod.fst := by
  intro starts
  induction starts with
  | nil => intro m k2 h; exact h
  | cons s rest ih =>
    intro m k2 h
    rw [rsc_chains]
    exact ih _ k2 (emitChain_keys_mono cases _ _ k2 (odSet_keys_mono m s _ k2 h))

theorem rsc_chains_cover (cases : List (Nat × Node))
    (labels : List (Nat × Option Nat)) (es : List (Nat × Nat)) :
    ∀ (starts : List Nat) (m : List (Nat × Node)) (s : Nat), s ∈ starts →
    ∀ k2 ∈ s :: chainWalk es.length es s,
      k2 ∈ (rsc_chains cases labels es m starts).map Prod.fst := by
  intro starts
  induction starts with
  | nil => intro m s h; cases h
  | cons s0 rest ih =>
    intro m s hs k2 hk2
    rw [rsc_chains]
    rcases List.mem_cons.mp hs with h | h
    · subst h
      rcases List.mem_cons.mp hk2 with h2 | h2
      · subst h2
        exact rsc_chains_keys_mono cases labels es rest _ k2
          (emitChain_keys_mono cases _ _ k2 (odSet_mem_keys m k2 _))
      · exact rsc_chains_keys_mono cases labels es rest _ k2
          (emitChain_keys_cover cases _ _ k2 h2)
    · exact ih _ s h k2 hk2

theorem rsc_chains_keys_nodup (cases : List (Nat × Node))
    (labels : List (Nat × Option Nat)) (es : List (Nat × Nat)) :
    ∀ (starts : List Nat) (m : List (Nat × Node)),
    (m.map Prod.fst).Nodup →
    ((rsc_chains cases labels es m starts).map Prod.fst).Nodup := by
  intro starts
  induction starts with
  | nil => intro m h; exact h
  | cons s rest ih =>
    intro m h
    rw [rsc_chains]
    exact ih _ (emitChain_keys_nodup cases _ _ (odSet_keys_nodup m s _ h))

theorem rsc_chains_pairs (cases : List (Nat × Node))
    (labels : List (Nat × Option Nat)) (es : List (Nat × Nat)) :
    ∀ (starts : List Nat) (m : List (Nat × Node)),
    ∀ p ∈ rsc_chains cases labels es m starts,
      p ∈ m ∨ ∃ k, (k ∈ starts ∨ ∃ s ∈ starts, k ∈ chainWalk es.length es s)
        ∧ (p = (k, clookup cases k)
          ∨ p = (k, remove_last_statement_if_jump_to_addr labels
              (clookup cases k))) := by
  intro starts
  induction starts with
  | nil => intro m p hp; exact Or.inl hp
  | cons s rest ih =>
    intro m p hp
    rw [rsc_chains] at hp
    rcases ih _ p hp with h | ⟨k, hk, he⟩
    · rcases emitChain_pairs cases _ _ p h with h2 | ⟨k, hk, he⟩
      · rcases odSet_pairs m s _ p h2 with h3 | h3
        · exact Or.inl h3
        · exact Or.inr ⟨s, Or.inl (List.mem_cons_self _ _), Or.inr h3⟩
      · exact Or.inr ⟨k, Or.inr ⟨s, List.mem_cons_self _ _, hk⟩, Or.inl he⟩
    · refine Or.inr ⟨k, ?_, he⟩
      rcases hk with h2 | ⟨s2, hs2, hc⟩
      · exact Or.inl (List.mem_cons_of_mem _ h2)
      · exact Or.inr ⟨s2, List.mem_cons_of_mem _ hs2, hc⟩

theorem rsc_chains_filter (G : List Nat) (cases : List (Nat × Node))
    (labels : List (Nat × Option Nat)) (es : List (Nat × Nat)) :
    ∀ (starts : List Nat) (m : List (Nat × Node)),
    (∀ s ∈ starts, s ∈ G) → (∀ k ∈ es.map Prod.snd, k ∈ G) →
    (rsc_chains cases labels es m starts).filter (fun p => !decide (p.1 ∈ G))
      = m.filter (fun p => !decide (p.1 ∈ G)) := by
  intro starts
  induction starts with
  | nil => intro m _ _; rfl
  | cons s rest ih =>
    intro m hst hsnd
    rw [rsc_chains]
    rw [ih _ (fun s2 hs2 => hst s2 (List.mem_cons_of_mem _ hs2)) hsnd]
    rw [emitChain_filter G cases _ _ ?_]
    · exact odSet_filter_in G m s _ (hst s (List.mem_cons_self _ _))
    · intro k hk
      rw [chainWalk] at hk
      obtain ⟨d, hd, hdk⟩ := List.mem_map.mp hk
      exact hsnd k (hdk ▸ List.mem_map_of_mem Prod.snd
        (fwdRun_trace_mem es.length es s d hd))

theorem chainWalk_sub_snd (f : Nat) (es : List (Nat × Nat)) (u : Nat) :
    ∀ k ∈ chainWalk f es u, k ∈ es.map Prod.snd := by
  intro k hk
  rw [chainWalk] at hk
  obtain ⟨d, hd, hdk⟩ := List.mem_map.mp hk
  exact hdk ▸ List.mem_map_of_mem Prod.snd (fwdRun_trace_mem f es u d hd)

theorem fold_unlinked (G : List Nat) : ∀ (cs acc : List (Nat × Node)),
    (∀ k ∈ acc.map Prod.fst, k ∉ cs.map Prod.fst) →
    (cs.map Prod.fst).Nodup →
    cs.foldl (fun m p => if p.1 ∈ G then m else odSet m p.1 p.2) acc
      = acc ++ cs.filter (fun p => !decide (p.1 ∈ G)) := by
  intro cs
  induction cs with
  | nil => intro acc _ _; simp
  | cons a tl ih =>
    intro acc hdisj hnd
    rw [List.foldl_cons]
    rw [List.map_cons, List.nodup_cons] at hnd
    by_cases h : a.1 ∈ G
    · rw [if_pos h]
      rw [List.filter_cons]
      simp only [h, decide_True, Bool.not_true]
      exact ih acc
        (fun k hk => fun hin => hdisj k hk (List.mem_cons_of_mem _ hin)) hnd.2
    · rw [if_neg h]
      have hfresh : a.1 ∉ acc.map Prod.fst :=
        fun hin => hdisj a.1 hin (by simp)
      rw [odSet_of_not_mem _ _ _ hfresh]
      rw [ih (acc ++ [(a.1, a.2)]) ?_ hnd.2]
      · rw [List.filter_cons]
        simp only [h, decide_False, Bool.not_false]
        rw [List.append_assoc]
        simp
      · intro k hk
        rw [List.map_append] at hk
        rcases List.mem_append.mp hk with h2 | h2
        · exact fun hin => hdisj k h2 (List.mem_cons_of_mem _ hin)
        · have : k = a.1 := by simpa using h2
          subst this
          exact hnd.1

theorem addr2caseids_sub (cases : List (Nat × Node)) (a : Nat) :
    ∀ k ∈ addr2caseids cases a, k ∈ cases.map Prod.fst := by
  intro k hk
  unfold addr2caseids at hk
  obtain ⟨p, hp, hpk⟩ := List.mem_map.mp hk
  exact hpk ▸ List.mem_map_of_mem Prod.fst (List.mem_of_mem_filter hp)

theorem caseid2gotoaddrs_sub (cases : List (Nat × Node)) :
    ∀ g ∈ caseid2gotoaddrs cases, g.1 ∈ cases.map Prod.fst := by
  intro g hg
  unfold caseid2gotoaddrs at hg
  obtain ⟨p, hp, hpg⟩ := List.mem_filterMap.mp hg
  cases hcg : case_goto_addr p.2 with
  | none => rw [hcg] at hpg; cases hpg
  | some v =>
    rw [hcg] at hpg
    simp only [Option.map_some', Option.some.injEq] at hpg
    rw [← hpg]
    exact List.mem_map_of_mem Prod.fst hp

theorem mem_graph_node_list (es : List (Nat × Nat)) (e : Nat × Nat)
    (he : e ∈ es) : e.1 ∈ graph_node_list es ∧ e.2 ∈ graph_node_list es := by
  unfold graph_node_list
  exact ⟨List.mem_bind.mpr ⟨e, he, by simp⟩, List.mem_bind.mpr ⟨e, he, by simp⟩⟩

theorem addCaseEdges_nodup (cases : List (Nat × Node)) :
    ∀ (c2g es : List (Nat × Nat)),
    (es.map Prod.fst).Nodup → (es.map Prod.snd).Nodup →
    ((addCaseEdges cases es c2g).map Prod.fst).Nodup
      ∧ ((addCaseEdges cases es c2g).map Prod.snd).Nodup := by
  intro c2g
  induction c2g with
  | nil => intro es h1 h2; exact ⟨h1, h2⟩
  | cons g rest ih =>
    intro es h1 h2
    cases ha : addr2caseids cases g.2 with
    | nil =>
      simp only [addCaseEdges, ha]
      exact ih es h1 h2
    | cons succ tl =>
      cases tl with
      | cons s2 tl2 =>
        simp only [addCaseEdges, ha]
        exact ih es h1 h2
      | nil =>
        simp only [addCaseEdges, ha]
        split
        · rename_i hguard
          rw [Bool.and_eq_true, List.all_eq_true, List.all_eq_true] at hguard
          refine ih (es ++ [(g.1, succ)]) ?_ ?_
          · rw [List.map_append, List.nodup_append]
            refine ⟨h1, by simp, ?_⟩
            intro a haf hab
            have ha1 : a = g.1 := by simpa using hab
            obtain ⟨e, he, hef⟩ := List.mem_map.mp haf
            have := hguard.1 e he
            rw [bne_iff_ne] at this
            exact this (by rw [hef, ha1])
          · rw [List.map_append, List.nodup_append]
            refine ⟨h2, by simp, ?_⟩
            intro a haf hab
            have ha1 : a = succ := by simpa using hab
            obtain ⟨e, he, hef⟩ := List.mem_map.mp haf
            have := hguard.2 e he
            rw [bne_iff_ne] at this
            exact this (by rw [hef, ha1])
        · exact ih es h1 h2

theorem addCaseEdges_endpoints (cases : List (Nat × Node)) :
    ∀ (c2g es : List (Nat × Nat)),
    (∀ x ∈ es, x.1 ∈ cases.map Prod.fst ∧ x.2 ∈ cases.map Prod.fst) →
    (∀ g ∈ c2g, g.1 ∈ cases.map Prod.fst) →
    ∀ x ∈ addCaseEdges cases es c2g,
      x.1 ∈ cases.map Prod.fst ∧ x.2 ∈ cases.map Prod.fst := by
  intro c2g
  induction c2g with
  | nil => intro es hes _ x hx; exact hes x hx
  | cons g rest ih =>
    intro es hes hc2g
    cases ha : addr2caseids cases g.2 with
    | nil =>
      simp only [addCaseEdges, ha]
      exact ih es hes (fun g2 hg2 => hc2g g2 (List.mem_cons_of_mem _ hg2))
    | cons succ tl =>
      cases tl with
      | cons s2 tl2 =>
        simp only [addCaseEdges, ha]
        exact ih es hes (fun g2 hg2 => hc2g g2 (List.mem_cons_of_mem _ hg2))
      | nil =>
        simp only [addCaseEdges, ha]
        split
        · refine ih (es ++ [(g.1, succ)]) ?_
            (fun g2 hg2 => hc2g g2 (List.mem_cons_of_mem _ hg2))
          intro x hx
          rcases List.mem_append.mp hx with h | h
          · exact hes x h
          · have hx2 : x = (g.1, succ) := by simpa using h
            subst hx2
            refine ⟨hc2g g (List.mem_cons_self _ _), ?_⟩
            exact addr2caseids_sub cases g.2 succ (by rw [ha]; simp)
        · exact ih es hes (fun g2 hg2 => hc2g g2 (List.mem_cons_of_mem _ hg2))

/-- C9 (amended): for distinct case keys the reorganization returns a
mapping whose key set is a permutation of the input's (no case dropped or
duplicated), whose every value is the original case node or that node
with its trailing jump stripped (starting cases can be stripped, so the
pairs are not always identical as claimed), and in which the cases not on
the fallthrough graph keep their original relative order and values. -/
theorem reorganize_switch_cases_spec (cases : List (Nat × Node))
    (hk : (cases.map Prod.fst).Nodup) :
    ((reorganize_switch_cases cases).map Prod.fst).Perm (cases.map Prod.fst)
    ∧ (∀ p ∈ reorganize_switch_cases cases, ∃ v, (p.1, v) ∈ cases ∧
        (p.2 = v ∨ p.2 = remove_last_statement v))
    ∧ (reorganize_switch_cases cases).filter
        (fun p => !decide (p.1 ∈ graph_node_list
          (addCaseEdges cases [] (caseid2gotoaddrs cases))))
      = cases.filter (fun p => !decide (p.1 ∈ graph_node_list
          (addCaseEdges cases [] (caseid2gotoaddrs cases)))) := by
  have hnd0 := addCaseEdges_nodup cases (caseid2gotoaddrs cases) []
    (by simp) (by simp)
  have hends := addCaseEdges_endpoints cases (caseid2gotoaddrs cases) []
    (by simp) (caseid2gotoaddrs_sub cases)
  rw [reorganize_switch_cases, rsc_core]
  generalize hE0 : addCaseEdges cases [] (caseid2gotoaddrs cases) = es0
  rw [hE0] at hnd0 hends
  by_cases h0 : es0 = []
  · subst h0
    rw [if_pos rfl]
    refine ⟨List.Perm.refl _, ?_, rfl⟩
    intro p hp
    exact ⟨p.2, by simpa using hp, Or.inl rfl⟩
  · rw [if_neg h0]
    have hsub : (breakCycles es0.length es0).Sublist es0 :=
      breakCycles_sublist _ _
    have hacyc := breakCycles_acyclic es0.length es0 (le_refl _)
    generalize hE : breakCycles es0.length es0 = es
    rw [hE] at hsub hacyc
    have hfst : (es.map Prod.fst).Nodup := (hsub.map Prod.fst).nodup hnd0.1
    have hsnd : (es.map Prod.snd).Nodup := (hsub.map Prod.snd).nodup hnd0.2
    have hm1 := fold_unlinked (graph_node_list es0) cases [] (by simp) hk
    rw [List.nil_append] at hm1
    rw [rsc_emit, hm1]
    have hsndG : ∀ k ∈ es.map Prod.snd, k ∈ graph_node_list es0 := by
      intro k hk2
      obtain ⟨e, he, hek⟩ := List.mem_map.mp hk2
      exact hek ▸ (mem_graph_node_list es0 e (hsub.subset he)).2
    have hsndK : ∀ k ∈ es.map Prod.snd, k ∈ cases.map Prod.fst := by
      intro k hk2
      obtain ⟨e, he, hek⟩ := List.mem_map.mp hk2
      exact hek ▸ (hends e (hsub.subset he)).2
    generalize hL : cases.bind (fun p => labelPairs p.2) = L
    generalize hSTS : (cases.filter (fun p =>
        decide (p.1 ∈ graph_node_list es0)
          && es.all (fun e => e.2 != p.1))).map Prod.fst = sts
    have hstsG : ∀ s ∈ sts, s ∈ graph_node_list es0 := by
      intro s hs
      rw [← hSTS] at hs
      obtain ⟨p, hp, hpk⟩ := List.mem_map.mp hs
      have := (List.mem_filter.mp hp).2
      rw [Bool.and_eq_true] at this
      rw [← hpk]
      simpa using this.1
    have hstsK : ∀ s ∈ sts, s ∈ cases.map Prod.fst := by
      intro s hs
      rw [← hSTS] at hs
      obtain ⟨p, hp, hpk⟩ := List.mem_map.mp hs
      exact hpk ▸ List.mem_map_of_mem Prod.fst (List.mem_of_mem_filter hp)
    have hm1nd : ((cases.filter
        (fun p => !decide (p.1 ∈ graph_node_list es0))).map Prod.fst).Nodup :=
      ((List.filter_sublist cases).map Prod.fst).nodup hk
    have hkeysub : ∀ k2 ∈ (rsc_chains cases L es
        (cases.filter (fun p => !decide (p.1 ∈ graph_node_list es0)))
        sts).map Prod.fst, k2 ∈ cases.map Prod.fst := by
      intro k2 hk2
      obtain ⟨p, hp, hpk⟩ := List.mem_map.mp hk2
      rcases rsc_chains_pairs cases L es sts _ p hp with h | ⟨k, hor, hval⟩
      · exact hpk ▸ List.mem_map_of_mem Prod.fst (List.mem_of_mem_filter h)
      · have hp1 : p.1 = k := by
          rcases hval with h | h
          · rw [h]
          · rw [h]
        rw [← hpk, hp1]
        rcases hor with h | ⟨s, _, hc⟩
        · exact hstsK k h
        · exact hsndK k (chainWalk_sub_snd es.length es s k hc)
    refine ⟨?_, ?_, ?_⟩
    · -- permutation of keys
      refine List.Subperm.antisymm ?_ ?_
      · exact List.subperm_of_subset
          (rsc_chains_keys_nodup cases L es sts _ hm1nd) hkeysub
      · refine List.subperm_of_subset hk ?_
        intro k2 hk2
        by_cases hG : k2 ∈ graph_node_list es0
        · by_cases hdeg : es.all (fun e => e.2 != k2) = true
          · obtain ⟨p, hp, hpk⟩ := List.mem_map.mp hk2
            have hsts : k2 ∈ sts := by
              rw [← hSTS]
              refine List.mem_map.mpr ⟨p, List.mem_filter.mpr ⟨hp, ?_⟩, hpk⟩
              rw [hpk]
              simp [hG, hdeg]
            exact rsc_chains_cover cases L es sts _ k2 hsts k2
              (List.mem_cons_self _ _)
          · have hex : ∃ e ∈ es, e.2 = k2 := by
              by_contra hno
              apply hdeg
              rw [List.all_eq_true]
              intro e he
              rw [bne_iff_ne]
              exact fun hq => hno ⟨e, he, hq⟩
            obtain ⟨e, he, hek⟩ := hex
            obtain ⟨s, hsf, hsns, hsw⟩ :=
              chain_coverage es.length es (le_refl _) hfst hsnd hacyc e he
            obtain ⟨e2, he2, he21⟩ := List.mem_map.mp hsf
            have hskeys : s ∈ cases.map Prod.fst :=
              he21 ▸ (hends e2 (hsub.subset he2)).1
            obtain ⟨ps, hps, hpsk⟩ := List.mem_map.mp hskeys
            have hsG : s ∈ graph_node_list es0 :=
              he21 ▸ (mem_graph_node_list es0 e2 (hsub.subset he2)).1
            have hsall : es.all (fun e3 => e3.2 != s) = true := by
              rw [List.all_eq_true]
              intro e3 he3
              rw [bne_iff_ne]
              exact fun hq => hsns (hq ▸ List.mem_map_of_mem Prod.snd he3)
            have hsts : s ∈ sts := by
              rw [← hSTS]
              refine List.mem_map.mpr
                ⟨ps, List.mem_filter.mpr ⟨hps, ?_⟩, hpsk⟩
              rw [hpsk]
              simp [hsG, hsall]
            exact rsc_chains_cover cases L es sts _ s hsts k2
              (List.mem_cons_of_mem _ (hek ▸ hsw))
        · obtain ⟨p, hp, hpk⟩ := List.mem_map.mp hk2
          refine rsc_chains_keys_mono cases L es sts _ k2 ?_
          refine List.mem_map.mpr ⟨p, List.mem_filter.mpr ⟨hp, ?_⟩, hpk⟩
          rw [hpk]
          simp [hG]
    · -- value provenance
      intro p hp
      rcases rsc_chains_pairs cases L es sts _ p hp with h | ⟨k, hor, hval⟩
      · refine ⟨p.2, ?_, Or.inl rfl⟩
        have := List.mem_of_mem_filter h
        simpa using this
      · have hkK : k ∈ cases.map Prod.fst := by
          rcases hor with h | ⟨s, _, hc⟩
          · exact hstsK k h
          · exact hsndK k (chainWalk_sub_snd es.length es s k hc)
        refine ⟨clookup cases k, ?_, ?_⟩
        · have hck := clookup_mem cases k hkK
          rcases hval with h | h
          · rw [h]
            exact hck
          · rw [h]
            exact hck
        · rcases hval with h | h
          · exact Or.inl (by rw [h])
          · rcases strip_dichotomy L (clookup cases k) with h2 | h2
            · exact Or.inl (by rw [h, h2])
            · exact Or.inr (by rw [h, h2])
    · -- unlinked cases keep their order and values
      rw [rsc_chains_filter (graph_node_list es0) cases L es sts _ hstsG hsndG]
      rw [List.filter_filter]
      refine List.filter_congr ?_
      intro p _
      rw [Bool.and_self]

/-- Closed witness for `reorganize_switch_cases_spec` at a concrete
two-case mapping. -/
theorem reorganize_switch_cases_spec_witness :
    ((reorganize_switch_cases
        [(3, .block 30 4 [] Option.none),
         (7, .block 70 4 [] Option.none)]).map Prod.fst).Perm
      ([(3, Node.block 30 4 [] Option.none),
        (7, Node.block 70 4 [] Option.none)].map Prod.fst)
    ∧ (∀ p ∈ reorganize_switch_cases
        [(3, .block 30 4 [] Option.none), (7, .block 70 4 [] Option.none)],
        ∃ v, (p.1, v) ∈ [(3, Node.block 30 4 [] Option.none),
            (7, Node.block 70 4 [] Option.none)]
          ∧ (p.2 = v ∨ p.2 = remove_last_statement v))
    ∧ (reorganize_switch_cases
        [(3, .block 30 4 [] Option.none),
         (7, .block 70 4 [] Option.none)]).filter
        (fun p => !decide (p.1 ∈ graph_node_list
          (addCaseEdges
            [(3, .block 30 4 [] Option.none), (7, .block 70 4 [] Option.none)]
            [] (caseid2gotoaddrs
              [(3, .block 30 4 [] Option.none),
               (7, .block 70 4 [] Option.none)]))))
      = [(3, Node.block 30 4 [] Option.none),
         (7, Node.block 70 4 [] Option.none)].filter
        (fun p => !decide (p.1 ∈ graph_node_list
          (addCaseEdges
            [(3, .block 30 4 [] Option.none), (7, .block 70 4 [] Option.none)]
            [] (caseid2gotoaddrs
              [(3, .block 30 4 [] Option.none),
               (7, .block 70 4 [] Option.none)])))) :=
  reorganize_switch_cases_spec
    [(3, .block 30 4 [] Option.none), (7, .block 70 4 [] Option.none)]
    (by decide)

end Structuring

